import Mathlib

/-!
# Verification of the hdf5pickle encode/decode engine

A shallow embedding of `src/hdf5pickle/base.py`: Python objects become a
heap of identified objects (identity = `ObjId`, matching CPython `id`),
the HDF5 file becomes a path-addressed store of group/array nodes with
attributes, and the `Pickler`/`Unpickler` recursions become fuel-indexed
functions over those states.  Machine-level facts absorbed into the model
(each noted at its definition): numpy round-trips scalars and `uint8`
byte blocks exactly, and node names never contain `/` (so a slash-joined
path is the same thing as its segment list).
-/

namespace Hdf5Pickle

/-- Object identity: the model's stand-in for CPython `id(obj)`. -/
abbrev ObjId := Nat

/-- A node path, as its list of name segments; `[]` is the root `/`.
Segments never contain a slash, so this is exactly the information in the
slash-joined strings the source passes around. -/
abbrev Path := List String

/-- The `pickletype` tags written by `base.py` (pickle's one-letter codes
plus the module's own `BB`/`RR`/`CC`; the numeric-array family tags are
out of the model, their optional backends being absent). -/
inductive Tag where
  | tNone | tBool | tInt | tLong | tFloat | tComplex | tString | tUnicode
  | tTuple | tList | tDict | tReduce | tInst | tGlobal | tExt4 | tRef
deriving DecidableEq, Repr

/-- An HDF5 attribute value as this module writes and reads them. -/
inductive AttrVal where
  | int (n : Int)
  | str (s : String)
  | path (p : Path)
  | tag (t : Tag)
deriving DecidableEq, Repr

/-- Python truthiness of an attribute value, used by `Unpickler.load`'s
`if key:` test.  A `path` value models the nonempty absolute-path string
the source stores in `target`; a `tag` is one of the nonempty tag
strings, hence truthy. -/
def AttrVal.truthy : AttrVal → Bool
  | .int n => n ≠ 0
  | .str s => s ≠ ""
  | .path _ => true
  | .tag _ => true

/-- The data block of an array node, as `tables.File.createArray`
receives it from `_FileInterface.save_array`.  Floats and complexes are
abstract exact payloads (an `Int` standing for the stored double's bit
pattern): HDF5/numpy store and return them unchanged, which is all the
engine relies on. -/
inductive ArrData where
  | intScalar (n : Int)
  | floatScalar (x : Int)
  | complexScalar (re im : Int)
  | intVec (xs : List Int)
  | floatVec (xs : List Int)
  | complexVec (xs : List (Int × Int))
  | byteVec (bs : List Nat)
deriving DecidableEq, Repr

/-- A node is a group or an array leaf. -/
inductive NodeData where
  | group
  | arr (d : ArrData)
deriving DecidableEq, Repr

/-- A stored node: its kind/data plus its named attributes.  Attribute
lookup takes the first match, and `setAttr` prepends, so the newest
write of a name wins, as in HDF5. -/
structure Node where
  data : NodeData
  attrs : List (String × AttrVal)
deriving DecidableEq, Repr

/-- First-match lookup in an attribute list. -/
def attrsFind? : List (String × AttrVal) → String → Option AttrVal
  | [], _ => Option.none
  | e :: es, k => if e.1 = k then some e.2 else attrsFind? es k

def Node.getAttr? (nd : Node) (k : String) : Option AttrVal :=
  attrsFind? nd.attrs k

def Node.setAttr (nd : Node) (k : String) (v : AttrVal) : Node :=
  { nd with attrs := (k, v) :: nd.attrs }

def Node.hasAttr (nd : Node) (k : String) : Bool :=
  (nd.getAttr? k).isSome

/-- The HDF5 file's tree, as the list of its nodes in creation order.
The backend (an external collaborator here) guarantees each created path
is fresh, so creation is modelled as append. -/
abbrev Store := List (Path × Node)

def Store.find? : Store → Path → Option Node
  | [], _ => Option.none
  | e :: s, p => if e.1 = p then some e.2 else Store.find? s p

def Store.hasPath (s : Store) (p : Path) : Bool :=
  (Store.find? s p).isSome

/-- `createGroup`/`createArray`: a new node at a fresh path. -/
def Store.add (s : Store) (p : Path) (nd : Node) : Store :=
  s ++ [(p, nd)]

def Store.setAttr : Store → Path → String → AttrVal → Store
  | [], _, _, _ => []
  | e :: s, p, k, v =>
      (if e.1 = p then (e.1, Node.setAttr e.2 k v) else e) :: Store.setAttr s p k v

/-- The names of the children of the group at `p` (pytables
`node._v_children`), in node creation order. -/
def Store.childNames : Store → Path → List String
  | [], _ => []
  | e :: s, p =>
    match e.1.drop p.length with
    | [n] =>
        if e.1.take p.length = p then n :: Store.childNames s p
        else Store.childNames s p
    | _ => Store.childNames s p

/-! ## Decimal names, long integers, UTF-8

The byte-level helpers the engine leans on: `'_%d' % i` child names,
`pickle.encode_long`/`pickle.decode_long`, and the utf-8 codec. -/

/-- The decimal-digit loop, on an explicit recursion budget (`fuel ≥ n`
always suffices, see `decAux_fuel`). -/
def decAux : Nat → Nat → List Nat
  | 0, n => [n]
  | fuel + 1, n => if n < 10 then [n] else (n % 10) :: decAux fuel (n / 10)

/-- The decimal digits of `n`, least significant first (`0 ↦ [0]`). -/
def decDigitsRev (n : Nat) : List Nat := decAux n n

def digitChar (d : Nat) : Char := Char.ofNat (48 + d)

/-- `'%d' % n`: the decimal rendering of `n`. -/
def decStr (n : Nat) : String :=
  String.mk ((decDigitsRev n).reverse.map digitChar)

/-- The indexed child name `'_%d' % i` of tuple/list encodes and of
surrogate dict keys. -/
def idxSeg (i : Nat) : String := "_" ++ decStr i

/-- Little-endian base-256 value of a byte list. -/
def leBytesToNat : List Nat → Nat
  | [] => 0
  | b :: bs => b + 256 * leBytesToNat bs

/-- `pickle.decode_long`: two's complement little-endian bytes to an
integer (empty means 0). -/
def decodeLong (bs : List Nat) : Int :=
  match bs.getLast? with
  | Option.none => 0
  | some top =>
      if top ≥ 128 then (leBytesToNat bs : Int) - (256 : Int) ^ bs.length
      else (leBytesToNat bs : Int)

/-- The byte emission loop of `pickle.encode_long` for a nonzero input:
emit low bytes until the remaining quotient is the sign extension and
the top emitted byte carries the right sign bit (`fuel ≥ n.natAbs`
always suffices). -/
def encLongAux : Nat → Int → List Nat
  | 0, n => [(n % 256).toNat]
  | fuel + 1, n =>
    let b := (n % 256).toNat
    let rest := n / 256
    if (rest = 0 ∧ b < 128) ∨ (rest = -1 ∧ 128 ≤ b) then [b]
    else b :: encLongAux fuel rest

/-- `pickle.encode_long`: minimal two's complement little-endian bytes,
`[]` for 0. -/
def encodeLong (n : Int) : List Nat :=
  if n = 0 then [] else encLongAux n.natAbs n

/-- utf-8 encoding of one code point (total; meaningful below 0x110000,
and Python 2's encoder also accepts the surrogate range, as this does). -/
def utf8EncChar (c : Nat) : List Nat :=
  if c < 128 then [c]
  else if c < 2048 then [192 + c / 64, 128 + c % 64]
  else if c < 65536 then [224 + c / 4096, 128 + c / 64 % 64, 128 + c % 64]
  else [240 + c / 262144, 128 + c / 4096 % 64, 128 + c / 64 % 64, 128 + c % 64]

def utf8Enc (cs : List Nat) : List Nat :=
  cs.flatMap utf8EncChar

/-- Is `b` a utf-8 continuation byte? -/
def utf8Cont (b : Nat) : Prop := 128 ≤ b ∧ b < 192

instance (b : Nat) : Decidable (utf8Cont b) := by
  unfold utf8Cont; infer_instance

/-- The utf-8 decode loop on an explicit recursion budget
(`fuel ≥ bs.length` always suffices). -/
def utf8DecAux : Nat → List Nat → Option (List Nat)
  | _, [] => some []
  | 0, _ :: _ => Option.none
  | fuel + 1, b :: bs =>
    if b < 128 then (utf8DecAux fuel bs).map (fun cs => b :: cs)
    else if b < 192 then Option.none
    else if b < 224 then
      match bs with
      | b1 :: bs1 =>
        if utf8Cont b1 then
          (utf8DecAux fuel bs1).map (fun cs => ((b - 192) * 64 + (b1 - 128)) :: cs)
        else Option.none
      | _ => Option.none
    else if b < 240 then
      match bs with
      | b1 :: b2 :: bs2 =>
        if utf8Cont b1 ∧ utf8Cont b2 then
          (utf8DecAux fuel bs2).map
            (fun cs => ((b - 224) * 4096 + (b1 - 128) * 64 + (b2 - 128)) :: cs)
        else Option.none
      | _ => Option.none
    else if b < 248 then
      match bs with
      | b1 :: b2 :: b3 :: bs3 =>
        if utf8Cont b1 ∧ utf8Cont b2 ∧ utf8Cont b3 then
          (utf8DecAux fuel bs3).map
            (fun cs =>
              ((b - 240) * 262144 + (b1 - 128) * 4096 + (b2 - 128) * 64
                + (b3 - 128)) :: cs)
        else Option.none
      | _ => Option.none
    else Option.none

/-- utf-8 decoding (`str.decode('utf-8')`); `none` models
`UnicodeDecodeError`. -/
def utf8Dec (bs : List Nat) : Option (List Nat) :=
  utf8DecAux bs.length bs

/-- `data.split('\n')` on a byte string: split on byte 10. -/
def splitNl : List Nat → List (List Nat)
  | [] => [[]]
  | b :: rest =>
    match splitNl rest with
    | [] => []
    | g :: gs => if b = 10 then [] :: g :: gs else (b :: g) :: gs

/-! ## The Python object heap

Python 2 values as a graph: every object has an identity (`ObjId`) and a
shape; containers hold the identities of their members, exactly as
CPython objects hold references.  `str` payloads are byte lists (a
Python 2 `str` is bytes), `unicode` payloads are code-point lists.
`pyGlobal` is a class/function object, identified by the
`module`/`name` pair `_save_global` stores for it.  `pyInst` is an
old-style instance (class reference, the `__getinitargs__` tuple —
`()`, possibly interned and shared, when absent — and its `__dict__`
as a field list); `pyObj` is a new-style object whose
`__reduce_ex__(2)` is the default `(__newobj__, (cls,), __dict__)`.
`pyRaw` is a bare numpy block, the result of an untagged raw read. -/
inductive Obj where
  | pyNone
  | pyBool (b : Bool)
  | pyInt (n : Int)
  | pyLong (n : Int)
  | pyFloat (x : Int)
  | pyComplex (re im : Int)
  | pyStr (bs : List Nat)
  | pyUnicode (cs : List Nat)
  | pyTuple (es : List ObjId)
  | pyList (es : List ObjId)
  | pyDict (entries : List (ObjId × ObjId))
  | pyInst (cls args : ObjId) (fields : List (ObjId × ObjId))
  | pyObj (cls args : ObjId) (fields : List (ObjId × ObjId))
  | pyGlobal (modName clsName : List Nat)
  | pyRaw (d : ArrData)
deriving DecidableEq, Repr

abbrev Heap := List (ObjId × Obj)

def Heap.find? : Heap → ObjId → Option Obj
  | [], _ => Option.none
  | e :: h, i => if e.1 = i then some e.2 else Heap.find? h i

/-- Model errors: `outOfFuel` only marks exhausted recursion budget;
the others stand for the Python exceptions noted at their raise sites. -/
inductive Err where
  | outOfFuel
  | missingObj
  | typeErr
  | nodeMissing
  | attrMissing
  | unknownTag
  | decodeFail
  | external
  | badState
deriving DecidableEq, Repr

/-! ## Identifier keys and surrogate names (`_save_dict_content`) -/

/-- The bytes of a string literal (all claims use ASCII data). -/
def strB (s : String) : List Nat := s.data.map Char.toNat

/-- Bytes back to a node-name string (`segName` is only applied to
names that passed the ASCII identifier check, where it inverts
`strB`). -/
def segName (bs : List Nat) : String := String.mk (bs.map Char.ofNat)

def isIdentStart (b : Nat) : Bool :=
  (65 ≤ b ∧ b ≤ 90) ∨ (97 ≤ b ∧ b ≤ 122) ∨ b = 95

def isIdentByte (b : Nat) : Bool :=
  isIdentStart b ∨ (48 ≤ b ∧ b ≤ 57)

/-- `pythonIdRE.match(name)`: `^[a-zA-Z_][a-zA-Z0-9_]*$`. -/
def pyIdent (bs : List Nat) : Bool :=
  match bs with
  | [] => false
  | b :: rest => isIdentStart b ∧ rest.all isIdentByte

/-- Python 2's keyword list (`keyword.kwlist`). -/
def py2Keywords : List String :=
  ["and", "as", "assert", "break", "class", "continue", "def", "del",
   "elif", "else", "except", "exec", "finally", "for", "from", "global",
   "if", "import", "in", "is", "lambda", "not", "or", "pass", "print",
   "raise", "return", "try", "while", "with", "yield"]

/-- `reservedIdRE.match(name)`: `^_[cfgv]_`. -/
def reservedId (bs : List Nat) : Bool :=
  match bs with
  | 95 :: c :: 95 :: _ => c = 99 ∨ c = 102 ∨ c = 103 ∨ c = 118
  | _ => false

/-- `_check_pytables_name` on a `str` key: a valid bare identifier that
is no keyword and no pytables-reserved `_x_` name (the `''`/`'.'`/`'/'`
checks are subsumed by the identifier check). -/
def pyValidName (bs : List Nat) : Bool :=
  pyIdent bs ∧ ¬ (py2Keywords.map strB).contains bs ∧ ¬ reservedId bs

/-- The direct child name for a dict key, when it gets one:
`isinstance(key, str) and _check_pytables_name(key) and key != "__"`. -/
def directName? (h : Heap) (k : ObjId) : Option String :=
  match Heap.find? h k with
  | some (.pyStr bs) =>
      if pyValidName bs ∧ bs ≠ strB "__" then some (segName bs) else Option.none
  | _ => Option.none

/-- The surrogate-assignment loop `while ("_%d" % keyi) in seen`.
`fuel = seen.length + 1` always finds a free index. -/
def nextFree (seen : List String) (keyi : Nat) : Nat → Nat
  | 0 => keyi
  | fuel + 1 => if seen.contains (idxSeg keyi) then nextFree seen (keyi + 1) fuel else keyi

/-- Second pass of `_save_dict_content`: each key's resolved child name
and whether it is direct, in key order.  `seen` starts as all direct
names (first pass); `keyi` persists across surrogate keys as in the
source. -/
def assignNames (h : Heap) : List ObjId → List String → Nat → List (String × Bool)
  | [], _, _ => []
  | k :: ks, seen, keyi =>
    match directName? h k with
    | some nm => (nm, true) :: assignNames h ks seen keyi
    | Option.none =>
        let j := nextFree seen keyi (seen.length + 1)
        (idxSeg j, false) :: assignNames h ks (seen ++ [idxSeg j]) j

/-- The whole name assignment of `_save_dict_content` for a key list. -/
def mkAssign (h : Heap) (ks : List ObjId) : List (String × Bool) :=
  assignNames h ks (ks.filterMap (directName? h)) 0

/-! ## The Pickler -/

/-- Encoder state: `paths` is the identity memo `Pickler.paths`
(`id(obj) -> path`), `store` the file.  (`Pickler.memo` only keeps
objects alive for the garbage collector and has no model content.) -/
structure PState where
  paths : List (ObjId × Path)
  store : Store
deriving Repr

/-- First-match lookup in the identity memo. -/
def pathsFind? : List (ObjId × Path) → ObjId → Option Path
  | [], _ => Option.none
  | e :: ps, i => if e.1 = i then some e.2 else pathsFind? ps i

def PState.lookupPath (st : PState) (i : ObjId) : Option Path :=
  pathsFind? st.paths i

/-- `Pickler.__init__`: stamps `hdf5pickle_protocol = 1` onto the root
node, its one and only store effect. -/
def picklerInit (s : Store) : Store :=
  Store.setAttr s [] "hdf5pickle_protocol" (.int 1)

/-- `Unpickler.__init__` touches the store not at all. -/
def unpicklerInit (s : Store) : Store := s

/-- `_save_ref`: a fresh group tagged `RR` whose `target` is the
already-memoized path. -/
def saveRef (path objpath : Path) (st : PState) : PState :=
  { st with
    store :=
      Store.add st.store path
        { data := .group,
          attrs := [("target", .path objpath), ("pickletype", .tag .tRef)] } }

/-- An empty-sequence leaf: `save_array` writes a one-byte block and
marks it with the `empty` attribute instead of a zero-sized array. -/
def emptyLeaf : Node :=
  { data := .arr (.intVec [0]), attrs := [("empty", .int 1)] }

def leafOf (d : ArrData) : Node := { data := .arr d, attrs := [] }

def groupNode : Node := { data := .group, attrs := [] }

/-- Collect `f` over a list, failing on the first failure. -/
def seqOpt {α β : Type} (f : α → Option β) : List α → Option (List β)
  | [] => some []
  | a :: as =>
    match f a with
    | some b => (seqOpt f as).map (fun bs => b :: bs)
    | Option.none => Option.none

/-- The homogeneity check of `save_array` on a nonempty tuple/list:
all elements must share the exact type of the first, and that type must
be `int`, `float` or `complex` (note: *not* `str`, `bool` or `long`);
otherwise `TypeError`.  Returns the flattened block. -/
def flattenSeq (h : Heap) (es : List ObjId) : Option ArrData :=
  match es with
  | [] => Option.none
  | e0 :: _ =>
    match Heap.find? h e0 with
    | some (.pyInt _) =>
        (seqOpt (fun e =>
          match Heap.find? h e with
          | some (.pyInt n) => some n
          | _ => Option.none) es).map ArrData.intVec
    | some (.pyFloat _) =>
        (seqOpt (fun e =>
          match Heap.find? h e with
          | some (.pyFloat x) => some x
          | _ => Option.none) es).map ArrData.floatVec
    | some (.pyComplex _ _) =>
        (seqOpt (fun e =>
          match Heap.find? h e with
          | some (.pyComplex re im) => some (re, im)
          | _ => Option.none) es).map ArrData.complexVec
    | _ => Option.none

/-- Add a leaf at `path` and tag it: the `save_array` + `set_attr
pickletype` pair every scalar `_save_*` performs. -/
def addTaggedLeaf (path : Path) (nd : Node) (t : Tag) (st : PState) : PState :=
  { st with
    store := Store.setAttr (Store.add st.store path nd) path "pickletype" (.tag t) }

/-- `_save_tuple`'s children loop (`'%s/_%d'` names), generic in the
recursive save `sv`. -/
def saveSeq (sv : Path → ObjId → PState → Except Err PState) (path : Path) :
    Nat → List ObjId → PState → Except Err PState
  | _, [], st => .ok st
  | i, e :: es, st => do
      let st ← sv (path ++ [idxSeg i]) e st
      saveSeq sv path (i + 1) es st

/-- `_save_dict_content`'s write loop: each value under its resolved
name; each surrogate key object under `__/<name>`, creating the `__`
group on first need (`hassub`). -/
def saveDictRows (sv : Path → ObjId → PState → Except Err PState) (path : Path) :
    List ((ObjId × ObjId) × String × Bool) → Bool → PState → Except Err PState
  | [], _, st => .ok st
  | (kv, nm, direct) :: rows, hassub, st => do
      let st ← sv (path ++ [nm]) kv.2 st
      if direct then
        saveDictRows sv path rows hassub st
      else
        let st :=
          if hassub then st
          else { st with store := Store.add st.store (path ++ ["__"]) groupNode }
        let st ← sv (path ++ ["__", nm]) kv.1 st
        saveDictRows sv path rows true st

/-- `_save_tuple`: try the flattened leaf, fall back to a composite
group with one indexed child per element.  (`_save_list` runs this and
re-tags the node `LIST`.) -/
def saveTupleAt (h : Heap) (sv : Path → ObjId → PState → Except Err PState)
    (path : Path) (es : List ObjId) (t : Tag) (st : PState) : Except Err PState :=
  if es = [] then .ok (addTaggedLeaf path emptyLeaf t st)
  else
    match flattenSeq h es with
    | some d => .ok (addTaggedLeaf path (leafOf d) t st)
    | Option.none => do
        let st : PState :=
          { st with
            store :=
              Store.setAttr (Store.add st.store path groupNode) path "pickletype"
                (.tag t) }
        saveSeq sv path 0 es st

/-- `_save_dict_content`: resolve every key's child name, then write
values (and surrogate keys under `__`).  `hassub` starts from a
`has_path` probe, so an `__` group already written (by `_save_inst` /
`_save_reduce`) is reused. -/
def saveDictContent (h : Heap) (sv : Path → ObjId → PState → Except Err PState)
    (path : Path) (entries : List (ObjId × ObjId)) (st : PState) :
    Except Err PState :=
  let asg := mkAssign h (entries.map (·.1))
  saveDictRows sv path (entries.zip asg) (Store.hasPath st.store (path ++ ["__"])) st

/-- `Pickler._save`: the top of every encode.  Step 1: an identity
already memoized becomes a `REF` node.  Step 2: memoize the path
*before* anything else.  Then dispatch on the object's type; `pyObj`
goes through the `__reduce_ex__(2)` / `_save_reduce` `__newobj__`
route, `pyRaw` has no dispatch entry, no reduce and is no class, hence
`PicklingError`. -/
def saveObj (h : Heap) : Nat → Path → ObjId → PState → Except Err PState
  | 0, _, _, _ => .error .outOfFuel
  | fuel + 1, path, oid, st =>
    match st.lookupPath oid with
    | some objpath => .ok (saveRef path objpath st)
    | Option.none =>
      let st : PState := { st with paths := (oid, path) :: st.paths }
      let sv := saveObj h fuel
      match Heap.find? h oid with
      | Option.none => .error .missingObj
      | some Obj.pyNone => .ok (addTaggedLeaf path (leafOf (.intScalar 0)) .tNone st)
      | some (Obj.pyBool b) =>
          .ok (addTaggedLeaf path (leafOf (.intScalar (if b then 1 else 0))) .tBool st)
      | some (Obj.pyInt n) => .ok (addTaggedLeaf path (leafOf (.intScalar n)) .tInt st)
      | some (Obj.pyLong n) =>
          .ok (addTaggedLeaf path
            (if n = 0 then emptyLeaf else leafOf (.byteVec (encodeLong n))) .tLong st)
      | some (Obj.pyFloat x) => .ok (addTaggedLeaf path (leafOf (.floatScalar x)) .tFloat st)
      | some (Obj.pyComplex re im) =>
          .ok (addTaggedLeaf path (leafOf (.complexScalar re im)) .tComplex st)
      | some (Obj.pyStr bs) =>
          .ok (addTaggedLeaf path
            (if bs = [] then emptyLeaf else leafOf (.byteVec bs)) .tString st)
      | some (Obj.pyUnicode cs) =>
          .ok (addTaggedLeaf path
            (if utf8Enc cs = [] then emptyLeaf else leafOf (.byteVec (utf8Enc cs)))
            .tUnicode st)
      | some (Obj.pyTuple es) => saveTupleAt h sv path es .tTuple st
      | some (Obj.pyList es) => do
          let st ← saveTupleAt h sv path es .tTuple st
          .ok { st with store := Store.setAttr st.store path "pickletype" (.tag .tList) }
      | some (Obj.pyDict entries) => do
          let st : PState :=
            { st with
              store :=
                Store.setAttr (Store.add st.store path groupNode) path "pickletype"
                  (.tag .tDict) }
          saveDictContent h sv path entries st
      | some (Obj.pyInst cls args fields) => do
          let st : PState :=
            { st with
              store :=
                Store.add
                  (Store.setAttr (Store.add st.store path groupNode) path "pickletype"
                    (.tag .tInst))
                  (path ++ ["__"]) groupNode }
          let st ← sv (path ++ ["__", "cls"]) cls st
          let st ← sv (path ++ ["__", "args"]) args st
          saveDictContent h sv path fields st
      | some (Obj.pyObj cls args fields) => do
          let st : PState :=
            { st with
              store :=
                Store.setAttr
                  (Store.add (Store.add st.store path groupNode) (path ++ ["__"])
                    groupNode)
                  path "pickletype" (.tag .tReduce) }
          let st ← sv (path ++ ["__", "cls"]) cls st
          let st ← sv (path ++ ["__", "args"]) args st
          let st : PState :=
            { st with
              store := Store.setAttr st.store path "has_reduce_content" (.int 1) }
          saveDictContent h sv path fields st
      | some (Obj.pyGlobal m n) =>
          .ok (addTaggedLeaf path (leafOf (.byteVec (m ++ [10] ++ n))) .tGlobal st)
      | some (Obj.pyRaw _) => .error .typeErr

/-! ## The Unpickler -/

/-- Decoder state: the path memo `Unpickler.memo` plus the heap of
objects built so far (`next` is the next fresh identity). -/
structure UState where
  memo : List (Path × ObjId)
  heap : Heap
  next : Nat
deriving Repr

/-- Building a fresh Python object. -/
def UState.alloc (u : UState) (o : Obj) : Nat × UState :=
  (u.next, { memo := u.memo, heap := u.heap ++ [(u.next, o)], next := u.next + 1 })

/-- Overwrite the object stored at id `i`. -/
def heapSet : Heap → ObjId → Obj → Heap
  | [], _, _ => []
  | e :: h, i, o => (if e.1 = i then (i, o) else e) :: heapSet h i o

/-- In-place mutation of an existing object (list append, dict fill,
`__dict__.update`). -/
def UState.setObj (u : UState) (i : ObjId) (o : Obj) : UState :=
  { u with heap := heapSet u.heap i o }

/-- First-match lookup in the decoder's path memo. -/
def memoFind? : List (Path × ObjId) → Path → Option ObjId
  | [], _ => Option.none
  | e :: ms, p => if e.1 = p then some e.2 else memoFind? ms p

def UState.lookupMemo (u : UState) (p : Path) : Option ObjId :=
  memoFind? u.memo p

def memoIns (p : Path) (i : ObjId) (u : UState) : UState :=
  { u with memo := (p, i) :: u.memo }

/-- Python 2 `cmp` on byte strings (node names), -1/0/1. -/
def charListCmp : List Char → List Char → Int
  | [], [] => 0
  | [], _ :: _ => -1
  | _ :: _, [] => 1
  | a :: as, b :: bs =>
      if a.toNat < b.toNat then -1
      else if b.toNat < a.toNat then 1
      else charListCmp as bs

def pyStrCmp (a b : String) : Int := charListCmp a.data b.data

/-- The comparator `cmpfunc` of `_load_list_content`: length first,
then byte-wise `cmp`. -/
def cmpfunc (a b : String) : Int :=
  let c : Int := (a.length : Int) - (b.length : Int)
  if c = 0 then pyStrCmp a b else c

/-- The non-strict order `cmpfunc` induces (`cmpfunc(a, b) <= 0`). -/
def nameLe (a b : String) : Prop := cmpfunc a b ≤ 0

instance (a b : String) : Decidable (nameLe a b) := by
  unfold nameLe; infer_instance

/-- `names.sort(cmpfunc)`: a comparison sort under `cmpfunc`; over the
total order `cmpfunc` induces, every comparison sort agrees. -/
def sortNames (names : List String) : List String :=
  List.insertionSort nameLe names

/-- `list(node.read())` on a stored block: one fresh Python scalar per
element (a 0-d block is not iterable, `TypeError`). -/
def arrToElems (d : ArrData) : Option (List Obj) :=
  match d with
  | .intVec xs => some (xs.map Obj.pyInt)
  | .floatVec xs => some (xs.map Obj.pyFloat)
  | .complexVec xs => some (xs.map fun e => Obj.pyComplex e.1 e.2)
  | .byteVec bs => some (bs.map fun b => Obj.pyInt (Int.ofNat b))
  | _ => Option.none

def allocElems (u : UState) : List Obj → List ObjId × UState
  | [] => ([], u)
  | o :: os =>
      let (i, u) := u.alloc o
      let (is, u) := allocElems u os
      (i :: is, u)

abbrev Loader := Path → UState → Except Err (ObjId × UState)

/-- Load the children `p/<name>` for `names` in order, collecting the
objects. -/
def loadChildren (ld : Loader) (p : Path) :
    List String → UState → Except Err (List ObjId × UState)
  | [], u => .ok ([], u)
  | nm :: rest, u => do
      let (i, u) ← ld (p ++ [nm]) u
      let (is, u) ← loadChildren ld p rest u
      .ok (i :: is, u)

/-- `_load_list_content`: an array node reads as a fresh list of fresh
scalars (or the canonical empty list under the `empty` marker); a group
node pre-registers a fresh empty list in the memo ("avoid infinite
loop"), loads the children in `cmpfunc` order, then fills the list. -/
def loadListContent (ld : Loader) (s : Store) (p : Path) (nd : Node) (u : UState) :
    Except Err (ObjId × UState) :=
  match nd.data with
  | .arr d =>
      if nd.hasAttr "empty" then .ok (u.alloc (.pyList []))
      else
        match arrToElems d with
        | some os =>
            let (is, u) := allocElems u os
            .ok (u.alloc (.pyList is))
        | Option.none => .error .typeErr
  | .group => do
      let (ell, u) := u.alloc (.pyList [])
      let u := memoIns p ell u
      let names := sortNames (Store.childNames s p)
      let (is, u) ← loadChildren ld p names u
      .ok (ell, u.setObj ell (.pyList is))

/-- `name.startswith('_')`. -/
def startsUnderscore (nm : String) : Bool :=
  match nm.data with
  | c :: _ => c = '_'
  | [] => false

/-- The surrogate-key reads of `_load_dict_content`: every `_`-prefixed
child of `__` is a stored key object. -/
def loadStrkeys (ld : Loader) (p : Path) :
    List String → UState → Except Err (List (String × ObjId) × UState)
  | [], u => .ok ([], u)
  | nm :: rest, u =>
      if startsUnderscore nm then do
        let (k, u) ← ld (p ++ ["__", nm]) u
        let (ks, u) ← loadStrkeys ld p rest u
        .ok ((nm, k) :: ks, u)
      else loadStrkeys ld p rest u

/-- First-match lookup in the surrogate-key table. -/
def skFind? : List (String × ObjId) → String → Option ObjId
  | [], _ => Option.none
  | e :: ks, nm => if e.1 = nm then some e.2 else skFind? ks nm

/-- The child loop of `_load_dict_content`: skip `__`; a child whose
name is a surrogate gets its stored key object, any other child name is
itself the key (a fresh string object). -/
def loadDictRows (ld : Loader) (p : Path) (strkeys : List (String × ObjId)) :
    List String → UState → Except Err (List (ObjId × ObjId) × UState)
  | [], u => .ok ([], u)
  | nm :: rest, u =>
      if nm = "__" then loadDictRows ld p strkeys rest u
      else do
        let (k, u) :=
          match skFind? strkeys nm with
          | some kid => (kid, u)
          | Option.none => u.alloc (.pyStr (strB nm))
        let (v, u) ← ld (p ++ [nm]) u
        let (kvs, u) ← loadDictRows ld p strkeys rest u
        .ok ((k, v) :: kvs, u)

/-- `_load_dict_content`: recover the surrogate-key table, then read
every non-`__` child into a key/value list. -/
def loadDictContent (ld : Loader) (s : Store) (p : Path) (u : UState) :
    Except Err (List (ObjId × ObjId) × UState) := do
  let (strkeys, u) ←
    if (Store.childNames s p).contains "__" then
      loadStrkeys ld p (Store.childNames s (p ++ ["__"])) u
    else .ok ([], u)
  loadDictRows ld p strkeys (Store.childNames s p) u

/-- A state value as `_setstate` folds it into `__dict__`: a dict gives
its entries, `None` (and the skipped falsy empty) gives nothing. -/
def stateEntries (u : UState) (i : ObjId) : Option (List (ObjId × ObjId)) :=
  match Heap.find? u.heap i with
  | some (.pyDict es) => some es
  | some .pyNone => some []
  | _ => Option.none

/-- Merge state entries into the (blank) `__dict__` of the instance at
`i`. -/
def updateFields (u : UState) (i : ObjId) (es : List (ObjId × ObjId)) :
    Except Err UState :=
  match Heap.find? u.heap i with
  | some (.pyInst c a fs) => .ok (u.setObj i (.pyInst c a (fs ++ es)))
  | some (.pyObj c a fs) => .ok (u.setObj i (.pyObj c a (fs ++ es)))
  | _ => .error .badState

/-- `Unpickler._setstate` (no `__setstate__` hook on modelled classes):
a 2-tuple splits into dict state and slot state, both folded in;
otherwise the state itself is folded in; a `None`/falsy state is
skipped. -/
def applyState (u : UState) (i : ObjId) (stateId : ObjId) : Except Err UState :=
  match Heap.find? u.heap stateId with
  | some (.pyTuple [a, b]) =>
      match stateEntries u a, stateEntries u b with
      | some e1, some e2 => updateFields u i (e1 ++ e2)
      | _, _ => .error .badState
  | _ =>
      match stateEntries u stateId with
      | some es => updateFields u i es
      | Option.none => .error .badState

/-- The `__getinitargs__`-free `_instantiate` precondition: the stored
`args` must be the empty tuple, any other call into a host class is
outside the model. -/
def checkEmptyArgs (u : UState) (argsId : ObjId) : Except Err Unit :=
  match Heap.find? u.heap argsId with
  | some (.pyTuple []) => .ok ()
  | some (.pyTuple _) => .error .external
  | _ => .error .typeErr

/-- The dispatch table of `Unpickler`, one routine per `pickletype`
tag, each mirroring its `_load_*`. -/
def loadTagged (s : Store) (ld : Loader) (t : Tag) (p : Path) (nd : Node)
    (u : UState) : Except Err (ObjId × UState) :=
  match t with
  | .tRef =>
      match nd.getAttr? "target" with
      | some (.path tp) => ld tp u
      | some _ => .error .typeErr
      | Option.none => .error .attrMissing
  | .tNone => .ok (u.alloc .pyNone)
  | .tBool =>
      match nd.data with
      | .arr (.intScalar n) => .ok (u.alloc (.pyBool (decide (n ≠ 0))))
      | _ => .error .typeErr
  | .tInt =>
      match nd.data with
      | .arr (.intScalar n) => .ok (u.alloc (.pyInt n))
      | _ => .error .typeErr
  | .tLong =>
      if nd.hasAttr "empty" then .ok (u.alloc (.pyLong (decodeLong [])))
      else
        match nd.data with
        | .arr (.byteVec bs) => .ok (u.alloc (.pyLong (decodeLong bs)))
        | _ => .error .typeErr
  | .tFloat =>
      match nd.data with
      | .arr (.floatScalar x) => .ok (u.alloc (.pyFloat x))
      | _ => .error .typeErr
  | .tComplex =>
      match nd.data with
      | .arr (.complexScalar re im) => .ok (u.alloc (.pyComplex re im))
      | _ => .error .typeErr
  | .tString =>
      if nd.hasAttr "empty" then .ok (u.alloc (.pyStr []))
      else
        match nd.data with
        | .arr (.byteVec bs) => .ok (u.alloc (.pyStr bs))
        | _ => .error .typeErr
  | .tUnicode =>
      if nd.hasAttr "empty" then .ok (u.alloc (.pyUnicode []))
      else
        match nd.data with
        | .arr (.byteVec bs) =>
            match utf8Dec bs with
            | some cs => .ok (u.alloc (.pyUnicode cs))
            | Option.none => .error .decodeFail
        | _ => .error .typeErr
  | .tTuple => do
      let (ell, u) ← loadListContent ld s p nd u
      match Heap.find? u.heap ell with
      | some (.pyList is) => .ok (u.alloc (.pyTuple is))
      | _ => .error .typeErr
  | .tList => loadListContent ld s p nd u
  | .tDict => do
      let (d, u) := u.alloc (.pyDict [])
      let u := memoIns p d u
      let (entries, u) ← loadDictContent ld s p u
      .ok (d, u.setObj d (.pyDict entries))
  | .tInst => do
      let (clsId, u) ← ld (p ++ ["__", "cls"]) u
      let (argsId, u) ← ld (p ++ ["__", "args"]) u
      let _ ← checkEmptyArgs u argsId
      let (inst, u) := u.alloc (.pyInst clsId argsId [])
      let u := memoIns p inst u
      if Store.hasPath s (p ++ ["__", "content"]) then do
        let (sid, u) ← ld (p ++ ["__", "content"]) u
        let u ← applyState u inst sid
        .ok (inst, u)
      else do
        let (entries, u) ← loadDictContent ld s p u
        let u ← updateFields u inst entries
        .ok (inst, u)
  | .tReduce => do
      let (argsId, u) ← ld (p ++ ["__", "args"]) u
      if Store.hasPath s (p ++ ["__", "func"]) then .error .external
      else do
        let (clsId, u) ← ld (p ++ ["__", "cls"]) u
        let _ ← checkEmptyArgs u argsId
        let (obj, u) := u.alloc (.pyObj clsId argsId [])
        let u := memoIns p obj u
        if Store.hasPath s (p ++ ["__", "listitems"]) then .error .external
        else if Store.hasPath s (p ++ ["__", "dictitems"]) then .error .external
        else if Store.hasPath s (p ++ ["__", "content"]) then do
          let (sid, u) ← ld (p ++ ["__", "content"]) u
          match Heap.find? u.heap sid with
          | some .pyNone => .ok (obj, u)
          | _ => do
              let u ← applyState u obj sid
              .ok (obj, u)
        else if nd.hasAttr "has_reduce_content" then do
          let (entries, u) ← loadDictContent ld s p u
          let u ← updateFields u obj entries
          .ok (obj, u)
        else .ok (obj, u)
  | .tGlobal =>
      match nd.data with
      | .arr (.byteVec bs) =>
          match splitNl bs with
          | [m, n] => .ok (u.alloc (.pyGlobal m n))
          | _ => .error .decodeFail
      | _ => .error .typeErr
  | .tExt4 => .error .external

/-- `Unpickler.load`: memoized by path; reads the node's `pickletype`
(PyTables raises `AttributeError` when the attribute is absent, which
escapes `load`), dispatches through `_dispatch` when the tag is truthy
(an unknown truthy key raises `KeyError`), else performs the raw
`node.read()`; and memoizes the result at `path`. -/
def loadPath (s : Store) : Nat → Path → UState → Except Err (ObjId × UState)
  | 0, _, _ => .error .outOfFuel
  | fuel + 1, p, u =>
    match u.lookupMemo p with
    | some i => .ok (i, u)
    | Option.none =>
      match Store.find? s p with
      | Option.none => .error .nodeMissing
      | some nd =>
        match nd.getAttr? "pickletype" with
        | Option.none => .error .attrMissing
        | some v =>
          if AttrVal.truthy v then
            match v with
            | .tag t => do
                let (i, u) ← loadTagged s (loadPath s fuel) t p nd u
                .ok (i, memoIns p i u)
            | _ => .error .unknownTag
          else
            match nd.data with
            | .arr d =>
                let (i, u) := u.alloc (.pyRaw d)
                .ok (i, memoIns p i u)
            | .group => .error .typeErr

/-! ## Top-level operations -/

/-- `hdf5pickle.dump(obj, file, path)`: a fresh `Pickler` (stamping the
protocol attribute) followed by `dump`. -/
def dumpObj (h : Heap) (fuel : Nat) (s : Store) (p : Path) (i : ObjId) :
    Except Err Store :=
  (saveObj h fuel p i { paths := [], store := picklerInit s }).map (·.store)

/-- A fresh `Unpickler`'s state. -/
def freshU : UState := { memo := [], heap := [], next := 0 }

/-- `hdf5pickle.load(file, path)`: a fresh `Unpickler`'s `load`. -/
def loadObj (s : Store) (fuel : Nat) (p : Path) : Except Err (ObjId × UState) :=
  loadPath s fuel p freshU

/-! ## Pure value trees

A `Value` is a supported Python value as a tree — the identity-free
reading of a heap object.  `vInst`/`vObj` name their class by the
`module`/`name` pair of its global and carry the `__dict__`
field list; both are built with no `__getinitargs__` (empty `args`). -/
inductive Value where
  | vNone
  | vBool (b : Bool)
  | vInt (n : Int)
  | vLong (n : Int)
  | vFloat (x : Int)
  | vComplex (re im : Int)
  | vStr (bs : List Nat)
  | vUnicode (cs : List Nat)
  | vTuple (vs : List Value)
  | vList (vs : List Value)
  | vDict (entries : List (Value × Value))
  | vInst (modName clsName : List Nat) (fields : List (Value × Value))
  | vObj (modName clsName : List Nat) (fields : List (Value × Value))
  | vGlobal (modName clsName : List Nat)
deriving Repr

mutual

/-- Lay a value tree out as fresh heap objects (ids from `nx` up),
returning the new objects, the root id and the next free id.  Children
are materialised before their parent; an instance also gets its class
object and its (fresh, unshared) empty `args` tuple. -/
def buildVal : Value → Nat → Heap × ObjId × Nat
  | .vNone, nx => ([(nx, .pyNone)], nx, nx + 1)
  | .vBool b, nx => ([(nx, .pyBool b)], nx, nx + 1)
  | .vInt n, nx => ([(nx, .pyInt n)], nx, nx + 1)
  | .vLong n, nx => ([(nx, .pyLong n)], nx, nx + 1)
  | .vFloat x, nx => ([(nx, .pyFloat x)], nx, nx + 1)
  | .vComplex re im, nx => ([(nx, .pyComplex re im)], nx, nx + 1)
  | .vStr bs, nx => ([(nx, .pyStr bs)], nx, nx + 1)
  | .vUnicode cs, nx => ([(nx, .pyUnicode cs)], nx, nx + 1)
  | .vTuple vs, nx =>
      let (h, ids, nx1) := buildList vs nx
      (h ++ [(nx1, .pyTuple ids)], nx1, nx1 + 1)
  | .vList vs, nx =>
      let (h, ids, nx1) := buildList vs nx
      (h ++ [(nx1, .pyList ids)], nx1, nx1 + 1)
  | .vDict es, nx =>
      let (h, kvs, nx1) := buildPairs es nx
      (h ++ [(nx1, .pyDict kvs)], nx1, nx1 + 1)
  | .vInst m n fs, nx =>
      let (h, kvs, nx1) := buildPairs fs nx
      (h ++ [(nx1, .pyGlobal m n), (nx1 + 1, .pyTuple []),
        (nx1 + 2, .pyInst nx1 (nx1 + 1) kvs)], nx1 + 2, nx1 + 3)
  | .vObj m n fs, nx =>
      let (h, kvs, nx1) := buildPairs fs nx
      (h ++ [(nx1, .pyGlobal m n), (nx1 + 1, .pyTuple []),
        (nx1 + 2, .pyObj nx1 (nx1 + 1) kvs)], nx1 + 2, nx1 + 3)
  | .vGlobal m n, nx => ([(nx, .pyGlobal m n)], nx, nx + 1)

def buildList : List Value → Nat → Heap × List ObjId × Nat
  | [], nx => ([], [], nx)
  | v :: vs, nx =>
      let (h1, i, nx1) := buildVal v nx
      let (h2, is, nx2) := buildList vs nx1
      (h1 ++ h2, i :: is, nx2)

def buildPairs : List (Value × Value) → Nat → Heap × List (ObjId × ObjId) × Nat
  | [], nx => ([], [], nx)
  | (k, v) :: es, nx =>
      let (h1, ki, nx1) := buildVal k nx
      let (h2, vi, nx2) := buildVal v nx1
      let (h3, kvs, nx3) := buildPairs es nx2
      (h1 ++ h2 ++ h3, (ki, vi) :: kvs, nx3)

end

/-- Unfold a list of key/value id pairs through `ex`. -/
def exPairs (ex : ObjId → Option Value) (fs : List (ObjId × ObjId)) :
    Option (List (Value × Value)) :=
  seqOpt (fun e =>
    match ex e.1, ex e.2 with
    | some k, some v => some (k, v)
    | _, _ => Option.none) fs

/-- The value tree a heap object unfolds to (`none` on dangling ids,
raw blocks, non-`()` instance args, or when `fuel` runs out — in
particular on every cyclic object). -/
def extract (h : Heap) : Nat → ObjId → Option Value
  | 0, _ => Option.none
  | fuel + 1, i =>
    let ex := extract h fuel
    match Heap.find? h i with
    | some .pyNone => some .vNone
    | some (.pyBool b) => some (.vBool b)
    | some (.pyInt n) => some (.vInt n)
    | some (.pyLong n) => some (.vLong n)
    | some (.pyFloat x) => some (.vFloat x)
    | some (.pyComplex re im) => some (.vComplex re im)
    | some (.pyStr bs) => some (.vStr bs)
    | some (.pyUnicode cs) => some (.vUnicode cs)
    | some (.pyTuple es) => (seqOpt ex es).map Value.vTuple
    | some (.pyList es) => (seqOpt ex es).map Value.vList
    | some (.pyDict kvs) => (exPairs ex kvs).map Value.vDict
    | some (.pyInst c a fs) =>
        (match Heap.find? h c, Heap.find? h a with
        | some (.pyGlobal m n), some (.pyTuple []) =>
            (exPairs ex fs).map (Value.vInst m n)
        | _, _ => Option.none)
    | some (.pyObj c a fs) =>
        (match Heap.find? h c, Heap.find? h a with
        | some (.pyGlobal m n), some (.pyTuple []) =>
            (exPairs ex fs).map (Value.vObj m n)
        | _, _ => Option.none)
    | some (.pyGlobal m n) => some (.vGlobal m n)
    | some (.pyRaw _) => Option.none
    | Option.none => Option.none

/-- The bytes of a key that `_save_dict_content` stores under a direct
child name (the `Value`-level reading of `directName?`). -/
def vDirectBytes : Value → Option (List Nat)
  | .vStr bs => if pyValidName bs ∧ bs ≠ strB "__" then some bs else Option.none
  | _ => Option.none

/-- Direct keys of one mapping must be pairwise distinct (Python dicts
hold no two equal keys); this is what keeps their child names apart. -/
def keysOk (ks : List Value) : Bool :=
  decide (ks.filterMap vDirectBytes).Nodup

mutual

/-- The well-formed value trees the round-trip theorem quantifies over:
unicode code points are in range, class/global names are newline-free
(so the stored `module\nname` splits back), and the direct keys of any
one mapping are pairwise distinct, as they are in any Python dict. -/
def Value.wf : Value → Bool
  | .vNone | .vBool _ | .vInt _ | .vLong _ | .vFloat _ | .vComplex _ _ => true
  | .vStr _ => true
  | .vUnicode cs => cs.all (· < 1114112)
  | .vTuple vs => wfList vs
  | .vList vs => wfList vs
  | .vDict es => keysOk (es.map Prod.fst) && wfPairs es
  | .vInst m n fs =>
      !(m.contains 10) && !(n.contains 10)
        && keysOk (fs.map Prod.fst) && wfPairs fs
  | .vObj m n fs =>
      !(m.contains 10) && !(n.contains 10)
        && keysOk (fs.map Prod.fst) && wfPairs fs
  | .vGlobal m n => !(m.contains 10) && !(n.contains 10)

def wfList : List Value → Bool
  | [] => true
  | v :: vs => v.wf && wfList vs

def wfPairs : List (Value × Value) → Bool
  | [] => true
  | (k, v) :: es => k.wf && v.wf && wfPairs es

end

/-! ## Round-trip fixtures -/

/-- A fresh HDF5 file: just the root group. -/
def root0 : Store := [([], groupNode)]

/-- Encode one value at `/a` of a fresh file through a fresh `Pickler`:
lay the value out as fresh objects and `dump`. -/
def encodeVal (fuel : Nat) (v : Value) : Except Err Store :=
  match buildVal v 0 with
  | (h, i, _) => dumpObj h fuel root0 ["a"] i

/-- Decode `/a` through a fresh `Unpickler` and read the result back as
a value tree. -/
def decodeVal (fuel : Nat) (s : Store) : Option Value :=
  match loadObj s fuel ["a"] with
  | .ok (r, u) => extract u.heap fuel r
  | .error _ => Option.none

def roundTrip (fuel : Nat) (v : Value) : Option Value :=
  match encodeVal fuel v with
  | .ok s => decodeVal fuel s
  | .error _ => Option.none

/-! ## Store frame lemmas -/

theorem find?_setAttr (s : Store) (p q : Path) (k : String) (v : AttrVal) :
    Store.find? (Store.setAttr s p k v) q =
      if q = p then (Store.find? s p).map (fun nd => Node.setAttr nd k v)
      else Store.find? s q := by
  induction s with
  | nil => by_cases h : q = p <;> simp [Store.find?, Store.setAttr, h]
  | cons e s ih =>
    by_cases hep : e.1 = p <;> by_cases hq : q = p
    · subst hq
      simp [Store.setAttr, Store.find?, hep]
    · simp [Store.setAttr, Store.find?, hep, hq, ih,
        show ¬p = q from fun h => hq h.symm]
    · subst hq
      simp [Store.setAttr, Store.find?, hep, ih]
    · by_cases heq : e.1 = q
      · simp [Store.setAttr, Store.find?, hep, heq, hq]
      · simp [Store.setAttr, Store.find?, hep, heq, hq, ih]

/-! ## C10 — construction effects -/

/-- C10: constructing a `Pickler` stamps `hdf5pickle_protocol = 1` onto
the root node `/` and changes nothing else in the store; constructing
an `Unpickler` changes nothing at all. -/
theorem pickler_construction_frame : ∀ s : Store,
    Store.find? (picklerInit s) [] =
      (Store.find? s []).map
        (fun nd => Node.setAttr nd "hdf5pickle_protocol" (AttrVal.int 1))
    ∧ (∀ q : Path, q ≠ [] → Store.find? (picklerInit s) q = Store.find? s q)
    ∧ unpicklerInit s = s := by
  intro s
  refine ⟨?_, ?_, rfl⟩
  · simpa using find?_setAttr s [] [] "hdf5pickle_protocol" (.int 1)
  · intro q hq
    simpa [hq] using find?_setAttr s [] q "hdf5pickle_protocol" (.int 1)

/-! ## C9 — untagged nodes -/

/-- A file holding one leaf with no attributes at all at `/x`. -/
def untaggedStore : Store := [([], groupNode), (["x"], leafOf (.intVec [5]))]

/-- A file whose `/x` leaf carries a present but falsy `pickletype`. -/
def falsyTagStore : Store :=
  [([], groupNode),
   (["x"], { data := .arr (.intVec [5]), attrs := [("pickletype", .int 0)] })]

/-- C9 counterexample: decoding a leaf carrying no `pickletype`
attribute fails — `get_attr` raises `AttributeError` before the raw
default can apply — it does not return the stored data. -/
theorem untagged_leaf_decode_fails :
    loadObj untaggedStore 10 ["x"] = .error .attrMissing := rfl

/-- C9 (amended): decoding a node with no `pickletype` attribute fails
with the attribute-read error for every store, path and fuel; the raw
data read is the behaviour of a *present but falsy* type tag, under
which the stored block comes back as-is. -/
theorem untagged_leaf_decode_amended :
    (∀ (s : Store) (p : Path) (nd : Node) (fuel : Nat) (u : UState),
        u.lookupMemo p = Option.none →
        Store.find? s p = some nd →
        nd.getAttr? "pickletype" = Option.none →
        loadPath s (fuel + 1) p u = .error .attrMissing)
    ∧ loadObj falsyTagStore 10 ["x"] =
        .ok (0, { memo := [(["x"], 0)],
                  heap := [(0, .pyRaw (.intVec [5]))], next := 1 }) := by
  constructor
  · intro s p nd fuel u hm hf ha
    simp [loadPath, hm, hf, ha]
  · rfl

/-! ## C8 — empty values -/

/-- A store whose `/a` node is marked `empty` but carries a garbage
data block: the decoder must not look at the data. -/
def mangledEmptyStore : Store :=
  [([], groupNode),
   (["a"], { data := .arr (.floatScalar 99),
             attrs := [("pickletype", .tag .tString), ("empty", .int 1)] })]

/-- C8: encoding `""`, `()`, `[]` and `0L` each writes a leaf that
carries the `empty` attribute over a one-byte placeholder block (not a
zero-sized block); each round-trips to its canonical empty/zero value;
and the decoder never reads the data of an empty-marked leaf — even a
garbage block under the marker decodes to the empty value. -/
theorem empty_values_roundtrip :
    ((encodeVal 10 (Value.vStr [])).map fun s =>
        (Store.find? s ["a"]).map fun nd => (nd.hasAttr "empty", nd.data)) =
      .ok (some (true, .arr (.intVec [0])))
    ∧ ((encodeVal 10 (Value.vTuple [])).map fun s =>
        (Store.find? s ["a"]).map fun nd => (nd.hasAttr "empty", nd.data)) =
      .ok (some (true, .arr (.intVec [0])))
    ∧ ((encodeVal 10 (Value.vList [])).map fun s =>
        (Store.find? s ["a"]).map fun nd => (nd.hasAttr "empty", nd.data)) =
      .ok (some (true, .arr (.intVec [0])))
    ∧ ((encodeVal 10 (Value.vLong 0)).map fun s =>
        (Store.find? s ["a"]).map fun nd => (nd.hasAttr "empty", nd.data)) =
      .ok (some (true, .arr (.intVec [0])))
    ∧ roundTrip 10 (Value.vStr []) = some (Value.vStr [])
    ∧ roundTrip 10 (Value.vTuple []) = some (Value.vTuple [])
    ∧ roundTrip 10 (Value.vList []) = some (Value.vList [])
    ∧ roundTrip 10 (Value.vLong 0) = some (Value.vLong 0)
    ∧ decodeVal 10 mangledEmptyStore = some (Value.vStr []) := by
  exact ⟨rfl, rfl, rfl, rfl, rfl, rfl, rfl, rfl, rfl⟩

/-! ## C5 — mapping key fidelity -/

/-- The mapping `{"abba": 3, "class": 3, "??!": 3}`. -/
def dictABC : Value :=
  .vDict [(.vStr (strB "abba"), .vInt 3),
          (.vStr (strB "class"), .vInt 3),
          (.vStr (strB "??!"), .vInt 3)]

/-- C5: `{"abba": 3, "class": 3, "??!": 3}` round-trips exactly.
`"abba"` is a direct child; `"class"` (a reserved word) and `"??!"`
(no identifier form) live under the deterministic surrogate names
`_0`, `_1`, whose name-to-key table sits under the reserved `__`
namespace. -/
theorem mapping_key_fidelity :
    roundTrip 20 dictABC = some dictABC
    ∧ ((encodeVal 20 dictABC).map fun s => Store.childNames s ["a"]) =
        .ok ["abba", "_0", "__", "_1"]
    ∧ ((encodeVal 20 dictABC).map fun s => Store.childNames s ["a", "__"]) =
        .ok ["_0", "_1"]
    ∧ ((encodeVal 20 dictABC).map fun s =>
        ((Store.find? s ["a", "__", "_0"]).map Node.data,
         (Store.find? s ["a", "__", "_1"]).map Node.data)) =
      .ok (some (.arr (.byteVec (strB "class"))),
           some (.arr (.byteVec (strB "??!")))) := by
  exact ⟨rfl, rfl, rfl, rfl⟩

/-! ## C2 — back-references for memoized identities -/

/-- Two references to one shared object: `obj = [a, a]` with
`a = [5]`. -/
def shareHeap : Heap := [(0, .pyInt 5), (1, .pyList [0]), (2, .pyList [1, 1])]

/-- Encode `[a, a]` then decode it, in one session each. -/
def shareDecoded : Except Err (ObjId × UState) :=
  match dumpObj shareHeap 20 root0 ["x"] 2 with
  | .ok s => loadObj s 20 ["x"]
  | .error e => .error e

/-- C2: when an object's identity is already memoized at `P`,
`_save` writes at `path` exactly one node — a group whose `pickletype`
is `REF` and whose `target` is `P` — and returns with memo and the rest
of the store untouched.  Decoding the two-references example
reconstructs one shared list reachable from both positions (the same
object id appears at both indices). -/
theorem memoized_identity_ref :
    (∀ (h : Heap) (fuel : Nat) (path objpath : Path) (oid : ObjId) (st : PState),
        st.lookupPath oid = some objpath →
        saveObj h (fuel + 1) path oid st =
          .ok { st with
                store := Store.add st.store path
                  { data := .group,
                    attrs := [("target", .path objpath),
                              ("pickletype", .tag .tRef)] } })
    ∧ ((dumpObj shareHeap 20 root0 ["x"] 2).map fun s =>
        (Store.childNames s ["x"],
         (Store.find? s ["x", "_0"]).map Node.data,
         Store.find? s ["x", "_1"])) =
      .ok (["_0", "_1"], some (.arr (.intVec [5])),
           some { data := .group,
                  attrs := [("target", .path ["x", "_0"]),
                            ("pickletype", .tag .tRef)] })
    ∧ (shareDecoded.map fun r =>
        (Heap.find? r.2.heap r.1, Heap.find? r.2.heap 2, Heap.find? r.2.heap 1)) =
      .ok (some (.pyList [2, 2]), some (.pyList [1]), some (.pyInt 5)) := by
  refine ⟨?_, rfl, rfl⟩
  intro h fuel path objpath oid st hmemo
  simp [saveObj, hmemo, saveRef]

/-! ## C6 — flattening rule for tuples and lists -/

/-- A homogeneous list of byte strings. -/
def listXY : Value := .vList [.vStr (strB "x"), .vStr (strB "y")]

/-- C6 counterexample: `["x", "y"]` — a list whose elements all share
the one scalar type byte-string — is *not* flattened to a single leaf:
it is stored as a composite group with indexed children `_0`, `_1`
(the homogeneity check admits only `int`, `float`, `complex`). -/
theorem homogeneous_string_list_not_flattened :
    ((encodeVal 20 listXY).map fun s =>
      ((Store.find? s ["a"]).map Node.data, Store.childNames s ["a"])) =
      .ok (some .group, ["_0", "_1"]) := rfl

theorem seqOpt_isSome {α β : Type} (f : α → Option β) :
    ∀ es : List α, (seqOpt f es).isSome = true ↔ ∀ e ∈ es, (f e).isSome = true := by
  intro es
  induction es with
  | nil => simp [seqOpt]
  | cons a es ih =>
    simp only [seqOpt, List.mem_cons]
    match ha : f a with
    | Option.none =>
      constructor
      · intro hs
        exact absurd hs (by simp)
      · intro hall
        have h1 := hall a (Or.inl rfl)
        rw [ha] at h1
        exact absurd h1 (by simp)
    | some b =>
      constructor
      · intro hs e he
        rcases he with he | he
        · simp [he, ha]
        · match hm : seqOpt f es with
          | Option.none => rw [hm] at hs; exact absurd hs (by simp)
          | some bs => exact (ih.mp (by simp [hm])) e he
      · intro hall
        have h2 : (seqOpt f es).isSome = true := ih.mpr fun e he => hall e (Or.inr he)
        match hm : seqOpt f es with
        | Option.none => rw [hm] at h2; exact absurd h2 (by simp)
        | some bs => simp [hm]

theorem isSome_map {α β : Type} (g : α → β) (o : Option α) :
    (o.map g).isSome = o.isSome := by cases o <;> rfl

theorem intProj_isSome (h : Heap) (e : ObjId) :
    ((match Heap.find? h e with
      | some (.pyInt n) => some n
      | _ => Option.none) : Option Int).isSome = true
      ↔ ∃ n, Heap.find? h e = some (.pyInt n) := by
  match hf : Heap.find? h e with
  | Option.none => simp
  | some o => cases o <;> simp

theorem floatProj_isSome (h : Heap) (e : ObjId) :
    ((match Heap.find? h e with
      | some (.pyFloat x) => some x
      | _ => Option.none) : Option Int).isSome = true
      ↔ ∃ x, Heap.find? h e = some (.pyFloat x) := by
  match hf : Heap.find? h e with
  | Option.none => simp
  | some o => cases o <;> simp

theorem complexProj_isSome (h : Heap) (e : ObjId) :
    ((match Heap.find? h e with
      | some (.pyComplex re im) => some (re, im)
      | _ => Option.none) : Option (Int × Int)).isSome = true
      ↔ ∃ re im, Heap.find? h e = some (.pyComplex re im) := by
  match hf : Heap.find? h e with
  | Option.none => simp
  | some o => cases o <;> simp

/-- The homogeneity check succeeds on a nonempty sequence exactly when
all elements are ints, all are floats, or all are complexes. -/
theorem flattenSeq_isSome_iff (h : Heap) (e0 : ObjId) (rest : List ObjId) :
    (flattenSeq h (e0 :: rest)).isSome = true ↔
      ((∀ e ∈ e0 :: rest, ∃ n, Heap.find? h e = some (.pyInt n))
       ∨ (∀ e ∈ e0 :: rest, ∃ x, Heap.find? h e = some (.pyFloat x))
       ∨ (∀ e ∈ e0 :: rest, ∃ re im, Heap.find? h e = some (.pyComplex re im))) := by
  simp only [flattenSeq]
  match hfind : Heap.find? h e0 with
  | some (.pyInt n0) =>
    rw [isSome_map, seqOpt_isSome]
    constructor
    · intro hall
      exact Or.inl fun e he => (intProj_isSome h e).mp (hall e he)
    · rintro (hd | hd | hd)
      · exact fun e he => (intProj_isSome h e).mpr (hd e he)
      · obtain ⟨x, hx⟩ := hd e0 (List.mem_cons_self _ _)
        rw [hfind] at hx; simp at hx
      · obtain ⟨re, im, hx⟩ := hd e0 (List.mem_cons_self _ _)
        rw [hfind] at hx; simp at hx
  | some (.pyFloat x0) =>
    rw [isSome_map, seqOpt_isSome]
    constructor
    · intro hall
      exact Or.inr (Or.inl fun e he => (floatProj_isSome h e).mp (hall e he))
    · rintro (hd | hd | hd)
      · obtain ⟨n, hx⟩ := hd e0 (List.mem_cons_self _ _)
        rw [hfind] at hx; simp at hx
      · exact fun e he => (floatProj_isSome h e).mpr (hd e he)
      · obtain ⟨re, im, hx⟩ := hd e0 (List.mem_cons_self _ _)
        rw [hfind] at hx; simp at hx
  | some (.pyComplex a0 b0) =>
    rw [isSome_map, seqOpt_isSome]
    constructor
    · intro hall
      exact Or.inr (Or.inr fun e he => (complexProj_isSome h e).mp (hall e he))
    · rintro (hd | hd | hd)
      · obtain ⟨n, hx⟩ := hd e0 (List.mem_cons_self _ _)
        rw [hfind] at hx; simp at hx
      · obtain ⟨x, hx⟩ := hd e0 (List.mem_cons_self _ _)
        rw [hfind] at hx; simp at hx
      · exact fun e he => (complexProj_isSome h e).mpr (hd e he)
  | Option.none =>
    constructor
    · intro hF; exact absurd hF (by simp)
    · rintro (hd | hd | hd) <;>
        · obtain ⟨⟩ := hd e0 (List.mem_cons_self _ _); simp_all
  | some .pyNone =>
    constructor
    · intro hF; exact absurd hF (by simp)
    · rintro (hd | hd | hd) <;>
        · obtain ⟨⟩ := hd e0 (List.mem_cons_self _ _); simp_all
  | some (.pyBool b) =>
    constructor
    · intro hF; exact absurd hF (by simp)
    · rintro (hd | hd | hd) <;>
        · obtain ⟨⟩ := hd e0 (List.mem_cons_self _ _); simp_all
  | some (.pyLong n) =>
    constructor
    · intro hF; exact absurd hF (by simp)
    · rintro (hd | hd | hd) <;>
        · obtain ⟨⟩ := hd e0 (List.mem_cons_self _ _); simp_all
  | some (.pyStr bs) =>
    constructor
    · intro hF; exact absurd hF (by simp)
    · rintro (hd | hd | hd) <;>
        · obtain ⟨⟩ := hd e0 (List.mem_cons_self _ _); simp_all
  | some (.pyUnicode cs) =>
    constructor
    · intro hF; exact absurd hF (by simp)
    · rintro (hd | hd | hd) <;>
        · obtain ⟨⟩ := hd e0 (List.mem_cons_self _ _); simp_all
  | some (.pyTuple es) =>
    constructor
    · intro hF; exact absurd hF (by simp)
    · rintro (hd | hd | hd) <;>
        · obtain ⟨⟩ := hd e0 (List.mem_cons_self _ _); simp_all
  | some (.pyList es) =>
    constructor
    · intro hF; exact absurd hF (by simp)
    · rintro (hd | hd | hd) <;>
        · obtain ⟨⟩ := hd e0 (List.mem_cons_self _ _); simp_all
  | some (.pyDict kvs) =>
    constructor
    · intro hF; exact absurd hF (by simp)
    · rintro (hd | hd | hd) <;>
        · obtain ⟨⟩ := hd e0 (List.mem_cons_self _ _); simp_all
  | some (.pyInst c a fs) =>
    constructor
    · intro hF; exact absurd hF (by simp)
    · rintro (hd | hd | hd) <;>
        · obtain ⟨⟩ := hd e0 (List.mem_cons_self _ _); simp_all
  | some (.pyObj c a fs) =>
    constructor
    · intro hF; exact absurd hF (by simp)
    · rintro (hd | hd | hd) <;>
        · obtain ⟨⟩ := hd e0 (List.mem_cons_self _ _); simp_all
  | some (.pyGlobal m n) =>
    constructor
    · intro hF; exact absurd hF (by simp)
    · rintro (hd | hd | hd) <;>
        · obtain ⟨⟩ := hd e0 (List.mem_cons_self _ _); simp_all
  | some (.pyRaw d) =>
    constructor
    · intro hF; exact absurd hF (by simp)
    · rintro (hd | hd | hd) <;>
        · obtain ⟨⟩ := hd e0 (List.mem_cons_self _ _); simp_all

/-- `[1, 2, 3, 4, 5, 6, 7]`. -/
def list1to7 : Value :=
  .vList [.vInt 1, .vInt 2, .vInt 3, .vInt 4, .vInt 5, .vInt 6, .vInt 7]

/-- `[1, 2, "c", "a", "b"]`. -/
def listHet : Value :=
  .vList [.vInt 1, .vInt 2, .vStr (strB "c"), .vStr (strB "a"), .vStr (strB "b")]

/-- C6 (amended): a nonempty tuple/list is flattened into a single leaf
array exactly when all elements share one scalar type and that type is
`int`, `float` or `complex` — homogeneous byte-string sequences are
*not* flattened but stored composite.  When the check passes, `_save`
writes exactly the flattened tagged leaf.  `[1..7]` becomes one leaf
with no children; `[1, 2, "c", "a", "b"]` becomes a composite group
with children `_0`..`_4`. -/
theorem sequence_flattening_rule :
    (∀ (h : Heap) (e0 : ObjId) (rest : List ObjId),
      (flattenSeq h (e0 :: rest)).isSome = true ↔
        ((∀ e ∈ e0 :: rest, ∃ n, Heap.find? h e = some (.pyInt n))
         ∨ (∀ e ∈ e0 :: rest, ∃ x, Heap.find? h e = some (.pyFloat x))
         ∨ (∀ e ∈ e0 :: rest, ∃ re im, Heap.find? h e = some (.pyComplex re im))))
    ∧ (∀ (h : Heap) (fuel : Nat) (path : Path) (oid : ObjId) (st : PState)
        (es : List ObjId) (d : ArrData),
        Heap.find? h oid = some (.pyList es) →
        st.lookupPath oid = Option.none →
        flattenSeq h es = some d →
        saveObj h (fuel + 1) path oid st =
          .ok { paths := (oid, path) :: st.paths,
                store := Store.setAttr (Store.setAttr
                    (Store.add st.store path (leafOf d))
                    path "pickletype" (.tag .tTuple)) path "pickletype"
                    (.tag .tList) })
    ∧ ((encodeVal 20 list1to7).map fun s =>
        ((Store.find? s ["a"]).map Node.data, Store.childNames s ["a"])) =
      .ok (some (.arr (.intVec [1, 2, 3, 4, 5, 6, 7])), [])
    ∧ ((encodeVal 20 listHet).map fun s =>
        ((Store.find? s ["a"]).map Node.data, Store.childNames s ["a"])) =
      .ok (some .group, ["_0", "_1", "_2", "_3", "_4"]) := by
  refine ⟨flattenSeq_isSome_iff, ?_, rfl, rfl⟩
  intro h fuel path oid st es d hfind hmemo hflat
  have hne : es ≠ [] := by
    intro he; subst he; simp [flattenSeq] at hflat
  simp [saveObj, hmemo, hfind, saveTupleAt, hne, hflat, addTaggedLeaf,
    Bind.bind, Except.bind]

/-! ## C7 — numeric ordering of indexed children

`cmpfunc` (length first, then byte-wise `cmp`) restores `_0`, `_1`, …
in increasing numeric order of the suffix.  The development relates
decimal renderings to the numbers they denote. -/

theorem decAux_fuel : ∀ f1 f2 n : Nat, n ≤ f1 → n ≤ f2 → decAux f1 n = decAux f2 n := by
  intro f1
  induction f1 using Nat.strong_induction_on with
  | _ f1 ih =>
    intro f2 n h1 h2
    match f1, f2 with
    | 0, 0 => rfl
    | 0, g2 + 1 =>
      have : n = 0 := Nat.le_zero.mp h1
      subst this; simp [decAux]
    | g1 + 1, 0 =>
      have : n = 0 := Nat.le_zero.mp h2
      subst this; simp [decAux]
    | g1 + 1, g2 + 1 =>
      by_cases hn : n < 10
      · simp [decAux, hn]
      · simp only [decAux, if_neg hn]
        have hd : n / 10 < n := Nat.div_lt_self (by omega) (by omega)
        have := ih g1 (by omega) g2 (n / 10) (by omega) (by omega)
        rw [this]

theorem decDigitsRev_unfold (n : Nat) :
    decDigitsRev n = if n < 10 then [n] else n % 10 :: decDigitsRev (n / 10) := by
  by_cases hn : n < 10
  · match n, hn with
    | 0, _ => simp [decDigitsRev, decAux]
    | Nat.succ m, hn => simp [decDigitsRev, decAux, hn]
  · have h10 : 10 ≤ n := Nat.le_of_not_lt hn
    match n, h10 with
    | Nat.succ m, h10 =>
      simp only [decDigitsRev, decAux, if_neg hn]
      have : (m + 1) / 10 < m + 1 := Nat.div_lt_self (by omega) (by omega)
      rw [decAux_fuel m ((m + 1) / 10) ((m + 1) / 10) (by omega) (by omega)]

theorem decDigits_lt10 : ∀ n : Nat, ∀ d ∈ decDigitsRev n, d < 10 := by
  intro n
  induction n using Nat.strong_induction_on with
  | _ n ih =>
    rw [decDigitsRev_unfold]
    by_cases hn : n < 10
    · simp [hn]
    · simp only [if_neg hn, List.mem_cons]
      rintro d (rfl | hd)
      · exact Nat.mod_lt n (by omega)
      · exact ih (n / 10) (Nat.div_lt_self (by omega) (by omega)) d hd

theorem decDigits_ne_nil (n : Nat) : decDigitsRev n ≠ [] := by
  rw [decDigitsRev_unfold]
  by_cases hn : n < 10 <;> simp [hn]

/-- Little-endian decimal value. -/
def valRev : List Nat → Nat
  | [] => 0
  | d :: ds => d + 10 * valRev ds

theorem valRev_dec : ∀ n : Nat, valRev (decDigitsRev n) = n := by
  intro n
  induction n using Nat.strong_induction_on with
  | _ n ih =>
    rw [decDigitsRev_unfold]
    by_cases hn : n < 10
    · simp [hn, valRev]
    · simp only [if_neg hn, valRev]
      rw [ih (n / 10) (Nat.div_lt_self (by omega) (by omega))]
      omega

/-- Big-endian decimal value. -/
def valM : List Nat → Nat
  | [] => 0
  | d :: ds => d * 10 ^ ds.length + valM ds

theorem valM_append (A : List Nat) (d : Nat) : valM (A ++ [d]) = 10 * valM A + d := by
  induction A with
  | nil => simp [valM]
  | cons a A ih =>
    show a * 10 ^ (A ++ [d]).length + valM (A ++ [d])
        = 10 * (a * 10 ^ A.length + valM A) + d
    rw [ih]
    have hl : (A ++ [d]).length = A.length + 1 := by simp
    rw [hl]
    ring

theorem valM_reverse : ∀ ds : List Nat, valM ds.reverse = valRev ds := by
  intro ds
  induction ds with
  | nil => rfl
  | cons d ds ih =>
    simp only [List.reverse_cons, valM_append, ih, valRev]
    omega

theorem valM_lt : ∀ A : List Nat, (∀ d ∈ A, d < 10) → valM A < 10 ^ A.length := by
  intro A
  induction A with
  | nil => simp [valM]
  | cons a A ih =>
    intro hd
    have ha : a < 10 := hd a (List.mem_cons_self _ _)
    have hA := ih fun d h => hd d (List.mem_cons_of_mem _ h)
    simp only [valM, List.length_cons, pow_succ]
    calc a * 10 ^ A.length + valM A
        < a * 10 ^ A.length + 10 ^ A.length := by omega
      _ = (a + 1) * 10 ^ A.length := by ring
      _ ≤ 10 * 10 ^ A.length := by
          have : a + 1 ≤ 10 := by omega
          exact Nat.mul_le_mul_right _ this
      _ = 10 ^ A.length * 10 := by ring

theorem decLen_mono : ∀ n m : Nat, m ≤ n →
    (decDigitsRev m).length ≤ (decDigitsRev n).length := by
  intro n
  induction n using Nat.strong_induction_on with
  | _ n ih =>
    intro m hmn
    rw [decDigitsRev_unfold n, decDigitsRev_unfold m]
    by_cases hn : n < 10
    · simp [hn, show m < 10 by omega]
    · by_cases hm : m < 10
      · simp [hn, hm]
      · simp only [if_neg hn, if_neg hm, List.length_cons, Nat.add_le_add_iff_right]
        exact ih (n / 10) (Nat.div_lt_self (by omega) (by omega)) (m / 10)
          (Nat.div_le_div_right hmn)

theorem char_toNat_inj {a b : Char} (h : a.toNat = b.toNat) : a = b :=
  Char.eq_of_val_eq (UInt32.ext h)

theorem string_data_inj {a b : String} (h : a.data = b.data) : a = b := by
  cases a; cases b; exact congrArg String.mk h

theorem digitChar_toNat (d : Nat) (hd : d < 10) : (digitChar d).toNat = 48 + d := by
  interval_cases d <;> decide

theorem charListCmp_swap : ∀ a b : List Char, charListCmp b a = -charListCmp a b := by
  intro a
  induction a with
  | nil => intro b; cases b <;> simp [charListCmp]
  | cons x xs ih =>
    intro b
    cases b with
    | nil => simp [charListCmp]
    | cons y ys =>
      simp only [charListCmp]
      by_cases h1 : x.toNat < y.toNat
      · simp [h1, show ¬y.toNat < x.toNat by omega]
      · by_cases h2 : y.toNat < x.toNat
        · simp [h1, h2]
        · simp [h1, h2, ih ys]

theorem charListCmp_eq_zero : ∀ a b : List Char, charListCmp a b = 0 → a = b := by
  intro a
  induction a with
  | nil => intro b; cases b <;> simp [charListCmp]
  | cons x xs ih =>
    intro b
    cases b with
    | nil => simp [charListCmp]
    | cons y ys =>
      simp only [charListCmp]
      by_cases h1 : x.toNat < y.toNat
      · simp [h1]
      · by_cases h2 : y.toNat < x.toNat
        · simp [h1, h2]
        · simp only [if_neg h1, if_neg h2]
          intro h
          have hxy : x = y := char_toNat_inj (by omega)
          rw [hxy, ih ys h]

theorem charListCmp_trans : ∀ a b c : List Char,
    charListCmp a b ≤ 0 → charListCmp b c ≤ 0 → charListCmp a c ≤ 0 := by
  intro a
  induction a with
  | nil => intro b c _ _; cases c <;> simp [charListCmp]
  | cons x xs ih =>
    intro b c hab hbc
    cases b with
    | nil => simp [charListCmp] at hab
    | cons y ys =>
      cases c with
      | nil => simp [charListCmp] at hbc
      | cons z zs =>
        simp only [charListCmp] at hab hbc ⊢
        by_cases hxy : x.toNat < y.toNat <;> by_cases hyz : y.toNat < z.toNat
        · simp [show x.toNat < z.toNat by omega]
        · by_cases hzy : z.toNat < y.toNat
          · simp [hyz, hzy] at hbc
          · have : y.toNat = z.toNat := by omega
            simp [show x.toNat < z.toNat by omega]
        · by_cases hyx : y.toNat < x.toNat
          · simp [hxy, hyx] at hab
          · have : x.toNat = y.toNat := by omega
            simp [show x.toNat < z.toNat by omega]
        · by_cases hyx : y.toNat < x.toNat
          · simp [hxy, hyx] at hab
          · by_cases hzy : z.toNat < y.toNat
            · simp [hyz, hzy] at hbc
            · have hxz1 : ¬x.toNat < z.toNat := by omega
              have hxz2 : ¬z.toNat < x.toNat := by omega
              simp only [if_neg hxy, if_neg hyx] at hab
              simp only [if_neg hyz, if_neg hzy] at hbc
              simp only [if_neg hxz1, if_neg hxz2]
              exact ih ys zs hab hbc

theorem cmpfunc_le_iff (a b : String) :
    cmpfunc a b ≤ 0 ↔
      (a.length < b.length
       ∨ (a.length = b.length ∧ charListCmp a.data b.data ≤ 0)) := by
  unfold cmpfunc pyStrCmp
  by_cases hl : (a.length : Int) - (b.length : Int) = 0
  · have hlen : a.length = b.length := by omega
    simp [hl, hlen]
  · have hlen : a.length ≠ b.length := by omega
    simp only [if_neg hl]
    omega

instance : IsTotal String nameLe := by
  constructor
  intro a b
  unfold nameLe
  rw [cmpfunc_le_iff, cmpfunc_le_iff]
  rcases Nat.lt_trichotomy a.length b.length with h | h | h
  · exact Or.inl (Or.inl h)
  · rcases Int.le_total (charListCmp a.data b.data) 0 with hc | hc
    · exact Or.inl (Or.inr ⟨h, hc⟩)
    · refine Or.inr (Or.inr ⟨h.symm, ?_⟩)
      rw [charListCmp_swap]
      omega
  · exact Or.inr (Or.inl h)

instance : IsTrans String nameLe := by
  constructor
  intro a b c hab hbc
  unfold nameLe at *
  rw [cmpfunc_le_iff] at *
  rcases hab with h1 | ⟨h1, hc1⟩ <;> rcases hbc with h2 | ⟨h2, hc2⟩
  · exact Or.inl (by omega)
  · exact Or.inl (by omega)
  · exact Or.inl (by omega)
  · exact Or.inr ⟨by omega, charListCmp_trans _ _ _ hc1 hc2⟩

instance : IsAntisymm String nameLe := by
  constructor
  intro a b hab hba
  unfold nameLe at *
  rw [cmpfunc_le_iff] at *
  rcases hab with h1 | ⟨h1, hc1⟩ <;> rcases hba with h2 | ⟨h2, hc2⟩
  · omega
  · omega
  · omega
  · rw [charListCmp_swap] at hc2
    exact string_data_inj (charListCmp_eq_zero _ _ (by omega))

theorem digitLex_neg : ∀ A B : List Nat, A.length = B.length →
    (∀ d ∈ A, d < 10) → (∀ d ∈ B, d < 10) → valM A < valM B →
    charListCmp (A.map digitChar) (B.map digitChar) = -1 := by
  intro A
  induction A with
  | nil =>
    intro B hlen _ _ hv
    cases B with
    | nil => simp [valM] at hv
    | cons b bs => simp at hlen
  | cons a as ih =>
    intro B hlen hA hB hv
    cases B with
    | nil => simp at hlen
    | cons b bs =>
      have ha : a < 10 := hA a (List.mem_cons_self _ _)
      have hb : b < 10 := hB b (List.mem_cons_self _ _)
      have hlen' : as.length = bs.length := by simpa using hlen
      simp only [List.map_cons, charListCmp, digitChar_toNat a ha,
        digitChar_toNat b hb]
      rcases Nat.lt_trichotomy a b with hab | hab | hab
      · simp [show 48 + a < 48 + b by omega]
      · subst hab
        simp only [lt_irrefl, if_neg (lt_irrefl _)]
        apply ih bs hlen' (fun d h => hA d (List.mem_cons_of_mem _ h))
          (fun d h => hB d (List.mem_cons_of_mem _ h))
        simp only [valM, hlen'] at hv
        omega
      · exfalso
        have hAbound := valM_lt as fun d h => hA d (List.mem_cons_of_mem _ h)
        have hBbound := valM_lt bs fun d h => hB d (List.mem_cons_of_mem _ h)
        simp only [valM] at hv
        have h1 : b * 10 ^ bs.length + 10 ^ bs.length ≤ a * 10 ^ as.length := by
          rw [hlen']
          have : b + 1 ≤ a := by omega
          calc b * 10 ^ bs.length + 10 ^ bs.length
              = (b + 1) * 10 ^ bs.length := by ring
            _ ≤ a * 10 ^ bs.length := Nat.mul_le_mul_right _ this
        omega

/-- The decimal rendering respects numeric order under `cmpfunc`. -/
theorem cmp_idxSeg_neg {i j : Nat} (hij : i < j) :
    cmpfunc (idxSeg i) (idxSeg j) < 0 := by
  have hdata : ∀ k : Nat, (idxSeg k).data
      = '_' :: ((decDigitsRev k).reverse.map digitChar) := by
    intro k
    simp [idxSeg, decStr, String.data_append]
  have hlen : ∀ k : Nat, (idxSeg k).length = 1 + (decDigitsRev k).length := by
    intro k
    have h1 : (idxSeg k).length = (idxSeg k).data.length := rfl
    rw [h1, hdata k]
    simp only [List.length_cons, List.length_map, List.length_reverse]
    omega
  have hmono := decLen_mono j i (Nat.le_of_lt hij)
  unfold cmpfunc
  by_cases heq : (decDigitsRev i).length = (decDigitsRev j).length
  · have hl : ((idxSeg i).length : Int) - ((idxSeg j).length : Int) = 0 := by
      rw [hlen i, hlen j, heq]; omega
    rw [if_pos hl]
    unfold pyStrCmp
    rw [hdata i, hdata j]
    have hv : valM ((decDigitsRev i).reverse) < valM ((decDigitsRev j).reverse) := by
      rw [valM_reverse, valM_reverse, valRev_dec, valRev_dec]
      exact hij
    have hneg := digitLex_neg ((decDigitsRev i).reverse) ((decDigitsRev j).reverse)
      (by simp [heq])
      (fun d hd => decDigits_lt10 i d (List.mem_reverse.mp hd))
      (fun d hd => decDigits_lt10 j d (List.mem_reverse.mp hd)) hv
    simp only [charListCmp]
    rw [if_neg (lt_irrefl '_'.toNat), if_neg (lt_irrefl '_'.toNat), hneg]
    omega
  · have hlt : (decDigitsRev i).length < (decDigitsRev j).length := by omega
    have hl : ((idxSeg i).length : Int) - ((idxSeg j).length : Int) ≠ 0 := by
      rw [hlen i, hlen j]; omega
    rw [if_neg hl, hlen i, hlen j]
    omega

theorem canonical_sorted (n : Nat) :
    List.Sorted nameLe ((List.range n).map idxSeg) :=
  (List.pairwise_lt_range n).map idxSeg fun _ _ hab =>
    le_of_lt (cmp_idxSeg_neg hab)

/-- Any enumeration order of the children `_0`, …, `_(n-1)` sorts under
`cmpfunc` to exactly the increasing numeric order. -/
theorem sortNames_perm_range (n : Nat) (names : List String)
    (hp : names.Perm ((List.range n).map idxSeg)) :
    sortNames names = (List.range n).map idxSeg :=
  List.eq_of_perm_of_sorted ((List.perm_insertionSort nameLe names).trans hp)
    (List.sorted_insertionSort nameLe names) (canonical_sorted n)

/-! ## Decoder state evolution

`loadPath` and its helpers only allocate fresh ids and only mutate
objects they allocated: the heap below the incoming `next` is
untouched.  `Stab u u'` packages this. -/

def Stab (u u' : UState) : Prop :=
  u.next ≤ u'.next
    ∧ ∀ i : Nat, i < u.next → Heap.find? u'.heap i = Heap.find? u.heap i

theorem stab_refl (u : UState) : Stab u u := ⟨Nat.le_refl _, fun _ _ => rfl⟩

theorem stab_trans {u1 u2 u3 : UState} (h12 : Stab u1 u2) (h23 : Stab u2 u3) :
    Stab u1 u3 :=
  ⟨Nat.le_trans h12.1 h23.1,
   fun i hi => (h23.2 i (Nat.lt_of_lt_of_le hi h12.1)).trans (h12.2 i hi)⟩

theorem heapFind_append_ne (h : Heap) (n : Nat) (o : Obj) (j : Nat)
    (hj : j ≠ n) : Heap.find? (h ++ [(n, o)]) j = Heap.find? h j := by
  induction h with
  | nil => simp [Heap.find?, show ¬n = j from fun hh => hj hh.symm]
  | cons e h ih =>
    by_cases he : e.1 = j <;> simp [Heap.find?, he, ih]

theorem heapFind_heapSet (h : Heap) (i : Nat) (o : Obj) (j : Nat) :
    Heap.find? (heapSet h i o) j =
      if j = i then (Heap.find? h i).map (fun _ => o) else Heap.find? h j := by
  induction h with
  | nil => by_cases hji : j = i <;> simp [heapSet, Heap.find?, hji]
  | cons e h ih =>
    simp only [heapSet]
    by_cases hei : e.1 = i
    · by_cases hji : j = i
      · subst hji
        simp [Heap.find?, hei]
      · have hij : ¬i = j := fun hh => hji hh.symm
        have hej : ¬e.1 = j := fun hh => hji (hh.symm.trans hei)
        simp [Heap.find?, hei, hij, hej, hji, ih]
    · by_cases hji : j = i
      · subst hji
        simp [Heap.find?, hei, ih]
      · by_cases hej : e.1 = j
        · simp [Heap.find?, hei, hej, hji]
        · simp [Heap.find?, hei, hej, hji, ih]

theorem stab_alloc (u : UState) (o : Obj) : Stab u (u.alloc o).2 := by
  constructor
  · show u.next ≤ u.next + 1
    omega
  · intro i hi
    show Heap.find? (u.heap ++ [(u.next, o)]) i = Heap.find? u.heap i
    exact heapFind_append_ne u.heap u.next o i (Nat.ne_of_lt hi)

theorem stab_memoIns (p : Path) (i : ObjId) (u : UState) :
    Stab u (memoIns p i u) := ⟨Nat.le_refl _, fun _ _ => rfl⟩

theorem stab_setObj_big (u : UState) (i : Nat) (o : Obj) (hi : u.next ≤ i) :
    Stab u (u.setObj i o) := by
  constructor
  · exact Nat.le_refl _
  · intro j hj
    show Heap.find? (heapSet u.heap i o) j = Heap.find? u.heap j
    rw [heapFind_heapSet]
    exact if_neg (by omega)

theorem stab_setObj_ge {u u2 : UState} (h : Stab u u2) (i : Nat) (o : Obj)
    (hi : u.next ≤ i) : Stab u (u2.setObj i o) := by
  constructor
  · exact h.1
  · intro j hj
    show Heap.find? (heapSet u2.heap i o) j = Heap.find? u.heap j
    rw [heapFind_heapSet, if_neg (by omega : ¬j = i)]
    exact h.2 j hj

theorem stab_allocElems (u : UState) (os : List Obj) :
    Stab u (allocElems u os).2 := by
  induction os generalizing u with
  | nil => exact stab_refl u
  | cons o os ih =>
    simp only [allocElems]
    exact stab_trans (stab_alloc u o) (ih (u.alloc o).2)

/-- A loader that allocates fresh and leaves the old heap alone. -/
def StableLd (ld : Loader) : Prop :=
  ∀ p u r u', ld p u = .ok (r, u') → Stab u u'

theorem stable_loadChildren {ld : Loader} (hld : StableLd ld) (p : Path) :
    ∀ (names : List String) (u : UState) (is : List ObjId) (u' : UState),
      loadChildren ld p names u = .ok (is, u') → Stab u u' := by
  intro names
  induction names with
  | nil =>
    intro u is u' h
    simp only [loadChildren] at h
    cases h
    exact stab_refl u
  | cons nm rest ih =>
    intro u is u' h
    simp only [loadChildren] at h
    match hld1 : ld (p ++ [nm]) u with
    | .error e => rw [hld1] at h; simp [Bind.bind, Except.bind] at h
    | .ok (i2, u2) =>
      rw [hld1] at h
      simp only [Bind.bind, Except.bind] at h
      match hrest : loadChildren ld p rest u2 with
      | .error e => rw [hrest] at h; simp [Bind.bind, Except.bind] at h
      | .ok (is3, u3) =>
        rw [hrest] at h
        simp only [Bind.bind, Except.bind] at h
        cases h
        exact stab_trans (hld _ u i2 u2 hld1) (ih u2 _ _ hrest)

theorem stable_loadStrkeys {ld : Loader} (hld : StableLd ld) (p : Path) :
    ∀ (names : List String) (u : UState) (ks : List (String × ObjId)) (u' : UState),
      loadStrkeys ld p names u = .ok (ks, u') → Stab u u' := by
  intro names
  induction names with
  | nil =>
    intro u ks u' h
    simp only [loadStrkeys] at h
    cases h
    exact stab_refl u
  | cons nm rest ih =>
    intro u ks u' h
    simp only [loadStrkeys] at h
    by_cases hu : startsUnderscore nm = true
    · rw [if_pos hu] at h
      match hld1 : ld (p ++ ["__", nm]) u with
      | .error e => rw [hld1] at h; simp [Bind.bind, Except.bind] at h
      | .ok (k2, u2) =>
        rw [hld1] at h
        simp only [Bind.bind, Except.bind] at h
        match hrest : loadStrkeys ld p rest u2 with
        | .error e => rw [hrest] at h; simp [Bind.bind, Except.bind] at h
        | .ok (ks3, u3) =>
          rw [hrest] at h
          simp only [Bind.bind, Except.bind] at h
          cases h
          exact stab_trans (hld _ u k2 u2 hld1) (ih u2 _ _ hrest)
    · rw [if_neg hu] at h
      exact ih u ks u' h

theorem stable_loadDictRows {ld : Loader} (hld : StableLd ld) (p : Path)
    (strkeys : List (String × ObjId)) :
    ∀ (names : List String) (u : UState) (kvs : List (ObjId × ObjId)) (u' : UState),
      loadDictRows ld p strkeys names u = .ok (kvs, u') → Stab u u' := by
  intro names
  induction names with
  | nil =>
    intro u kvs u' h
    simp only [loadDictRows] at h
    cases h
    exact stab_refl u
  | cons nm rest ih =>
    intro u kvs u' h
    simp only [loadDictRows] at h
    by_cases hm : nm = "__"
    · rw [if_pos hm] at h
      exact ih u kvs u' h
    · rw [if_neg hm] at h
      have hkey : Stab u
          (match skFind? strkeys nm with
           | some kid => ((kid : ObjId), u)
           | Option.none => u.alloc (.pyStr (strB nm))).2 := by
        match skFind? strkeys nm with
        | some kid => exact stab_refl u
        | Option.none => exact stab_alloc u _
      revert h hkey
      match skFind? strkeys nm with
      | some kid =>
        intro h hkey
        match hld1 : ld (p ++ [nm]) u with
        | .error e => rw [hld1] at h; simp [Bind.bind, Except.bind] at h
        | .ok (v2, u2) =>
          rw [hld1] at h
          simp only [Bind.bind, Except.bind] at h
          match hrest : loadDictRows ld p strkeys rest u2 with
          | .error e => rw [hrest] at h; simp [Bind.bind, Except.bind] at h
          | .ok (kvs3, u3) =>
            rw [hrest] at h
            simp only [Bind.bind, Except.bind] at h
            cases h
            exact stab_trans (hld _ u v2 u2 hld1) (ih u2 _ _ hrest)
      | Option.none =>
        intro h hkey
        match hld1 : ld (p ++ [nm]) (u.alloc (.pyStr (strB nm))).2 with
        | .error e => rw [hld1] at h; simp [Bind.bind, Except.bind] at h
        | .ok (v2, u2) =>
          rw [hld1] at h
          simp only [Bind.bind, Except.bind] at h
          match hrest : loadDictRows ld p strkeys rest u2 with
          | .error e => rw [hrest] at h; simp [Bind.bind, Except.bind] at h
          | .ok (kvs3, u3) =>
            rw [hrest] at h
            simp only [Bind.bind, Except.bind] at h
            cases h
            exact stab_trans hkey
              (stab_trans (hld _ _ v2 u2 hld1) (ih u2 _ _ hrest))

theorem stable_loadDictContent {ld : Loader} (hld : StableLd ld) (s : Store)
    (p : Path) (u : UState) (kvs : List (ObjId × ObjId)) (u' : UState)
    (h : loadDictContent ld s p u = .ok (kvs, u')) : Stab u u' := by
  simp only [loadDictContent] at h
  by_cases hc : (Store.childNames s p).contains "__" = true
  · rw [if_pos hc] at h
    match hsk : loadStrkeys ld p (Store.childNames s (p ++ ["__"])) u with
    | .error e => rw [hsk] at h; simp [Bind.bind, Except.bind] at h
    | .ok (ks2, u2) =>
      rw [hsk] at h
      simp only [Bind.bind, Except.bind] at h
      exact stab_trans (stable_loadStrkeys hld p _ u ks2 u2 hsk)
        (stable_loadDictRows hld p ks2 _ u2 kvs u' h)
  · rw [if_neg hc] at h
    simp only [Bind.bind, Except.bind] at h
    exact stable_loadDictRows hld p [] _ u kvs u' h

theorem stable_loadListContent {ld : Loader} (hld : StableLd ld) (s : Store)
    (p : Path) (nd : Node) (u : UState) (r : ObjId) (u' : UState)
    (h : loadListContent ld s p nd u = .ok (r, u')) : Stab u u' := by
  obtain ⟨ndData, ndAttrs⟩ := nd
  cases ndData with
  | arr d =>
    simp only [loadListContent] at h
    by_cases he : Node.hasAttr ⟨.arr d, ndAttrs⟩ "empty" = true
    · rw [if_pos he] at h
      cases h
      exact stab_alloc u _
    · rw [if_neg he] at h
      match hel : arrToElems d with
      | Option.none => rw [hel] at h; cases h
      | some os =>
        rw [hel] at h
        simp only at h
        cases h
        exact stab_trans (stab_allocElems u os) (stab_alloc _ _)
  | group =>
    simp only [loadListContent] at h
    match hch : loadChildren ld p (sortNames (Store.childNames s p))
        (memoIns p (u.alloc (.pyList [])).1 (u.alloc (.pyList [])).2) with
    | .error e => rw [hch] at h; simp [Bind.bind, Except.bind] at h
    | .ok (is2, u2) =>
      rw [hch] at h
      simp only [Bind.bind, Except.bind] at h
      cases h
      have h1 : Stab u (u.alloc (.pyList [])).2 := stab_alloc u _
      have h2 := stable_loadChildren hld p _ _ is2 u2 hch
      have h3 : Stab u u2 := stab_trans h1 h2
      exact stab_setObj_ge h3 _ _ (Nat.le_refl u.next)

theorem updateFields_effect (u : UState) (i : Nat) (es : List (ObjId × ObjId))
    (u' : UState) (h : updateFields u i es = .ok u') :
    u'.next = u.next ∧ u'.memo = u.memo
      ∧ ∀ j, j ≠ i → Heap.find? u'.heap j = Heap.find? u.heap j := by
  unfold updateFields at h
  cases hf : Heap.find? u.heap i with
  | none => rw [hf] at h; simp at h
  | some o =>
    rw [hf] at h
    cases o <;> simp at h <;>
      (subst h
       exact ⟨rfl, rfl, fun j hj => by
         simp only [UState.setObj]
         rw [heapFind_heapSet]
         simp [hj]⟩)

theorem applyState_effect (u : UState) (i : Nat) (sid : ObjId)
    (u' : UState) (h : applyState u i sid = .ok u') :
    u'.next = u.next ∧ u'.memo = u.memo
      ∧ ∀ j, j ≠ i → Heap.find? u'.heap j = Heap.find? u.heap j := by
  unfold applyState at h
  split at h
  · split at h
    · exact updateFields_effect u i _ u' h
    all_goals simp at h
  · split at h
    · exact updateFields_effect u i _ u' h
    · simp at h

theorem stable_loadTagged {ld : Loader} (hld : StableLd ld) (s : Store) (t : Tag)
    (p : Path) (nd : Node) (u : UState) (r : ObjId) (u' : UState)
    (h : loadTagged s ld t p nd u = .ok (r, u')) : Stab u u' := by
  cases t with
  | tRef =>
    simp only [loadTagged] at h
    split at h
    · exact hld _ u r u' h
    · simp at h
    · simp at h
  | tNone =>
    simp only [loadTagged] at h
    cases h
    exact stab_alloc u _
  | tBool =>
    simp only [loadTagged] at h
    split at h
    · cases h; exact stab_alloc u _
    · simp at h
  | tInt =>
    simp only [loadTagged] at h
    split at h
    · cases h; exact stab_alloc u _
    · simp at h
  | tLong =>
    simp only [loadTagged] at h
    split at h
    · cases h; exact stab_alloc u _
    · split at h
      · cases h; exact stab_alloc u _
      · simp at h
  | tFloat =>
    simp only [loadTagged] at h
    split at h
    · cases h; exact stab_alloc u _
    · simp at h
  | tComplex =>
    simp only [loadTagged] at h
    split at h
    · cases h; exact stab_alloc u _
    · simp at h
  | tString =>
    simp only [loadTagged] at h
    split at h
    · cases h; exact stab_alloc u _
    · split at h
      · cases h; exact stab_alloc u _
      · simp at h
  | tUnicode =>
    simp only [loadTagged] at h
    split at h
    · cases h; exact stab_alloc u _
    · split at h
      · split at h
        · cases h; exact stab_alloc u _
        · simp at h
      · simp at h
  | tTuple =>
    simp only [loadTagged] at h
    match hlc : loadListContent ld s p nd u with
    | .error e => rw [hlc] at h; simp [Bind.bind, Except.bind] at h
    | .ok (ell, u1) =>
      rw [hlc] at h
      simp only [Bind.bind, Except.bind] at h
      split at h
      · cases h
        exact stab_trans (stable_loadListContent hld s p nd u ell u1 hlc)
          (stab_alloc u1 _)
      · simp at h
  | tList => exact stable_loadListContent hld s p nd u r u' h
  | tDict =>
    simp only [loadTagged] at h
    match hdc : loadDictContent ld s p
        (memoIns p (u.alloc (.pyDict [])).1 (u.alloc (.pyDict [])).2) with
    | .error e => rw [hdc] at h; simp [Bind.bind, Except.bind] at h
    | .ok (entries, u2) =>
      rw [hdc] at h
      simp only [Bind.bind, Except.bind] at h
      cases h
      have h1 : Stab u (u.alloc (.pyDict [])).2 := stab_alloc u _
      have h2 := stable_loadDictContent hld s p _ entries u2 hdc
      exact stab_setObj_ge (stab_trans (stab_trans h1 (stab_memoIns _ _ _)) h2)
        _ _ (Nat.le_refl u.next)
  | tInst =>
    simp only [loadTagged] at h
    match h1 : ld (p ++ ["__", "cls"]) u with
    | .error e => rw [h1] at h; simp [Bind.bind, Except.bind] at h
    | .ok (clsId, u1) =>
      rw [h1] at h
      simp only [Bind.bind, Except.bind] at h
      match h2 : ld (p ++ ["__", "args"]) u1 with
      | .error e => rw [h2] at h; simp [Bind.bind, Except.bind] at h
      | .ok (argsId, u2) =>
        rw [h2] at h
        simp only [Bind.bind, Except.bind] at h
        match hc : checkEmptyArgs u2 argsId with
        | .error e => rw [hc] at h; simp [Bind.bind, Except.bind] at h
        | .ok _ =>
          rw [hc] at h
          simp only [Bind.bind, Except.bind] at h
          have hstab2 : Stab u u2 :=
            stab_trans (hld _ u clsId u1 h1) (hld _ u1 argsId u2 h2)
          have hstab3 : Stab u
              (memoIns p (u2.alloc (.pyInst clsId argsId [])).1
                (u2.alloc (.pyInst clsId argsId [])).2) :=
            stab_trans hstab2 (stab_trans (stab_alloc u2 _) (stab_memoIns _ _ _))
          split at h
          · match hcon : ld (p ++ ["__", "content"])
                (memoIns p (u2.alloc (.pyInst clsId argsId [])).1
                  (u2.alloc (.pyInst clsId argsId [])).2) with
            | .error e => rw [hcon] at h; simp [Bind.bind, Except.bind] at h
            | .ok (sid, u4) =>
              rw [hcon] at h
              simp only [Bind.bind, Except.bind] at h
              match hap : applyState u4 (u2.alloc (.pyInst clsId argsId [])).1 sid with
              | .error e => rw [hap] at h; simp [Bind.bind, Except.bind] at h
              | .ok u5 =>
                rw [hap] at h
                simp only [Bind.bind, Except.bind] at h
                cases h
                have h4 : Stab u u4 := stab_trans hstab3 (hld _ _ sid u4 hcon)
                have he := applyState_effect u4 _ sid _ hap
                constructor
                · rw [he.1]; exact h4.1
                · intro i hi
                  rw [he.2.2 i (by
                    have : (u2.alloc (.pyInst clsId argsId [])).1 = u2.next := rfl
                    rw [this]
                    have := hstab2.1
                    omega)]
                  exact h4.2 i hi
          · match hdc : loadDictContent ld s p
                (memoIns p (u2.alloc (.pyInst clsId argsId [])).1
                  (u2.alloc (.pyInst clsId argsId [])).2) with
            | .error e => rw [hdc] at h; simp [Bind.bind, Except.bind] at h
            | .ok (entries, u4) =>
              rw [hdc] at h
              simp only [Bind.bind, Except.bind] at h
              match hup : updateFields u4 (u2.alloc (.pyInst clsId argsId [])).1 entries with
              | .error e => rw [hup] at h; simp [Bind.bind, Except.bind] at h
              | .ok u5 =>
                rw [hup] at h
                simp only [Bind.bind, Except.bind] at h
                cases h
                have h4 : Stab u u4 :=
                  stab_trans hstab3 (stable_loadDictContent hld s p _ entries u4 hdc)
                have he := updateFields_effect u4 _ entries _ hup
                constructor
                · rw [he.1]; exact h4.1
                · intro i hi
                  rw [he.2.2 i (by
                    have : (u2.alloc (.pyInst clsId argsId [])).1 = u2.next := rfl
                    rw [this]
                    have := hstab2.1
                    omega)]
                  exact h4.2 i hi
  | tReduce =>
    simp only [loadTagged] at h
    match h2 : ld (p ++ ["__", "args"]) u with
    | .error e => rw [h2] at h; simp [Bind.bind, Except.bind] at h
    | .ok (argsId, u1) =>
      rw [h2] at h
      simp only [Bind.bind, Except.bind] at h
      split at h
      · simp at h
      · match h1 : ld (p ++ ["__", "cls"]) u1 with
        | .error e => rw [h1] at h; simp [Bind.bind, Except.bind] at h
        | .ok (clsId, u2) =>
          rw [h1] at h
          simp only [Bind.bind, Except.bind] at h
          match hc : checkEmptyArgs u2 argsId with
          | .error e => rw [hc] at h; simp [Bind.bind, Except.bind] at h
          | .ok _ =>
            rw [hc] at h
            simp only [Bind.bind, Except.bind] at h
            have hstab2 : Stab u u2 :=
              stab_trans (hld _ u argsId u1 h2) (hld _ u1 clsId u2 h1)
            have hstab3 : Stab u
                (memoIns p (u2.alloc (.pyObj clsId argsId [])).1
                  (u2.alloc (.pyObj clsId argsId [])).2) :=
              stab_trans hstab2 (stab_trans (stab_alloc u2 _) (stab_memoIns _ _ _))
            split at h
            · simp at h
            · split at h
              · simp at h
              · split at h
                · match hcon : ld (p ++ ["__", "content"])
                      (memoIns p (u2.alloc (.pyObj clsId argsId [])).1
                        (u2.alloc (.pyObj clsId argsId [])).2) with
                  | .error e => rw [hcon] at h; simp [Bind.bind, Except.bind] at h
                  | .ok (sid, u4) =>
                    rw [hcon] at h
                    simp only [Bind.bind, Except.bind] at h
                    have h4 : Stab u u4 := stab_trans hstab3 (hld _ _ sid u4 hcon)
                    split at h
                    · cases h; exact h4
                    · match hap : applyState u4
                          (u2.alloc (.pyObj clsId argsId [])).1 sid with
                      | .error e => rw [hap] at h; simp [Bind.bind, Except.bind] at h
                      | .ok u5 =>
                        rw [hap] at h
                        simp only [Bind.bind, Except.bind] at h
                        cases h
                        have he := applyState_effect u4 _ sid _ hap
                        constructor
                        · rw [he.1]; exact h4.1
                        · intro i hi
                          rw [he.2.2 i (by
                            have : (u2.alloc (.pyObj clsId argsId [])).1 = u2.next :=
                              rfl
                            rw [this]
                            have := hstab2.1
                            omega)]
                          exact h4.2 i hi
                · split at h
                  · match hdc : loadDictContent ld s p
                        (memoIns p (u2.alloc (.pyObj clsId argsId [])).1
                          (u2.alloc (.pyObj clsId argsId [])).2) with
                    | .error e => rw [hdc] at h; simp [Bind.bind, Except.bind] at h
                    | .ok (entries, u4) =>
                      rw [hdc] at h
                      simp only [Bind.bind, Except.bind] at h
                      match hup : updateFields u4
                          (u2.alloc (.pyObj clsId argsId [])).1 entries with
                      | .error e => rw [hup] at h; simp [Bind.bind, Except.bind] at h
                      | .ok u5 =>
                        rw [hup] at h
                        simp only [Bind.bind, Except.bind] at h
                        cases h
                        have h4 : Stab u u4 :=
                          stab_trans hstab3
                            (stable_loadDictContent hld s p _ entries u4 hdc)
                        have he := updateFields_effect u4 _ entries _ hup
                        constructor
                        · rw [he.1]; exact h4.1
                        · intro i hi
                          rw [he.2.2 i (by
                            have : (u2.alloc (.pyObj clsId argsId [])).1 = u2.next :=
                              rfl
                            rw [this]
                            have := hstab2.1
                            omega)]
                          exact h4.2 i hi
                  · cases h
                    exact hstab3
  | tGlobal =>
    simp only [loadTagged] at h
    split at h
    · split at h
      · cases h; exact stab_alloc u _
      · simp at h
    · simp at h
  | tExt4 => simp [loadTagged] at h

/-- `Unpickler.load` never disturbs objects that already exist: it only
allocates fresh ids and mutates those. -/
theorem stable_loadPath (s : Store) : ∀ fuel : Nat, StableLd (loadPath s fuel) := by
  intro fuel
  induction fuel with
  | zero =>
    intro p u r u' h
    simp [loadPath] at h
  | succ f ih =>
    intro p u r u' h
    simp only [loadPath] at h
    split at h
    · cases h; exact stab_refl u
    · split at h
      · simp at h
      · split at h
        · simp at h
        · split at h
          · split at h
            · simp only [Bind.bind, Except.bind] at h
              split at h
              next e heq => simp at h
              next a heq =>
                cases h
                exact stab_trans (stable_loadTagged ih s _ p _ u a.1 a.2 heq)
                  (stab_memoIns _ _ _)
            · simp at h
          · split at h
            · cases h
              exact stab_trans (stab_alloc u _) (stab_memoIns _ _ _)
            · simp at h

/-- C7: decoding a tuple/list composite node restores the children
`_0`, `_1`, … strictly in increasing numeric order of the suffix,
whatever order the backend enumerates them in: the sort puts the name
list into exactly `map idxSeg (range n)` order, and
`_load_list_content` then loads `p/_0, p/_1, …` in that order, so the
decoded sequence's `i`-th element is the decode of child `_i`.  The
order is numeric, not lexical: byte-wise `_10` precedes `_2`, yet the
sort places `_2` first. -/
theorem composite_sequence_numeric_order :
    (∀ (n : Nat) (names : List String),
        names.Perm ((List.range n).map idxSeg) →
        sortNames names = (List.range n).map idxSeg)
    ∧ (∀ (ld : Loader) (s : Store) (p : Path) (nd : Node) (u : UState) (n : Nat),
        nd.data = .group →
        (Store.childNames s p).Perm ((List.range n).map idxSeg) →
        loadListContent ld s p nd u = (do
          let (ell, u1) := UState.alloc u (.pyList [])
          let (is, u2) ←
            loadChildren ld p ((List.range n).map idxSeg) (memoIns p ell u1)
          .ok (ell, UState.setObj u2 ell (.pyList is))))
    ∧ pyStrCmp "_10" "_2" = -1
    ∧ sortNames ["_10", "_2"] = ["_2", "_10"] := by
  refine ⟨sortNames_perm_range, ?_, by decide, by decide⟩
  intro ld s p nd u n hgroup hperm
  obtain ⟨data, attrs⟩ := nd
  simp only at hgroup
  subst hgroup
  simp only [loadListContent, sortNames_perm_range n _ hperm]

/-! ## Codec inverses

`decode_long ∘ encode_long = id`, utf-8 decode inverts utf-8 encode on
code points below 0x110000, `split('\n')` recovers the two halves of a
newline-joined pair, and a node name round-trips to its key bytes. -/

theorem encLongAux_spec :
    ∀ (a : Nat) (n : Int), n.natAbs ≤ a → ∀ (fuel : Nat), a ≤ fuel →
      encLongAux fuel n ≠ []
      ∧ ((leBytesToNat (encLongAux fuel n) : Int) =
          n + (if n < 0 then (256 : Int) ^ (encLongAux fuel n).length else 0))
      ∧ (∀ top, (encLongAux fuel n).getLast? = some top → (128 ≤ top ↔ n < 0)) := by
  intro a
  induction a with
  | zero =>
      intro n hn fuel _
      have hn0 : n = 0 := by omega
      subst hn0
      have he : encLongAux fuel 0 = [0] := by
        cases fuel with
        | zero => rfl
        | succ f => rfl
      rw [he]
      refine ⟨by simp, by norm_num [leBytesToNat], ?_⟩
      intro top htop
      simp [List.getLast?] at htop
      omega
  | succ a ih =>
      intro n hn fuel hfuel
      by_cases hsmall : n.natAbs ≤ a
      · exact ih n hsmall fuel (by omega)
      obtain ⟨fu, rfl⟩ : ∃ fu, fuel = fu + 1 := ⟨fuel - 1, by omega⟩
      have hunf : encLongAux (fu + 1) n =
          if (n / 256 = 0 ∧ (n % 256).toNat < 128)
              ∨ (n / 256 = -1 ∧ 128 ≤ (n % 256).toNat)
          then [(n % 256).toNat]
          else (n % 256).toNat :: encLongAux fu (n / 256) := rfl
      have hbi : (((n % 256).toNat : Nat) : Int) = n % 256 :=
        Int.toNat_of_nonneg (Int.emod_nonneg n (by norm_num))
      by_cases hstop : (n / 256 = 0 ∧ (n % 256).toNat < 128)
          ∨ (n / 256 = -1 ∧ 128 ≤ (n % 256).toNat)
      · rw [hunf, if_pos hstop]
        rcases hstop with ⟨h0, hb⟩ | ⟨hm1, hb⟩
        · refine ⟨by simp, ?_, ?_⟩
          · simp only [leBytesToNat]
            rw [if_neg (by omega)]
            push_cast
            omega
          · intro top htop
            simp [List.getLast?] at htop
            omega
        · refine ⟨by simp, ?_, ?_⟩
          · simp only [leBytesToNat, List.length_cons, List.length_nil]
            rw [if_pos (by omega), pow_one]
            push_cast
            omega
          · intro top htop
            simp [List.getLast?] at htop
            omega
      · rw [hunf, if_neg hstop]
        have habs : (n / 256).natAbs ≤ a := by omega
        obtain ⟨hne, hval, htop⟩ := ih (n / 256) habs fu (by omega)
        refine ⟨by simp, ?_, ?_⟩
        · simp only [leBytesToNat, List.length_cons]
          have hdm : (((n % 256).toNat : Nat) : Int) + 256 * (n / 256) = n := by
            omega
          push_cast
          rw [hval]
          by_cases hneg : n < 0
          · rw [if_pos hneg, if_pos (by omega), pow_succ]
            set L := (encLongAux fu (n / 256)).length
            push_cast at hdm ⊢
            linarith [hdm]
          · rw [if_neg hneg, if_neg (by omega)]
            push_cast at hdm ⊢
            linarith [hdm]
        · intro top htoph
          cases hbs : encLongAux fu (n / 256) with
          | nil => exact absurd hbs hne
          | cons c tl =>
              rw [hbs, List.getLast?_cons_cons] at htoph
              have := htop top (by rw [hbs]; exact htoph)
              rw [this]
              omega

/-- `pickle.decode_long` inverts `pickle.encode_long`. -/
theorem decode_encode_long (n : Int) : decodeLong (encodeLong n) = n := by
  rw [encodeLong]
  by_cases h0 : n = 0
  · rw [if_pos h0, h0]; rfl
  · rw [if_neg h0]
    obtain ⟨hne, hval, htop⟩ :=
      encLongAux_spec n.natAbs n (Nat.le_refl _) n.natAbs (Nat.le_refl _)
    cases hlast : (encLongAux n.natAbs n).getLast? with
    | none =>
        cases hbs : encLongAux n.natAbs n with
        | nil => exact absurd hbs hne
        | cons c tl => rw [hbs] at hlast; simp [List.getLast?_eq_none_iff] at hlast
    | some top =>
        have h128 := htop top hlast
        simp only [decodeLong, hlast]
        by_cases hneg : n < 0
        · rw [if_pos (h128.mpr hneg), hval, if_pos hneg]
          ring
        · rw [if_neg (fun hc => hneg (h128.mp hc)), hval, if_neg hneg]
          ring

theorem utf8EncChar_ne_nil (c : Nat) : utf8EncChar c ≠ [] := by
  rw [utf8EncChar]
  split_ifs <;> simp

theorem utf8Enc_nil_iff (cs : List Nat) : utf8Enc cs = [] ↔ cs = [] := by
  cases cs with
  | nil => simp [utf8Enc]
  | cons c cs =>
      simp only [utf8Enc, List.flatMap_cons]
      constructor
      · intro h
        exact absurd (List.append_eq_nil.mp h).1 (utf8EncChar_ne_nil c)
      · intro h; cases h

theorem utf8Enc_length_ge (cs : List Nat) : cs.length ≤ (utf8Enc cs).length := by
  induction cs with
  | nil => simp [utf8Enc]
  | cons c cs ih =>
      have h1 : 1 ≤ (utf8EncChar c).length := by
        cases h : utf8EncChar c with
        | nil => exact absurd h (utf8EncChar_ne_nil c)
        | cons a l => simp
      simp only [utf8Enc, List.flatMap_cons, List.length_append, List.length_cons]
      simp only [utf8Enc] at ih
      omega

theorem utf8DecAux_succ (f b0 : Nat) (L : List Nat) :
    utf8DecAux (f + 1) (b0 :: L) =
      (if b0 < 128 then (utf8DecAux f L).map (fun l => b0 :: l)
      else if b0 < 192 then Option.none
      else if b0 < 224 then
        match L with
        | b1 :: bs1 =>
          if utf8Cont b1 then
            (utf8DecAux f bs1).map (fun l => ((b0 - 192) * 64 + (b1 - 128)) :: l)
          else Option.none
        | _ => Option.none
      else if b0 < 240 then
        match L with
        | b1 :: b2 :: bs2 =>
          if utf8Cont b1 ∧ utf8Cont b2 then
            (utf8DecAux f bs2).map
              (fun l => ((b0 - 224) * 4096 + (b1 - 128) * 64 + (b2 - 128)) :: l)
          else Option.none
        | _ => Option.none
      else if b0 < 248 then
        match L with
        | b1 :: b2 :: b3 :: bs3 =>
          if utf8Cont b1 ∧ utf8Cont b2 ∧ utf8Cont b3 then
            (utf8DecAux f bs3).map
              (fun l =>
                ((b0 - 240) * 262144 + (b1 - 128) * 4096 + (b2 - 128) * 64
                  + (b3 - 128)) :: l)
          else Option.none
        | _ => Option.none
      else Option.none) := rfl

theorem utf8DecAux_one (f b0 : Nat) (L : List Nat) (h : b0 < 128) :
    utf8DecAux (f + 1) (b0 :: L) = (utf8DecAux f L).map (fun l => b0 :: l) := by
  rw [utf8DecAux_succ, if_pos h]

theorem utf8DecAux_two (f b0 b1 : Nat) (L : List Nat)
    (h0 : ¬ b0 < 128) (h1 : ¬ b0 < 192) (h2 : b0 < 224) (hc : utf8Cont b1) :
    utf8DecAux (f + 1) (b0 :: b1 :: L)
      = (utf8DecAux f L).map (fun l => ((b0 - 192) * 64 + (b1 - 128)) :: l) := by
  rw [utf8DecAux_succ, if_neg h0, if_neg h1, if_pos h2]
  show (if utf8Cont b1 then
      (utf8DecAux f L).map (fun l => ((b0 - 192) * 64 + (b1 - 128)) :: l)
    else Option.none) = _
  rw [if_pos hc]

theorem utf8DecAux_three (f b0 b1 b2 : Nat) (L : List Nat)
    (h0 : ¬ b0 < 128) (h1 : ¬ b0 < 192) (h2 : ¬ b0 < 224) (h3 : b0 < 240)
    (hc : utf8Cont b1 ∧ utf8Cont b2) :
    utf8DecAux (f + 1) (b0 :: b1 :: b2 :: L)
      = (utf8DecAux f L).map
          (fun l => ((b0 - 224) * 4096 + (b1 - 128) * 64 + (b2 - 128)) :: l) := by
  rw [utf8DecAux_succ, if_neg h0, if_neg h1, if_neg h2, if_pos h3]
  show (if utf8Cont b1 ∧ utf8Cont b2 then
      (utf8DecAux f L).map
        (fun l => ((b0 - 224) * 4096 + (b1 - 128) * 64 + (b2 - 128)) :: l)
    else Option.none) = _
  rw [if_pos hc]

theorem utf8DecAux_four (f b0 b1 b2 b3 : Nat) (L : List Nat)
    (h0 : ¬ b0 < 128) (h1 : ¬ b0 < 192) (h2 : ¬ b0 < 224) (h3 : ¬ b0 < 240)
    (h4 : b0 < 248) (hc : utf8Cont b1 ∧ utf8Cont b2 ∧ utf8Cont b3) :
    utf8DecAux (f + 1) (b0 :: b1 :: b2 :: b3 :: L)
      = (utf8DecAux f L).map
          (fun l => ((b0 - 240) * 262144 + (b1 - 128) * 4096 + (b2 - 128) * 64
            + (b3 - 128)) :: l) := by
  rw [utf8DecAux_succ, if_neg h0, if_neg h1, if_neg h2, if_neg h3, if_pos h4]
  show (if utf8Cont b1 ∧ utf8Cont b2 ∧ utf8Cont b3 then
      (utf8DecAux f L).map
        (fun l =>
          ((b0 - 240) * 262144 + (b1 - 128) * 4096 + (b2 - 128) * 64
            + (b3 - 128)) :: l)
    else Option.none) = _
  rw [if_pos hc]

theorem utf8DecAux_enc : ∀ (cs : List Nat) (fuel : Nat), cs.length ≤ fuel →
    (∀ c ∈ cs, c < 1114112) → utf8DecAux fuel (utf8Enc cs) = some cs := by
  intro cs
  induction cs with
  | nil =>
      intro fuel _ _
      cases fuel <;> rfl
  | cons c cs ih =>
      intro fuel hlen hlt
      obtain ⟨f, rfl⟩ : ∃ f, fuel = f + 1 := ⟨fuel - 1, by simp at hlen; omega⟩
      have hc := hlt c (List.mem_cons_self _ _)
      have hrest : utf8DecAux f (utf8Enc cs) = some cs :=
        ih f (by simp at hlen; omega) (fun x hx => hlt x (List.mem_cons_of_mem _ hx))
      have hflat : utf8Enc (c :: cs) = utf8EncChar c ++ utf8Enc cs := rfl
      rw [hflat]
      by_cases h1 : c < 128
      · rw [show utf8EncChar c = [c] from by rw [utf8EncChar, if_pos h1],
          List.cons_append, List.nil_append, utf8DecAux_one f c _ h1, hrest]
        rfl
      · by_cases h2 : c < 2048
        · rw [show utf8EncChar c = [192 + c / 64, 128 + c % 64] from by
              rw [utf8EncChar, if_neg h1, if_pos h2],
            List.cons_append, List.cons_append, List.nil_append,
            utf8DecAux_two f _ _ _ (by omega) (by omega) (by omega)
              ⟨by omega, by omega⟩, hrest]
          have he : (192 + c / 64 - 192) * 64 + (128 + c % 64 - 128) = c := by omega
          rw [he]
          rfl
        · by_cases h3 : c < 65536
          · rw [show utf8EncChar c =
                  [224 + c / 4096, 128 + c / 64 % 64, 128 + c % 64] from by
                rw [utf8EncChar, if_neg h1, if_neg h2, if_pos h3],
              List.cons_append, List.cons_append, List.cons_append, List.nil_append,
              utf8DecAux_three f _ _ _ _ (by omega) (by omega) (by omega) (by omega)
                ⟨⟨by omega, by omega⟩, ⟨by omega, by omega⟩⟩, hrest]
            have he : (224 + c / 4096 - 224) * 4096 + (128 + c / 64 % 64 - 128) * 64
                + (128 + c % 64 - 128) = c := by omega
            rw [he]
            rfl
          · rw [show utf8EncChar c =
                  [240 + c / 262144, 128 + c / 4096 % 64, 128 + c / 64 % 64,
                   128 + c % 64] from by
                rw [utf8EncChar, if_neg h1, if_neg h2, if_neg h3],
              List.cons_append, List.cons_append, List.cons_append,
              List.cons_append, List.nil_append,
              utf8DecAux_four f _ _ _ _ _ (by omega) (by omega) (by omega)
                (by omega) (by omega)
                ⟨⟨by omega, by omega⟩, ⟨by omega, by omega⟩, ⟨by omega, by omega⟩⟩,
              hrest]
            have he : (240 + c / 262144 - 240) * 262144
                + (128 + c / 4096 % 64 - 128) * 4096
                + (128 + c / 64 % 64 - 128) * 64 + (128 + c % 64 - 128) = c := by
              omega
            rw [he]
            rfl

/-- `unicode.decode` inverts `unicode.encode` on in-range code points. -/
theorem utf8Dec_enc (cs : List Nat) (h : ∀ c ∈ cs, c < 1114112) :
    utf8Dec (utf8Enc cs) = some cs :=
  utf8DecAux_enc cs (utf8Enc cs).length (utf8Enc_length_ge cs) h

theorem splitNl_no10 : ∀ (l : List Nat), 10 ∉ l → splitNl l = [l] := by
  intro l
  induction l with
  | nil => intro _; rfl
  | cons b rest ih =>
      intro h
      rw [splitNl, ih (fun hm => h (List.mem_cons_of_mem _ hm))]
      show (if b = 10 then [] :: rest :: [] else (b :: rest) :: []) = [b :: rest]
      rw [if_neg (fun hb => h (by rw [hb]; exact List.mem_cons_self _ _))]

/-- `split('\n')` recovers the `module`/`name` halves. -/
theorem splitNl_sep (m n : List Nat) (hm : 10 ∉ m) (hn : 10 ∉ n) :
    splitNl (m ++ 10 :: n) = [m, n] := by
  induction m with
  | nil =>
      rw [List.nil_append, splitNl, splitNl_no10 n hn]
      show (if (10 : Nat) = 10 then [] :: n :: [] else (10 :: n) :: []) = [[], n]
      rw [if_pos rfl]
  | cons a m ih =>
      have ha : a ≠ 10 := fun h => hm (by rw [h]; exact List.mem_cons_self _ _)
      rw [List.cons_append, splitNl, ih (fun h => hm (List.mem_cons_of_mem _ h))]
      show (if a = 10 then [] :: m :: [n] else (a :: m) :: [n]) = [a :: m, n]
      rw [if_neg ha]

theorem pyValidName_lt (bs : List Nat) (h : pyValidName bs = true) :
    ∀ b ∈ bs, b < 128 := by
  intro b hb
  simp only [pyValidName, Bool.decide_and, Bool.and_eq_true, decide_eq_true_eq] at h
  obtain ⟨h1, _⟩ := h
  cases bs with
  | nil => cases hb
  | cons b0 rest =>
      simp only [pyIdent, Bool.decide_and, Bool.and_eq_true, decide_eq_true_eq] at h1
      obtain ⟨hs, hr⟩ := h1
      rcases List.mem_cons.mp hb with rfl | hmem
      · simp only [isIdentStart, Bool.decide_or, Bool.or_eq_true,
          decide_eq_true_eq] at hs
        omega
      · have := List.all_eq_true.mp hr b hmem
        simp only [isIdentByte, isIdentStart, Bool.decide_or, Bool.or_eq_true,
          decide_eq_true_eq] at this
        omega

/-- Reading the child name back as bytes undoes `segName` on ASCII. -/
theorem strB_segName (bs : List Nat) (hb : ∀ b ∈ bs, b < 128) :
    strB (segName bs) = bs := by
  simp only [strB, segName]
  show (bs.map Char.ofNat).map Char.toNat = bs
  rw [List.map_map]
  conv_rhs => rw [← List.map_id bs]
  apply List.map_congr_left
  intro b hbm
  have hv : b < 55296 := by have := hb b hbm; omega
  simp only [Function.comp_apply, id_eq]
  rw [Char.ofNat, dif_pos (Or.inl hv)]
  rfl

theorem decStr_inj {i j : Nat} (h : decStr i = decStr j) : i = j := by
  have hd : ((decDigitsRev i).reverse.map digitChar) =
      ((decDigitsRev j).reverse.map digitChar) := congrArg String.data h
  have h2 := congrArg (List.map Char.toNat) hd
  rw [List.map_map, List.map_map] at h2
  have e1 : ∀ (n : Nat), (decDigitsRev n).reverse.map (Char.toNat ∘ digitChar)
      = (decDigitsRev n).reverse.map (fun d => 48 + d) := by
    intro n
    apply List.map_congr_left
    intro d hd2
    have hlt : d < 10 := decDigits_lt10 n d (List.mem_reverse.mp hd2)
    simpa using digitChar_toNat d hlt
  rw [e1, e1] at h2
  have h3 : (decDigitsRev i).reverse = (decDigitsRev j).reverse :=
    List.map_injective_iff.mpr (fun a b hab => by omega) h2
  have h4 : decDigitsRev i = decDigitsRev j := List.reverse_injective h3
  have h5 := valRev_dec i
  rw [h4, valRev_dec j] at h5
  exact h5.symm

theorem idxSeg_inj {i j : Nat} (h : idxSeg i = idxSeg j) : i = j := by
  apply decStr_inj
  have hd := congrArg String.data h
  simp only [idxSeg, String.data_append] at hd
  apply string_data_inj
  exact List.cons_injective hd

theorem nextFree_spec : ∀ (fuel : Nat) (seen : List String) (keyi : Nat),
    (∃ d, d < fuel ∧ seen.contains (idxSeg (keyi + d)) = false) →
    seen.contains (idxSeg (nextFree seen keyi fuel)) = false
      ∧ keyi ≤ nextFree seen keyi fuel := by
  intro fuel
  induction fuel with
  | zero =>
      intro seen keyi h
      obtain ⟨d, hd, _⟩ := h
      omega
  | succ f ih =>
      intro seen keyi h
      obtain ⟨d, hd, hfree⟩ := h
      rw [nextFree]
      by_cases hk : seen.contains (idxSeg keyi) = true
      · rw [if_pos hk]
        have hnext : ∃ d', d' < f
            ∧ seen.contains (idxSeg (keyi + 1 + d')) = false := by
          cases d with
          | zero => rw [Nat.add_zero] at hfree; rw [hfree] at hk; cases hk
          | succ d' =>
              exact ⟨d', by omega, by
                rw [show keyi + 1 + d' = keyi + (d' + 1) from by omega]
                exact hfree⟩
        obtain ⟨h1, h2⟩ := ih seen (keyi + 1) hnext
        exact ⟨h1, by omega⟩
      · rw [if_neg hk]
        refine ⟨?_, Nat.le_refl _⟩
        revert hk
        cases seen.contains (idxSeg keyi) <;> simp

/-- The `while` loop of the surrogate namer always lands on an unused
index: `seen.length + 1` candidates cannot all be taken. -/
theorem nextFree_free (seen : List String) (keyi : Nat) :
    seen.contains (idxSeg (nextFree seen keyi (seen.length + 1))) = false
    ∧ keyi ≤ nextFree seen keyi (seen.length + 1) := by
  apply nextFree_spec
  by_contra hall
  push_neg at hall
  have hsub : ((List.range (seen.length + 1)).map (fun d => idxSeg (keyi + d)))
      ⊆ seen := by
    intro x hx
    simp only [List.mem_map, List.mem_range] at hx
    obtain ⟨d, hd, rfl⟩ := hx
    have hc := hall d hd
    have : seen.contains (idxSeg (keyi + d)) = true := by
      revert hc
      cases seen.contains (idxSeg (keyi + d)) <;> simp
    exact (List.elem_iff).mp this
  have hnd : ((List.range (seen.length + 1)).map
      (fun d => idxSeg (keyi + d))).Nodup :=
    List.Nodup.map (fun a b hab => by have := idxSeg_inj hab; omega)
      (List.nodup_range _)
  have hlen := List.Subperm.length_le (List.subperm_of_subset hnd hsub)
  simp at hlen

/-! ## The value-tree layout of `buildVal`

`countV` counts the heap objects a value tree materialises; a build
starting at `nx` occupies exactly the id range `[nx, nx + countV)` and
puts its root, with `buildRootObj`, at the top of that range. -/

mutual

def countV : Value → Nat
  | .vTuple vs => countList vs + 1
  | .vList vs => countList vs + 1
  | .vDict es => countPairs es + 1
  | .vInst _ _ fs => countPairs fs + 3
  | .vObj _ _ fs => countPairs fs + 3
  | _ => 1

def countList : List Value → Nat
  | [] => 0
  | v :: vs => countV v + countList vs

def countPairs : List (Value × Value) → Nat
  | [] => 0
  | (k, v) :: es => countV k + countV v + countPairs es

end

/-- The object a build lays down at its root id. -/
def buildRootObj : Value → Nat → Obj
  | .vNone, _ => .pyNone
  | .vBool b, _ => .pyBool b
  | .vInt n, _ => .pyInt n
  | .vLong n, _ => .pyLong n
  | .vFloat x, _ => .pyFloat x
  | .vComplex re im, _ => .pyComplex re im
  | .vStr bs, _ => .pyStr bs
  | .vUnicode cs, _ => .pyUnicode cs
  | .vTuple vs, nx => .pyTuple (buildList vs nx).2.1
  | .vList vs, nx => .pyList (buildList vs nx).2.1
  | .vDict es, nx => .pyDict (buildPairs es nx).2.1
  | .vInst _ _ fs, nx =>
      .pyInst (buildPairs fs nx).2.2 ((buildPairs fs nx).2.2 + 1)
        (buildPairs fs nx).2.1
  | .vObj _ _ fs, nx =>
      .pyObj (buildPairs fs nx).2.2 ((buildPairs fs nx).2.2 + 1)
        (buildPairs fs nx).2.1
  | .vGlobal m n, _ => .pyGlobal m n

theorem heap_find_append (A B : Heap) (j : Nat) :
    Heap.find? (A ++ B) j =
      match Heap.find? A j with
      | some o => some o
      | Option.none => Heap.find? B j := by
  induction A with
  | nil => rfl
  | cons e A ih =>
      show Heap.find? (e :: (A ++ B)) j = _
      rw [Heap.find?]
      by_cases he : e.1 = j
      · rw [if_pos he]
        have : Heap.find? (e :: A) j = some e.2 := by rw [Heap.find?, if_pos he]
        rw [this]
      · rw [if_neg he, ih]
        have : Heap.find? (e :: A) j = Heap.find? A j := by rw [Heap.find?, if_neg he]
        rw [this]

mutual

theorem build_next : ∀ (v : Value) (nx : Nat), (buildVal v nx).2.2 = nx + countV v
  | .vNone, nx => rfl
  | .vBool b, nx => rfl
  | .vInt n, nx => rfl
  | .vLong n, nx => rfl
  | .vFloat x, nx => rfl
  | .vComplex re im, nx => rfl
  | .vStr bs, nx => rfl
  | .vUnicode cs, nx => rfl
  | .vGlobal m n, nx => rfl
  | .vTuple vs, nx => by
      have hl := buildList_next vs nx
      rcases hb : buildList vs nx with ⟨hh, ids, nx1⟩
      rw [hb] at hl
      dsimp only at hl
      simp only [buildVal, countV, hb]
      omega
  | .vList vs, nx => by
      have hl := buildList_next vs nx
      rcases hb : buildList vs nx with ⟨hh, ids, nx1⟩
      rw [hb] at hl
      dsimp only at hl
      simp only [buildVal, countV, hb]
      omega
  | .vDict es, nx => by
      have hl := buildPairs_next es nx
      rcases hb : buildPairs es nx with ⟨hh, kvs, nx1⟩
      rw [hb] at hl
      dsimp only at hl
      simp only [buildVal, countV, hb]
      omega
  | .vInst m n fs, nx => by
      have hl := buildPairs_next fs nx
      rcases hb : buildPairs fs nx with ⟨hh, kvs, nx1⟩
      rw [hb] at hl
      dsimp only at hl
      simp only [buildVal, countV, hb]
      omega
  | .vObj m n fs, nx => by
      have hl := buildPairs_next fs nx
      rcases hb : buildPairs fs nx with ⟨hh, kvs, nx1⟩
      rw [hb] at hl
      dsimp only at hl
      simp only [buildVal, countV, hb]
      omega

theorem buildList_next : ∀ (vs : List Value) (nx : Nat),
    (buildList vs nx).2.2 = nx + countList vs
  | [], nx => rfl
  | v :: vs, nx => by
      have h1 := build_next v nx
      rcases hb1 : buildVal v nx with ⟨h1h, i, nx1⟩
      rw [hb1] at h1
      dsimp only at h1
      have h2 := buildList_next vs nx1
      rcases hb2 : buildList vs nx1 with ⟨h2h, is, nx2⟩
      rw [hb2] at h2
      dsimp only at h2
      simp only [buildList, countList, hb1, hb2]
      omega

theorem buildPairs_next : ∀ (es : List (Value × Value)) (nx : Nat),
    (buildPairs es nx).2.2 = nx + countPairs es
  | [], nx => rfl
  | (k, v) :: es, nx => by
      have h1 := build_next k nx
      rcases hb1 : buildVal k nx with ⟨h1h, ki, nx1⟩
      rw [hb1] at h1
      dsimp only at h1
      have h2 := build_next v nx1
      rcases hb2 : buildVal v nx1 with ⟨h2h, vi, nx2⟩
      rw [hb2] at h2
      dsimp only at h2
      have h3 := buildPairs_next es nx2
      rcases hb3 : buildPairs es nx2 with ⟨h3h, kvs, nx3⟩
      rw [hb3] at h3
      dsimp only at h3
      simp only [buildPairs, countPairs, hb1, hb2, hb3]
      omega

end

theorem heap_find_cons (e : Nat × Obj) (h : Heap) (j : Nat) :
    Heap.find? (e :: h) j = if e.1 = j then some e.2 else Heap.find? h j := rfl

theorem heap_find_singleton (i : Nat) (o : Obj) (j : Nat) :
    Heap.find? [(i, o)] j = if i = j then some o else Option.none := by
  show (if (i, o).1 = j then some (i, o).2 else Heap.find? [] j) = _
  dsimp only
  rw [Heap.find?]

mutual

theorem build_find_none : ∀ (v : Value) (nx : Nat) (j : Nat),
    j < nx ∨ nx + countV v ≤ j → Heap.find? (buildVal v nx).1 j = Option.none
  | .vNone, nx, j, hj => by
      simp only [countV] at hj
      show Heap.find? [(nx, Obj.pyNone)] j = Option.none
      rw [heap_find_singleton, if_neg (by omega)]
  | .vBool b, nx, j, hj => by
      simp only [countV] at hj
      show Heap.find? [(nx, Obj.pyBool b)] j = Option.none
      rw [heap_find_singleton, if_neg (by omega)]
  | .vInt n, nx, j, hj => by
      simp only [countV] at hj
      show Heap.find? [(nx, Obj.pyInt n)] j = Option.none
      rw [heap_find_singleton, if_neg (by omega)]
  | .vLong n, nx, j, hj => by
      simp only [countV] at hj
      show Heap.find? [(nx, Obj.pyLong n)] j = Option.none
      rw [heap_find_singleton, if_neg (by omega)]
  | .vFloat x, nx, j, hj => by
      simp only [countV] at hj
      show Heap.find? [(nx, Obj.pyFloat x)] j = Option.none
      rw [heap_find_singleton, if_neg (by omega)]
  | .vComplex re im, nx, j, hj => by
      simp only [countV] at hj
      show Heap.find? [(nx, Obj.pyComplex re im)] j = Option.none
      rw [heap_find_singleton, if_neg (by omega)]
  | .vStr bs, nx, j, hj => by
      simp only [countV] at hj
      show Heap.find? [(nx, Obj.pyStr bs)] j = Option.none
      rw [heap_find_singleton, if_neg (by omega)]
  | .vUnicode cs, nx, j, hj => by
      simp only [countV] at hj
      show Heap.find? [(nx, Obj.pyUnicode cs)] j = Option.none
      rw [heap_find_singleton, if_neg (by omega)]
  | .vGlobal m n, nx, j, hj => by
      simp only [countV] at hj
      show Heap.find? [(nx, Obj.pyGlobal m n)] j = Option.none
      rw [heap_find_singleton, if_neg (by omega)]
  | .vTuple vs, nx, j, hj => by
      simp only [countV] at hj
      have hl := buildList_next vs nx
      have hnone := buildList_find_none vs nx j
      rcases hb : buildList vs nx with ⟨hh, ids, nx1⟩
      rw [hb] at hl hnone
      dsimp only at hl hnone
      simp only [buildVal, hb]
      rw [heap_find_append, hnone (by omega), heap_find_singleton,
        if_neg (by omega)]
  | .vList vs, nx, j, hj => by
      simp only [countV] at hj
      have hl := buildList_next vs nx
      have hnone := buildList_find_none vs nx j
      rcases hb : buildList vs nx with ⟨hh, ids, nx1⟩
      rw [hb] at hl hnone
      dsimp only at hl hnone
      simp only [buildVal, hb]
      rw [heap_find_append, hnone (by omega), heap_find_singleton,
        if_neg (by omega)]
  | .vDict es, nx, j, hj => by
      simp only [countV] at hj
      have hl := buildPairs_next es nx
      have hnone := buildPairs_find_none es nx j
      rcases hb : buildPairs es nx with ⟨hh, kvs, nx1⟩
      rw [hb] at hl hnone
      dsimp only at hl hnone
      simp only [buildVal, hb]
      rw [heap_find_append, hnone (by omega), heap_find_singleton,
        if_neg (by omega)]
  | .vInst m n fs, nx, j, hj => by
      simp only [countV] at hj
      have hl := buildPairs_next fs nx
      have hnone := buildPairs_find_none fs nx j
      rcases hb : buildPairs fs nx with ⟨hh, kvs, nx1⟩
      rw [hb] at hl hnone
      dsimp only at hl hnone
      simp only [buildVal, hb]
      rw [heap_find_append, hnone (by omega), heap_find_cons]
      dsimp only
      rw [if_neg (by omega), heap_find_cons]
      dsimp only
      rw [if_neg (by omega), heap_find_singleton, if_neg (by omega)]
  | .vObj m n fs, nx, j, hj => by
      simp only [countV] at hj
      have hl := buildPairs_next fs nx
      have hnone := buildPairs_find_none fs nx j
      rcases hb : buildPairs fs nx with ⟨hh, kvs, nx1⟩
      rw [hb] at hl hnone
      dsimp only at hl hnone
      simp only [buildVal, hb]
      rw [heap_find_append, hnone (by omega), heap_find_cons]
      dsimp only
      rw [if_neg (by omega), heap_find_cons]
      dsimp only
      rw [if_neg (by omega), heap_find_singleton, if_neg (by omega)]

theorem buildList_find_none : ∀ (vs : List Value) (nx : Nat) (j : Nat),
    j < nx ∨ nx + countList vs ≤ j →
    Heap.find? (buildList vs nx).1 j = Option.none
  | [], nx, j, hj => rfl
  | v :: vs, nx, j, hj => by
      simp only [countList] at hj
      have h1 := build_next v nx
      have hn1 := build_find_none v nx j
      rcases hb1 : buildVal v nx with ⟨h1h, i, nx1⟩
      rw [hb1] at h1 hn1
      dsimp only at h1 hn1
      have hn2 := buildList_find_none vs nx1 j
      rcases hb2 : buildList vs nx1 with ⟨h2h, is, nx2⟩
      rw [hb2] at hn2
      dsimp only at hn2
      simp only [buildList, hb1, hb2]
      rw [heap_find_append, hn1 (by omega), hn2 (by omega)]

theorem buildPairs_find_none : ∀ (es : List (Value × Value)) (nx : Nat) (j : Nat),
    j < nx ∨ nx + countPairs es ≤ j →
    Heap.find? (buildPairs es nx).1 j = Option.none
  | [], nx, j, hj => rfl
  | (k, v) :: es, nx, j, hj => by
      simp only [countPairs] at hj
      have h1 := build_next k nx
      have hn1 := build_find_none k nx j
      rcases hb1 : buildVal k nx with ⟨h1h, ki, nx1⟩
      rw [hb1] at h1 hn1
      dsimp only at h1 hn1
      have h2 := build_next v nx1
      have hn2 := build_find_none v nx1 j
      rcases hb2 : buildVal v nx1 with ⟨h2h, vi, nx2⟩
      rw [hb2] at h2 hn2
      dsimp only at h2 hn2
      have hn3 := buildPairs_find_none es nx2 j
      rcases hb3 : buildPairs es nx2 with ⟨h3h, kvs, nx3⟩
      rw [hb3] at hn3
      dsimp only at hn3
      simp only [buildPairs, hb1, hb2, hb3]
      rw [heap_find_append, heap_find_append, hn1 (by omega), hn2 (by omega),
        hn3 (by omega)]

end

theorem build_root_eq : ∀ (v : Value) (nx : Nat),
    (buildVal v nx).2.1 = nx + countV v - 1 := by
  intro v nx
  cases v with
  | vTuple vs =>
      have hl := buildList_next vs nx
      rcases hb : buildList vs nx with ⟨hh, ids, nx1⟩
      rw [hb] at hl
      dsimp only at hl
      simp only [buildVal, countV, hb]
      rw [hl]
      exact (show (nx + countList vs : Nat) = nx + (countList vs + 1) - 1 by omega)
  | vList vs =>
      have hl := buildList_next vs nx
      rcases hb : buildList vs nx with ⟨hh, ids, nx1⟩
      rw [hb] at hl
      dsimp only at hl
      simp only [buildVal, countV, hb]
      rw [hl]
      exact (show (nx + countList vs : Nat) = nx + (countList vs + 1) - 1 by omega)
  | vDict es =>
      have hl := buildPairs_next es nx
      rcases hb : buildPairs es nx with ⟨hh, kvs, nx1⟩
      rw [hb] at hl
      dsimp only at hl
      simp only [buildVal, countV, hb]
      rw [hl]
      exact (show (nx + countPairs es : Nat) = nx + (countPairs es + 1) - 1 by omega)
  | vInst m n fs =>
      have hl := buildPairs_next fs nx
      rcases hb : buildPairs fs nx with ⟨hh, kvs, nx1⟩
      rw [hb] at hl
      dsimp only at hl
      simp only [buildVal, countV, hb]
      rw [hl]
      exact (show (nx + countPairs fs + 2 : Nat) = nx + (countPairs fs + 3) - 1 by omega)
  | vObj m n fs =>
      have hl := buildPairs_next fs nx
      rcases hb : buildPairs fs nx with ⟨hh, kvs, nx1⟩
      rw [hb] at hl
      dsimp only at hl
      simp only [buildVal, countV, hb]
      rw [hl]
      exact (show (nx + countPairs fs + 2 : Nat) = nx + (countPairs fs + 3) - 1 by omega)
  | vNone => rfl
  | vBool b => rfl
  | vInt n => rfl
  | vLong n => rfl
  | vFloat x => rfl
  | vComplex re im => rfl
  | vStr bs => rfl
  | vUnicode cs => rfl
  | vGlobal m n => rfl

theorem build_find_root : ∀ (v : Value) (nx : Nat),
    Heap.find? (buildVal v nx).1 (buildVal v nx).2.1
      = some (buildRootObj v nx) := by
  intro v nx
  cases v with
  | vNone =>
      show Heap.find? [(nx, Obj.pyNone)] nx = some (Obj.pyNone)
      rw [heap_find_singleton, if_pos rfl]
  | vBool b =>
      show Heap.find? [(nx, Obj.pyBool b)] nx = some (Obj.pyBool b)
      rw [heap_find_singleton, if_pos rfl]
  | vInt n =>
      show Heap.find? [(nx, Obj.pyInt n)] nx = some (Obj.pyInt n)
      rw [heap_find_singleton, if_pos rfl]
  | vLong n =>
      show Heap.find? [(nx, Obj.pyLong n)] nx = some (Obj.pyLong n)
      rw [heap_find_singleton, if_pos rfl]
  | vFloat x =>
      show Heap.find? [(nx, Obj.pyFloat x)] nx = some (Obj.pyFloat x)
      rw [heap_find_singleton, if_pos rfl]
  | vComplex re im =>
      show Heap.find? [(nx, Obj.pyComplex re im)] nx = some (Obj.pyComplex re im)
      rw [heap_find_singleton, if_pos rfl]
  | vStr bs =>
      show Heap.find? [(nx, Obj.pyStr bs)] nx = some (Obj.pyStr bs)
      rw [heap_find_singleton, if_pos rfl]
  | vUnicode cs =>
      show Heap.find? [(nx, Obj.pyUnicode cs)] nx = some (Obj.pyUnicode cs)
      rw [heap_find_singleton, if_pos rfl]
  | vGlobal m n =>
      show Heap.find? [(nx, Obj.pyGlobal m n)] nx = some (Obj.pyGlobal m n)
      rw [heap_find_singleton, if_pos rfl]
  | vTuple vs =>
      have hl := buildList_next vs nx
      have hnone := buildList_find_none vs nx
      rcases hb : buildList vs nx with ⟨hh, ids, nx1⟩
      rw [hb] at hl
      dsimp only at hl
      simp only [buildVal, buildRootObj, hb]
      rw [heap_find_append]
      have := hnone nx1
      rw [hb] at this
      dsimp only at this
      rw [this (by omega), heap_find_singleton, if_pos rfl]
  | vList vs =>
      have hl := buildList_next vs nx
      have hnone := buildList_find_none vs nx
      rcases hb : buildList vs nx with ⟨hh, ids, nx1⟩
      rw [hb] at hl
      dsimp only at hl
      simp only [buildVal, buildRootObj, hb]
      rw [heap_find_append]
      have := hnone nx1
      rw [hb] at this
      dsimp only at this
      rw [this (by omega), heap_find_singleton, if_pos rfl]
  | vDict es =>
      have hl := buildPairs_next es nx
      have hnone := buildPairs_find_none es nx
      rcases hb : buildPairs es nx with ⟨hh, kvs, nx1⟩
      rw [hb] at hl
      dsimp only at hl
      simp only [buildVal, buildRootObj, hb]
      rw [heap_find_append]
      have := hnone nx1
      rw [hb] at this
      dsimp only at this
      rw [this (by omega), heap_find_singleton, if_pos rfl]
  | vInst m n fs =>
      have hl := buildPairs_next fs nx
      have hnone := buildPairs_find_none fs nx
      rcases hb : buildPairs fs nx with ⟨hh, kvs, nx1⟩
      rw [hb] at hl
      dsimp only at hl
      simp only [buildVal, buildRootObj, hb]
      rw [heap_find_append]
      have := hnone (nx1 + 2)
      rw [hb] at this
      dsimp only at this
      rw [this (by omega), heap_find_cons]
      dsimp only
      rw [if_neg (by omega), heap_find_cons]
      dsimp only
      rw [if_neg (by omega), heap_find_singleton, if_pos rfl]
  | vObj m n fs =>
      have hl := buildPairs_next fs nx
      have hnone := buildPairs_find_none fs nx
      rcases hb : buildPairs fs nx with ⟨hh, kvs, nx1⟩
      rw [hb] at hl
      dsimp only at hl
      simp only [buildVal, buildRootObj, hb]
      rw [heap_find_append]
      have := hnone (nx1 + 2)
      rw [hb] at this
      dsimp only at this
      rw [this (by omega), heap_find_cons]
      dsimp only
      rw [if_neg (by omega), heap_find_cons]
      dsimp only
      rw [if_neg (by omega), heap_find_singleton, if_pos rfl]

/-! ## Store shape lemmas -/

theorem store_find_cons (e : Path × Node) (s : Store) (q : Path) :
    Store.find? (e :: s) q = if e.1 = q then some e.2 else Store.find? s q := rfl

theorem store_find_append (A B : Store) (q : Path) :
    Store.find? (A ++ B) q =
      match Store.find? A q with
      | some nd => some nd
      | Option.none => Store.find? B q := by
  induction A with
  | nil => rfl
  | cons e A ih =>
      show Store.find? (e :: (A ++ B)) q = _
      rw [store_find_cons, store_find_cons]
      by_cases he : e.1 = q
      · rw [if_pos he, if_pos he]
      · rw [if_neg he, if_neg he, ih]

/-- The one-child contribution of a row to `childNames`. -/
def childHead (e : Path × Node) (p : Path) : List String :=
  match e.1.drop p.length with
  | [n] => if e.1.take p.length = p then [n] else []
  | _ => []

theorem childNames_cons (e : Path × Node) (s : Store) (p : Path) :
    Store.childNames (e :: s) p = childHead e p ++ Store.childNames s p := by
  rw [Store.childNames, childHead]
  cases hd : e.1.drop p.length with
  | nil => rfl
  | cons n tl =>
      cases tl with
      | nil =>
          show (if e.1.take p.length = p then n :: Store.childNames s p
              else Store.childNames s p)
            = (if e.1.take p.length = p then [n] else []) ++ Store.childNames s p
          by_cases ht : e.1.take p.length = p
          · rw [if_pos ht, if_pos ht]; rfl
          · rw [if_neg ht, if_neg ht]; rfl
      | cons m tl2 => rfl

theorem childNames_append (A B : Store) (p : Path) :
    Store.childNames (A ++ B) p
      = Store.childNames A p ++ Store.childNames B p := by
  induction A with
  | nil => rfl
  | cons e A ih =>
      show Store.childNames (e :: (A ++ B)) p = _
      rw [childNames_cons, childNames_cons, ih, List.append_assoc]

theorem childHead_single (p : Path) (nm : String) (nd : Node) :
    childHead (p ++ [nm], nd) p = [nm] := by
  rw [childHead]
  simp only [List.drop_left, List.take_left]
  simp

theorem childHead_nil {q : Path} {p : Path} (h : ∀ nm, q ≠ p ++ [nm])
    (nd : Node) : childHead (q, nd) p = [] := by
  rw [childHead]
  cases hd : q.drop p.length with
  | nil => rfl
  | cons n tl =>
      cases tl with
      | nil =>
          show (if q.take p.length = p then [n] else []) = []
          by_cases ht : q.take p.length = p
          · exfalso
            apply h n
            conv_lhs => rw [← List.take_append_drop p.length q]
            rw [hd, ht]
          · rw [if_neg ht]
      | cons m tl2 => rfl

/-- No row of `s` lies at or under `p`. -/
def noSub (s : Store) (p : Path) : Prop := ∀ e ∈ s, ¬ (p <+: e.1)

theorem noSub_append {A B : Store} {p : Path} (hA : noSub A p) (hB : noSub B p) :
    noSub (A ++ B) p := by
  intro e he
  rcases List.mem_append.mp he with h | h
  · exact hA e h
  · exact hB e h

theorem noSub_mono {s : Store} {p q : Path} (h : noSub s p) (hq : p <+: q) :
    noSub s q := fun e he hpre => h e he (hq.trans hpre)

theorem find_none_of_noSub {s : Store} {p q : Path} (h : noSub s p)
    (hq : p <+: q) : Store.find? s q = Option.none := by
  induction s with
  | nil => rfl
  | cons e s ih =>
      rw [store_find_cons, if_neg, ih (fun x hx => h x (List.mem_cons_of_mem _ hx))]
      intro he
      exact h e (List.mem_cons_self _ _) (he ▸ hq)

theorem childNames_nil_of_noSub {s : Store} {p : Path} (h : noSub s p) :
    Store.childNames s p = [] := by
  induction s with
  | nil => rfl
  | cons e s ih =>
      rw [childNames_cons, ih (fun x hx => h x (List.mem_cons_of_mem _ hx)),
        childHead_nil, List.nil_append]
      intro nm he
      exact h e (List.mem_cons_self _ _) (he ▸ List.prefix_append p [nm])

theorem setAttr_append (A B : Store) (p : Path) (k : String) (v : AttrVal) :
    Store.setAttr (A ++ B) p k v = Store.setAttr A p k v ++ Store.setAttr B p k v := by
  induction A with
  | nil => rfl
  | cons e A ih =>
      show Store.setAttr (e :: (A ++ B)) p k v = _
      rw [Store.setAttr, Store.setAttr, ih]
      rfl

theorem setAttr_skip (A : Store) (p : Path) (k : String) (v : AttrVal)
    (h : ∀ e ∈ A, e.1 ≠ p) : Store.setAttr A p k v = A := by
  induction A with
  | nil => rfl
  | cons e A ih =>
      rw [Store.setAttr, if_neg (h e (List.mem_cons_self _ _)),
        ih (fun x hx => h x (List.mem_cons_of_mem _ hx))]

theorem setAttr_head (e : Path × Node) (A : Store) (k : String) (v : AttrVal) :
    Store.setAttr (e :: A) e.1 k v
      = (e.1, e.2.setAttr k v) :: Store.setAttr A e.1 k v := by
  rw [Store.setAttr, if_pos rfl]

theorem prefix_seg_ne {p : Path} {a b : String} {r : List String} (h : a ≠ b) :
    ¬ (p ++ [a] <+: p ++ b :: r) := by
  intro hpre
  rw [show p ++ b :: r = p ++ [b] ++ r from by simp] at hpre
  rw [List.append_assoc, List.prefix_append_right_inj] at hpre
  obtain ⟨t, ht⟩ := hpre
  simp at ht
  exact h ht.1

theorem prefix_seg_unique {p q : Path} {a b : String}
    (ha : p ++ [a] <+: q) (hb : p ++ [b] <+: q) : a = b := by
  have hc := List.prefix_of_prefix_length_le ha hb (by simp)
  rw [List.prefix_append_right_inj] at hc
  obtain ⟨t, ht⟩ := hc
  simp at ht
  exact ht.1

theorem lookupMemo_memoIns (p : Path) (i : ObjId) (u : UState) (q : Path) :
    (memoIns p i u).lookupMemo q
      = if p = q then some i else u.lookupMemo q := rfl

/-! ## The file image of one encoded value

`encTree v p` is the exact row list `Pickler._save` appends for the
subtree of `v` at `p`; `vDirectName`/`vMkAssign` mirror the dict-key
naming on value trees. -/

def vDirectName : Value → Option String
  | .vStr bs =>
      if pyValidName bs ∧ bs ≠ strB "__" then some (segName bs) else Option.none
  | _ => Option.none

def vAssignNames : List Value → List String → Nat → List (String × Bool)
  | [], _, _ => []
  | k :: ks, seen, keyi =>
    match vDirectName k with
    | some nm => (nm, true) :: vAssignNames ks seen keyi
    | Option.none =>
        let j := nextFree seen keyi (seen.length + 1)
        (idxSeg j, false) :: vAssignNames ks (seen ++ [idxSeg j]) j

def vMkAssign (ks : List Value) : List (String × Bool) :=
  vAssignNames ks (ks.filterMap vDirectName) 0

def vFlatten (vs : List Value) : Option ArrData :=
  match vs with
  | [] => Option.none
  | v0 :: _ =>
    match v0 with
    | .vInt _ =>
        (seqOpt (fun v => match v with | .vInt n => some n | _ => Option.none)
          vs).map ArrData.intVec
    | .vFloat _ =>
        (seqOpt (fun v => match v with | .vFloat x => some x | _ => Option.none)
          vs).map ArrData.floatVec
    | .vComplex _ _ =>
        (seqOpt (fun v =>
          match v with | .vComplex re im => some (re, im) | _ => Option.none)
          vs).map ArrData.complexVec
    | _ => Option.none

def tagNode (nd : Node) (t : Tag) : Node := nd.setAttr "pickletype" (.tag t)

mutual

def encTree : Value → Path → List (Path × Node)
  | .vNone, p => [(p, tagNode (leafOf (.intScalar 0)) .tNone)]
  | .vBool b, p => [(p, tagNode (leafOf (.intScalar (if b then 1 else 0))) .tBool)]
  | .vInt n, p => [(p, tagNode (leafOf (.intScalar n)) .tInt)]
  | .vLong n, p =>
      [(p, tagNode (if n = 0 then emptyLeaf else leafOf (.byteVec (encodeLong n)))
        .tLong)]
  | .vFloat x, p => [(p, tagNode (leafOf (.floatScalar x)) .tFloat)]
  | .vComplex re im, p => [(p, tagNode (leafOf (.complexScalar re im)) .tComplex)]
  | .vStr bs, p =>
      [(p, tagNode (if bs = [] then emptyLeaf else leafOf (.byteVec bs)) .tString)]
  | .vUnicode cs, p =>
      [(p, tagNode
        (if utf8Enc cs = [] then emptyLeaf else leafOf (.byteVec (utf8Enc cs)))
        .tUnicode)]
  | .vGlobal m n, p => [(p, tagNode (leafOf (.byteVec (m ++ [10] ++ n))) .tGlobal)]
  | .vTuple vs, p =>
      match vs with
      | [] => [(p, tagNode emptyLeaf .tTuple)]
      | v0 :: vrest =>
        match vFlatten (v0 :: vrest) with
        | some d => [(p, tagNode (leafOf d) .tTuple)]
        | Option.none => (p, tagNode groupNode .tTuple) :: encSeq (v0 :: vrest) p 0
  | .vList vs, p =>
      match vs with
      | [] => [(p, tagNode (tagNode emptyLeaf .tTuple) .tList)]
      | v0 :: vrest =>
        match vFlatten (v0 :: vrest) with
        | some d => [(p, tagNode (tagNode (leafOf d) .tTuple) .tList)]
        | Option.none =>
            (p, tagNode (tagNode groupNode .tTuple) .tList)
              :: encSeq (v0 :: vrest) p 0
  | .vDict es, p =>
      (p, tagNode groupNode .tDict)
        :: encDictRows es (vMkAssign (es.map Prod.fst)) p false
  | .vInst m n fs, p =>
      (p, tagNode groupNode .tInst) :: (p ++ ["__"], groupNode)
        :: (p ++ ["__", "cls"], tagNode (leafOf (.byteVec (m ++ [10] ++ n))) .tGlobal)
        :: (p ++ ["__", "args"], tagNode emptyLeaf .tTuple)
        :: encDictRows fs (vMkAssign (fs.map Prod.fst)) p true
  | .vObj m n fs, p =>
      (p, (tagNode groupNode .tReduce).setAttr "has_reduce_content" (.int 1))
        :: (p ++ ["__"], groupNode)
        :: (p ++ ["__", "cls"], tagNode (leafOf (.byteVec (m ++ [10] ++ n))) .tGlobal)
        :: (p ++ ["__", "args"], tagNode emptyLeaf .tTuple)
        :: encDictRows fs (vMkAssign (fs.map Prod.fst)) p true

def encSeq : List Value → Path → Nat → List (Path × Node)
  | [], _, _ => []
  | v :: vs, p, i => encTree v (p ++ [idxSeg i]) ++ encSeq vs p (i + 1)

def encDictRows :
    List (Value × Value) → List (String × Bool) → Path → Bool → List (Path × Node)
  | (k, v) :: es, (nm, direct) :: asg, p, hassub =>
      encTree v (p ++ [nm])
        ++ (if direct then encDictRows es asg p hassub
            else (if hassub then [] else [(p ++ ["__"], groupNode)])
              ++ encTree k (p ++ ["__", nm]) ++ encDictRows es asg p true)
  | _, _, _, _ => []

end

/-! ## Correctness of the surrogate-name assignment -/

theorem not_mem_of_contains_false {l : List String} {a : String}
    (h : l.contains a = false) : a ∉ l := by
  intro hm
  have h2 : l.contains a = true := List.elem_iff.mpr hm
  rw [h2] at h
  cases h

theorem decStr_data (n : Nat) :
    (decStr n).data = (decDigitsRev n).reverse.map digitChar := rfl

theorem idxSeg_ne_dunder (j : Nat) : idxSeg j ≠ "__" := by
  intro h
  have hd := congrArg String.data h
  simp only [idxSeg, String.data_append] at hd
  simp only [List.cons_append, List.nil_append] at hd
  have h2 : (decStr j).data = ['_'] := List.cons_injective hd
  rw [decStr_data] at h2
  cases hrev : (decDigitsRev j).reverse with
  | nil => exact decDigits_ne_nil j (List.reverse_eq_nil_iff.mp hrev)
  | cons d ds =>
      rw [hrev, List.map_cons] at h2
      have hdd : digitChar d = '_' ∧ ds.map digitChar = [] := by
        constructor
        · exact (List.cons_eq_cons.mp h2).1
        · exact (List.cons_eq_cons.mp h2).2
      have hdig : d < 10 :=
        decDigits_lt10 j d (List.mem_reverse.mp (by rw [hrev]; exact List.mem_cons_self d ds))
      have := congrArg Char.toNat hdd.1
      rw [digitChar_toNat d hdig] at this
      have hu : ('_').toNat = 95 := rfl
      rw [hu] at this
      omega

theorem idxSeg_starts (j : Nat) : startsUnderscore (idxSeg j) = true := by
  have hd : (idxSeg j).data = '_' :: (decStr j).data := by
    simp only [idxSeg, String.data_append]
    rfl
  rw [startsUnderscore, hd]
  simp

theorem vDirectName_str {k : Value} {nm : String} (h : vDirectName k = some nm) :
    ∃ bs, k = .vStr bs ∧ pyValidName bs = true ∧ bs ≠ strB "__"
      ∧ nm = segName bs := by
  cases k with
  | vStr bs =>
      simp only [vDirectName] at h
      split at h
      next hc =>
          cases h
          exact ⟨bs, rfl, by simpa using hc.1, hc.2, rfl⟩
      next => cases h
  | vNone => simp [vDirectName] at h
  | vBool b => simp [vDirectName] at h
  | vInt n => simp [vDirectName] at h
  | vLong n => simp [vDirectName] at h
  | vFloat x => simp [vDirectName] at h
  | vComplex re im => simp [vDirectName] at h
  | vUnicode cs => simp [vDirectName] at h
  | vTuple vs => simp [vDirectName] at h
  | vList vs => simp [vDirectName] at h
  | vDict es => simp [vDirectName] at h
  | vInst m n fs => simp [vDirectName] at h
  | vObj m n fs => simp [vDirectName] at h
  | vGlobal m n => simp [vDirectName] at h

theorem vDirectName_ne_dunder {k : Value} {nm : String}
    (h : vDirectName k = some nm) : nm ≠ "__" := by
  obtain ⟨bs, _, hvalid, hne, rfl⟩ := vDirectName_str h
  intro he
  apply hne
  have := congrArg strB he
  rw [strB_segName bs (pyValidName_lt bs hvalid)] at this
  exact this

/-- The name/directness relation `_save_dict_content` establishes for a
key list, read off the value trees. -/
def AsgOk : List Value → List (String × Bool) → Prop
  | [], [] => True
  | k :: ks, (nm, d) :: asg =>
      (if d = true then vDirectName k = some nm
       else vDirectName k = Option.none ∧ startsUnderscore nm = true)
      ∧ nm ≠ "__" ∧ AsgOk ks asg
  | _, _ => False

theorem vAssignNames_ok : ∀ (ks : List Value) (seen : List String) (keyi : Nat),
    (ks.filterMap vDirectName).Nodup →
    (∀ nm ∈ ks.filterMap vDirectName, nm ∈ seen) →
    AsgOk ks (vAssignNames ks seen keyi)
    ∧ ((vAssignNames ks seen keyi).map (·.1)).Nodup
    ∧ (∀ nm ∈ (vAssignNames ks seen keyi).map (·.1),
        nm ∈ ks.filterMap vDirectName ∨ nm ∉ seen) := by
  intro ks
  induction ks with
  | nil =>
      intro seen keyi _ _
      exact ⟨trivial, List.nodup_nil, by intro nm h; cases h⟩
  | cons k ks ih =>
      intro seen keyi hnd hsub
      cases hdn : vDirectName k with
      | some nm =>
          rw [List.filterMap_cons_some hdn] at hnd hsub
          have hnd2 := List.Nodup.of_cons hnd
          have hnm_notin := (List.nodup_cons.mp hnd).1
          obtain ⟨hok, hnodup, hmem⟩ :=
            ih seen keyi hnd2 (fun x hx => hsub x (List.mem_cons_of_mem _ hx))
          rw [vAssignNames, hdn]
          refine ⟨⟨by rw [if_pos rfl]; exact hdn, vDirectName_ne_dunder hdn, hok⟩,
            ?_, ?_⟩
          · rw [List.map_cons]
            refine List.nodup_cons.mpr ⟨?_, hnodup⟩
            intro hmem2
            rcases hmem _ hmem2 with h | h
            · exact hnm_notin h
            · exact h (hsub nm (List.mem_cons_self _ _))
          · rw [List.map_cons]
            intro x hx
            rcases List.mem_cons.mp hx with rfl | hx2
            · exact Or.inl (by
                rw [List.filterMap_cons_some hdn]
                exact List.mem_cons_self _ _)
            · rcases hmem x hx2 with h | h
              · exact Or.inl (by
                  rw [List.filterMap_cons_some hdn]
                  exact List.mem_cons_of_mem _ h)
              · exact Or.inr h
      | none =>
          rw [List.filterMap_cons_none hdn] at hnd hsub
          obtain ⟨hfree, _⟩ := nextFree_free seen keyi
          have hnotin := not_mem_of_contains_false hfree
          obtain ⟨hok, hnodup, hmem⟩ :=
            ih (seen ++ [idxSeg (nextFree seen keyi (seen.length + 1))])
              (nextFree seen keyi (seen.length + 1)) hnd
              (fun x hx => List.mem_append_left _ (hsub x hx))
          rw [vAssignNames, hdn]
          refine ⟨⟨by rw [if_neg (by simp)]; exact ⟨hdn, idxSeg_starts _⟩,
            idxSeg_ne_dunder _, hok⟩, ?_, ?_⟩
          · rw [List.map_cons]
            refine List.nodup_cons.mpr ⟨?_, hnodup⟩
            intro hmem2
            rcases hmem _ hmem2 with h | h
            · exact hnotin (hsub _ h)
            · exact h (List.mem_append_right _ (List.mem_cons_self _ _))
          · rw [List.map_cons]
            intro x hx
            rcases List.mem_cons.mp hx with rfl | hx2
            · exact Or.inr hnotin
            · rcases hmem x hx2 with h | h
              · exact Or.inl (by rw [List.filterMap_cons_none hdn]; exact h)
              · exact Or.inr (fun hc => h (List.mem_append_left _ hc))

theorem vDirectName_eq_bytes (v : Value) :
    vDirectName v = (vDirectBytes v).map segName := by
  cases v with
  | vStr bs =>
      simp only [vDirectName, vDirectBytes]
      by_cases hc : pyValidName bs = true ∧ bs ≠ strB "__"
      · rw [if_pos hc, if_pos hc]; rfl
      · rw [if_neg hc, if_neg hc]; rfl
  | vNone => rfl
  | vBool b => rfl
  | vInt n => rfl
  | vLong n => rfl
  | vFloat x => rfl
  | vComplex re im => rfl
  | vUnicode cs => rfl
  | vTuple vs => rfl
  | vList vs => rfl
  | vDict es => rfl
  | vInst m n fs => rfl
  | vObj m n fs => rfl
  | vGlobal m n => rfl

theorem filterMap_directName_eq (ks : List Value) :
    ks.filterMap vDirectName = (ks.filterMap vDirectBytes).map segName := by
  induction ks with
  | nil => rfl
  | cons v ks ih =>
      cases hv : vDirectBytes v with
      | none =>
          have hn : vDirectName v = Option.none := by
            rw [vDirectName_eq_bytes, hv]; rfl
          rw [List.filterMap_cons_none hn, List.filterMap_cons_none hv, ih]
      | some bs =>
          have hs : vDirectName v = some (segName bs) := by
            rw [vDirectName_eq_bytes, hv]; rfl
          rw [List.filterMap_cons_some hs, List.filterMap_cons_some hv,
            List.map_cons, ih]

theorem vDirectBytes_valid {v : Value} {bs : List Nat}
    (h : vDirectBytes v = some bs) :
    pyValidName bs = true ∧ bs ≠ strB "__" := by
  cases v with
  | vStr bs2 =>
      simp only [vDirectBytes] at h
      split at h
      next hc => cases h; exact hc
      next => cases h
  | vNone => cases h
  | vBool b => cases h
  | vInt n => cases h
  | vLong n => cases h
  | vFloat x => cases h
  | vComplex re im => cases h
  | vUnicode cs => cases h
  | vTuple vs => cases h
  | vList vs => cases h
  | vDict es => cases h
  | vInst m n fs => cases h
  | vObj m n fs => cases h
  | vGlobal m n => cases h

/-- The whole dict naming pass: correct per-key names, and all child
names pairwise distinct. -/
theorem vMkAssign_ok (ks : List Value) (hk : keysOk ks = true) :
    AsgOk ks (vMkAssign ks) ∧ ((vMkAssign ks).map (·.1)).Nodup := by
  have hbytes : (ks.filterMap vDirectBytes).Nodup := of_decide_eq_true hk
  have hnd : (ks.filterMap vDirectName).Nodup := by
    rw [filterMap_directName_eq]
    apply List.Nodup.map_on ?_ hbytes
    intro x hx y hy hxy
    obtain ⟨vx, _, hvx⟩ := List.mem_filterMap.mp hx
    obtain ⟨vy, _, hvy⟩ := List.mem_filterMap.mp hy
    have hxv := (vDirectBytes_valid hvx).1
    have hyv := (vDirectBytes_valid hvy).1
    have h2 := congrArg strB hxy
    rw [strB_segName x (pyValidName_lt x hxv),
      strB_segName y (pyValidName_lt y hyv)] at h2
    exact h2
  obtain ⟨h1, h2, _⟩ :=
    vAssignNames_ok ks (ks.filterMap vDirectName) 0 hnd (fun nm h => h)
  exact ⟨h1, h2⟩

theorem vAssignNames_length : ∀ (ks : List Value) (seen : List String) (keyi : Nat),
    (vAssignNames ks seen keyi).length = ks.length := by
  intro ks
  induction ks with
  | nil => intro seen keyi; rfl
  | cons k ks ih =>
      intro seen keyi
      rw [vAssignNames]
      cases hd : vDirectName k with
      | some nm => simp only [List.length_cons, ih]
      | none => simp only [List.length_cons, ih]

theorem vMkAssign_length (ks : List Value) :
    (vMkAssign ks).length = ks.length := vAssignNames_length ks _ 0

/-- `directName?` on a build root agrees with the value-level name. -/
theorem directName_root (v : Value) (nx : Nat) (h : Heap)
    (hAg : Heap.find? h (buildVal v nx).2.1 = some (buildRootObj v nx)) :
    directName? h (buildVal v nx).2.1 = vDirectName v := by
  rw [directName?, hAg]
  cases v <;> rfl

theorem assignNames_eq (h : Heap) : ∀ (kIds : List ObjId) (keys : List Value),
    List.Forall₂ (fun i k => directName? h i = vDirectName k) kIds keys →
    ∀ (seen : List String) (keyi : Nat),
      assignNames h kIds seen keyi = vAssignNames keys seen keyi := by
  intro kIds keys hf
  induction hf with
  | nil => intro seen keyi; rfl
  | cons hik hrest ih =>
      rename_i a b as bs
      intro seen keyi
      rw [assignNames, vAssignNames, hik]
      cases hd : vDirectName b with
      | some nm => rw [ih]
      | none =>
          show (idxSeg (nextFree seen keyi (seen.length + 1)), false)
              :: assignNames h as
                (seen ++ [idxSeg (nextFree seen keyi (seen.length + 1))])
                (nextFree seen keyi (seen.length + 1))
            = (idxSeg (nextFree seen keyi (seen.length + 1)), false)
              :: vAssignNames bs
                (seen ++ [idxSeg (nextFree seen keyi (seen.length + 1))])
                (nextFree seen keyi (seen.length + 1))
          rw [ih]

theorem filterMap_directName_forall (h : Heap) :
    ∀ (kIds : List ObjId) (keys : List Value),
    List.Forall₂ (fun i k => directName? h i = vDirectName k) kIds keys →
    kIds.filterMap (directName? h) = keys.filterMap vDirectName := by
  intro kIds keys hf
  induction hf with
  | nil => rfl
  | cons hik hrest ih =>
      rename_i a b as bs
      cases hd : vDirectName b with
      | some nm =>
          rw [List.filterMap_cons_some (by rw [hik]; exact hd),
            List.filterMap_cons_some hd, ih]
      | none =>
          rw [List.filterMap_cons_none (by rw [hik]; exact hd),
            List.filterMap_cons_none hd, ih]

theorem mkAssign_eq (h : Heap) (kIds : List ObjId) (keys : List Value)
    (hf : List.Forall₂ (fun i k => directName? h i = vDirectName k) kIds keys) :
    mkAssign h kIds = vMkAssign keys := by
  rw [mkAssign, vMkAssign, filterMap_directName_forall h kIds keys hf,
    assignNames_eq h kIds keys hf]

/-! ## The shape of an encoded subtree -/

/-- The child names a dict write leaves at `p`, in creation order. -/
def dictNames : List (String × Bool) → Bool → List String
  | [], _ => []
  | (nm, d) :: asg, hassub =>
      nm :: (if d then dictNames asg hassub
             else (if hassub then [] else ["__"]) ++ dictNames asg true)

/-- The surrogate-key names a dict write leaves under `p/__`. -/
def subNames : List (String × Bool) → List String
  | [] => []
  | (nm, d) :: asg => if d then subNames asg else nm :: subNames asg

mutual

theorem encTree_shape : ∀ (v : Value) (p : Path),
    ∃ nd rest, encTree v p = (p, nd) :: rest
      ∧ ∀ e ∈ rest, ∃ nm t, e.1 = p ++ nm :: t
  | .vNone, p => ⟨_, _, rfl, by intro e he; cases he⟩
  | .vBool b, p => ⟨_, _, rfl, by intro e he; cases he⟩
  | .vInt n, p => ⟨_, _, rfl, by intro e he; cases he⟩
  | .vLong n, p => ⟨_, _, rfl, by intro e he; cases he⟩
  | .vFloat x, p => ⟨_, _, rfl, by intro e he; cases he⟩
  | .vComplex re im, p => ⟨_, _, rfl, by intro e he; cases he⟩
  | .vStr bs, p => ⟨_, _, rfl, by intro e he; cases he⟩
  | .vUnicode cs, p => ⟨_, _, rfl, by intro e he; cases he⟩
  | .vGlobal m n, p => ⟨_, _, rfl, by intro e he; cases he⟩
  | .vTuple vs, p => by
      cases vs with
      | nil => exact ⟨_, _, rfl, by intro e he; cases he⟩
      | cons v0 vrest =>
          cases hfl : vFlatten (v0 :: vrest) with
          | some d =>
              refine ⟨tagNode (leafOf d) .tTuple, [], ?_, by intro e he; cases he⟩
              show encTree (.vTuple (v0 :: vrest)) p = _
              rw [encTree, hfl]
          | none =>
              refine ⟨tagNode groupNode .tTuple, encSeq (v0 :: vrest) p 0, ?_, ?_⟩
              · show encTree (.vTuple (v0 :: vrest)) p = _
                rw [encTree, hfl]
              · intro e he
                exact encSeq_shape (v0 :: vrest) p 0 e he
  | .vList vs, p => by
      cases vs with
      | nil => exact ⟨_, _, rfl, by intro e he; cases he⟩
      | cons v0 vrest =>
          cases hfl : vFlatten (v0 :: vrest) with
          | some d =>
              refine ⟨tagNode (tagNode (leafOf d) .tTuple) .tList, [], ?_,
                by intro e he; cases he⟩
              show encTree (.vList (v0 :: vrest)) p = _
              rw [encTree, hfl]
          | none =>
              refine ⟨tagNode (tagNode groupNode .tTuple) .tList,
                encSeq (v0 :: vrest) p 0, ?_, ?_⟩
              · show encTree (.vList (v0 :: vrest)) p = _
                rw [encTree, hfl]
              · intro e he
                exact encSeq_shape (v0 :: vrest) p 0 e he
  | .vDict es, p => by
      refine ⟨_, _, rfl, ?_⟩
      intro e he
      exact encDictRows_shape es (vMkAssign (es.map Prod.fst)) p false e he
  | .vInst m n fs, p => by
      refine ⟨_, _, rfl, ?_⟩
      intro e he
      rcases List.mem_cons.mp he with rfl | he2
      · exact ⟨"__", [], rfl⟩
      rcases List.mem_cons.mp he2 with rfl | he3
      · exact ⟨"__", ["cls"], rfl⟩
      rcases List.mem_cons.mp he3 with rfl | he4
      · exact ⟨"__", ["args"], rfl⟩
      exact encDictRows_shape fs (vMkAssign (fs.map Prod.fst)) p true e he4
  | .vObj m n fs, p => by
      refine ⟨_, _, rfl, ?_⟩
      intro e he
      rcases List.mem_cons.mp he with rfl | he2
      · exact ⟨"__", [], rfl⟩
      rcases List.mem_cons.mp he2 with rfl | he3
      · exact ⟨"__", ["cls"], rfl⟩
      rcases List.mem_cons.mp he3 with rfl | he4
      · exact ⟨"__", ["args"], rfl⟩
      exact encDictRows_shape fs (vMkAssign (fs.map Prod.fst)) p true e he4

theorem encSeq_shape : ∀ (vs : List Value) (p : Path) (i : Nat) (e : Path × Node),
    e ∈ encSeq vs p i → ∃ nm t, e.1 = p ++ nm :: t
  | [], p, i, e => by intro he; cases he
  | v :: vs, p, i, e => by
      intro he
      rw [encSeq] at he
      rcases List.mem_append.mp he with h | h
      · obtain ⟨nd, rest, heq, hrest⟩ := encTree_shape v (p ++ [idxSeg i])
        rw [heq] at h
        rcases List.mem_cons.mp h with rfl | h2
        · exact ⟨idxSeg i, [], rfl⟩
        · obtain ⟨nm, t, ht⟩ := hrest e h2
          exact ⟨idxSeg i, nm :: t, by rw [ht, List.append_assoc]; rfl⟩
      · exact encSeq_shape vs p (i + 1) e h

theorem encDictRows_shape :
    ∀ (es : List (Value × Value)) (asg : List (String × Bool)) (p : Path)
      (hassub : Bool) (e : Path × Node),
    e ∈ encDictRows es asg p hassub → ∃ nm t, e.1 = p ++ nm :: t
  | [], _, p, hassub, e => by intro he; cases he
  | _ :: _, [], p, hassub, e => by intro he; cases he
  | (k, v) :: es, (nm, direct) :: asg, p, hassub, e => by
      intro he
      rw [encDictRows] at he
      rcases List.mem_append.mp he with h | h
      · obtain ⟨nd, rest, heq, hrest⟩ := encTree_shape v (p ++ [nm])
        rw [heq] at h
        rcases List.mem_cons.mp h with rfl | h2
        · exact ⟨nm, [], rfl⟩
        · obtain ⟨nm2, t, ht⟩ := hrest e h2
          exact ⟨nm, nm2 :: t, by rw [ht, List.append_assoc]; rfl⟩
      · by_cases hd : direct = true
        · rw [if_pos hd] at h
          exact encDictRows_shape es asg p hassub e h
        · rw [if_neg hd] at h
          rcases List.mem_append.mp h with h2 | h3
          · rcases List.mem_append.mp h2 with h4 | h5
            · by_cases hs : hassub = true
              · rw [if_pos hs] at h4; cases h4
              · rw [if_neg hs] at h4
                rcases List.mem_cons.mp h4 with rfl | h6
                · exact ⟨"__", [], rfl⟩
                · cases h6
            · obtain ⟨nd, rest, heq, hrest⟩ := encTree_shape k (p ++ ["__", nm])
              rw [heq] at h5
              rcases List.mem_cons.mp h5 with rfl | h6
              · exact ⟨"__", [nm], rfl⟩
              · obtain ⟨nm2, t, ht⟩ := hrest e h6
                exact ⟨"__", nm :: nm2 :: t, by rw [ht]; simp⟩
          · exact encDictRows_shape es asg p true e h3

end

theorem encTree_prefix (v : Value) (p : Path) (e : Path × Node)
    (he : e ∈ encTree v p) : p <+: e.1 := by
  obtain ⟨nd, rest, heq, hrest⟩ := encTree_shape v p
  rw [heq] at he
  rcases List.mem_cons.mp he with rfl | h2
  · exact List.prefix_refl p
  · obtain ⟨nm, t, ht⟩ := hrest e h2
    rw [ht]
    exact List.prefix_append p (nm :: t)

theorem store_find_none_of_prefix {s : Store} {q r : Path}
    (hall : ∀ e ∈ s, q <+: e.1) (h : ¬ q <+: r) :
    Store.find? s r = Option.none := by
  induction s with
  | nil => rfl
  | cons e s ih =>
      rw [store_find_cons, if_neg, ih (fun x hx => hall x (List.mem_cons_of_mem _ hx))]
      intro he
      exact h (he ▸ hall e (List.mem_cons_self _ _))

theorem encTree_find_none (v : Value) (q r : Path) (h : ¬ q <+: r) :
    Store.find? (encTree v q) r = Option.none :=
  store_find_none_of_prefix (fun e he => encTree_prefix v q e he) h

theorem childNames_nil_of_two {s : Store} {p : Path}
    (h : ∀ e ∈ s, ∃ a b t, e.1 = p ++ a :: b :: t) :
    Store.childNames s p = [] := by
  induction s with
  | nil => rfl
  | cons e s ih =>
      rw [childNames_cons, ih (fun x hx => h x (List.mem_cons_of_mem _ hx))]
      obtain ⟨a, b, t, ht⟩ := h e (List.mem_cons_self _ _)
      obtain ⟨q, nd⟩ := e
      dsimp only at ht
      subst ht
      rw [childHead_nil, List.nil_append]
      intro nm hnm
      have h2 : a :: b :: t = [nm] := List.append_cancel_left hnm
      simp at h2

theorem encTree_childNames_single (v : Value) (p : Path) (nm : String) :
    Store.childNames (encTree v (p ++ [nm])) p = [nm] := by
  obtain ⟨nd, rest, heq, hrest⟩ := encTree_shape v (p ++ [nm])
  rw [heq, childNames_cons, childHead_single]
  have h2 : Store.childNames rest p = [] := by
    apply childNames_nil_of_two
    intro e he
    obtain ⟨nm2, t, ht⟩ := hrest e he
    exact ⟨nm, nm2, t, by rw [ht, List.append_assoc]; rfl⟩
  rw [h2]
  rfl

theorem encTree_childNames_deep (v : Value) (p : Path) (a b : String)
    (t : List String) :
    Store.childNames (encTree v (p ++ a :: b :: t)) p = [] := by
  apply childNames_nil_of_two
  intro e he
  have hpre := encTree_prefix v (p ++ a :: b :: t) e he
  obtain ⟨r, hr⟩ := hpre
  exact ⟨a, b, t ++ r, by rw [← hr, List.append_assoc]; rfl⟩

theorem encSeq_childNames : ∀ (vs : List Value) (p : Path) (i : Nat),
    Store.childNames (encSeq vs p i) p = (List.range' i vs.length).map idxSeg := by
  intro vs
  induction vs with
  | nil => intro p i; rfl
  | cons v vs ih =>
      intro p i
      rw [encSeq, childNames_append, encTree_childNames_single, ih,
        List.length_cons, List.range'_succ, List.map_cons]
      rfl

theorem encTree_noSub (v : Value) (q r : Path) (h1 : ¬ r <+: q) (h2 : ¬ q <+: r) :
    noSub (encTree v q) r := by
  intro e he hpre
  obtain ⟨t, ht⟩ := encTree_prefix v q e he
  rw [← ht] at hpre
  by_cases hl : r.length ≤ q.length
  · exact h1 (List.prefix_of_prefix_length_le hpre (List.prefix_append q t) hl)
  · exact h2 (List.prefix_of_prefix_length_le (List.prefix_append q t) hpre
      (by omega))

theorem not_prefix_of_len {q r : Path} (h : r.length < q.length) : ¬ q <+: r :=
  fun hpre => absurd hpre.length_le (by omega)

theorem encDictRows_childNames :
    ∀ (es : List (Value × Value)) (asg : List (String × Bool)) (p : Path)
      (hassub : Bool),
    es.length = asg.length →
    Store.childNames (encDictRows es asg p hassub) p = dictNames asg hassub := by
  intro es
  induction es with
  | nil =>
      intro asg p hassub hl
      cases asg with
      | nil => rfl
      | cons a asg => cases hl
  | cons kv es ih =>
      intro asg p hassub hl
      obtain ⟨k, v⟩ := kv
      cases asg with
      | nil => cases hl
      | cons nd asg =>
          obtain ⟨nm, d⟩ := nd
          rw [encDictRows, dictNames]
          by_cases hd : d = true
          · rw [if_pos hd, if_pos hd, childNames_append, encTree_childNames_single,
              ih asg p hassub (by simpa using hl)]
            rfl
          · rw [if_neg hd, if_neg hd, childNames_append, encTree_childNames_single,
              childNames_append, childNames_append,
              encTree_childNames_deep k p "__" nm [],
              ih asg p true (by simpa using hl)]
            by_cases hs : hassub = true
            · rw [if_pos hs, if_pos hs]
              simp [Store.childNames]
            · rw [if_neg hs, if_neg hs]
              have hdd : Store.childNames [(p ++ ["__"], groupNode)] p = ["__"] := by
                rw [show ([(p ++ ["__"], groupNode)] : Store)
                    = (p ++ ["__"], groupNode) :: [] from rfl,
                  childNames_cons, childHead_single]
                rfl
              rw [hdd]
              simp

theorem childNames_own (s : Store) (q : Path) (hs : ∀ e ∈ s, e.1 = q) :
    Store.childNames s q = [] := by
  induction s with
  | nil => rfl
  | cons e s ih =>
      rw [childNames_cons, ih (fun x hx => hs x (List.mem_cons_of_mem _ hx)),
        childHead_nil, List.nil_append]
      intro nm he
      have h1 := hs e (List.mem_cons_self _ _)
      rw [h1] at he
      have h2 : q.length = q.length + 1 := by
        have := congrArg List.length he
        simpa using this
      omega

theorem encDictRows_childNames_sub :
    ∀ (es : List (Value × Value)) (asg : List (String × Bool)) (p : Path)
      (hassub : Bool),
    es.length = asg.length →
    (∀ a ∈ asg, a.1 ≠ "__") →
    Store.childNames (encDictRows es asg p hassub) (p ++ ["__"])
      = subNames asg := by
  intro es
  induction es with
  | nil =>
      intro asg p hassub hl _
      cases asg with
      | nil => rfl
      | cons a asg => cases hl
  | cons kv es ih =>
      intro asg p hassub hl hne
      obtain ⟨k, v⟩ := kv
      cases asg with
      | nil => cases hl
      | cons nd asg =>
          obtain ⟨nm, d⟩ := nd
          have hnm : nm ≠ "__" := hne (nm, d) (List.mem_cons_self _ _)
          have hrest : ∀ a ∈ asg, a.1 ≠ "__" :=
            fun a ha => hne a (List.mem_cons_of_mem _ ha)
          have hvblock : Store.childNames (encTree v (p ++ [nm])) (p ++ ["__"])
              = [] := by
            apply childNames_nil_of_noSub
            apply encTree_noSub
            · exact prefix_seg_ne (fun he => hnm he.symm)
            · exact prefix_seg_ne hnm
          rw [encDictRows, subNames, childNames_append, hvblock, List.nil_append]
          by_cases hd : d = true
          · rw [if_pos hd, if_pos hd]
            exact ih asg p hassub (by simpa using hl) hrest
          · rw [if_neg hd, if_neg hd]
            rw [childNames_append, childNames_append]
            have hkey : Store.childNames (encTree k (p ++ ["__", nm])) (p ++ ["__"])
                = [nm] := by
              have he : p ++ ["__", nm] = (p ++ ["__"]) ++ [nm] := by simp
              rw [he]
              exact encTree_childNames_single k (p ++ ["__"]) nm
            rw [hkey, ih asg p true (by simpa using hl) hrest]
            by_cases hs : hassub = true
            · rw [if_pos hs]
              rfl
            · rw [if_neg hs]
              have hdd : Store.childNames [(p ++ ["__"], groupNode)] (p ++ ["__"])
                  = [] := by
                apply childNames_own
                intro e he2
                rcases List.mem_cons.mp he2 with rfl | h3
                · rfl
                · cases h3
              rw [hdd]
              rfl

/-! ## Memo and heap append helpers -/

theorem pathsFind_append (A B : List (ObjId × Path)) (j : ObjId) :
    pathsFind? (A ++ B) j =
      match pathsFind? A j with
      | some q => some q
      | Option.none => pathsFind? B j := by
  induction A with
  | nil => rfl
  | cons e A ih =>
      show pathsFind? (e :: (A ++ B)) j = _
      rw [pathsFind?]
      by_cases he : e.1 = j
      · rw [if_pos he]
        have h2 : pathsFind? (e :: A) j = some e.2 := by rw [pathsFind?, if_pos he]
        rw [h2]
      · rw [if_neg he, ih]
        have h2 : pathsFind? (e :: A) j = pathsFind? A j := by
          rw [pathsFind?, if_neg he]
        rw [h2]

theorem pathsFind_none (A : List (ObjId × Path)) (j : ObjId)
    (h : ∀ e ∈ A, ¬ e.1 = j) : pathsFind? A j = Option.none := by
  induction A with
  | nil => rfl
  | cons e A ih =>
      rw [pathsFind?, if_neg (h e (List.mem_cons_self _ _)),
        ih (fun x hx => h x (List.mem_cons_of_mem _ hx))]

theorem heap_find_append_some {A : Heap} {j : Nat} {o : Obj} (B : Heap)
    (h : Heap.find? A j = some o) : Heap.find? (A ++ B) j = some o := by
  rw [heap_find_append, h]

theorem heap_find_append_right {A : Heap} {j : Nat} (B : Heap)
    (h : Heap.find? A j = Option.none) : Heap.find? (A ++ B) j = Heap.find? B j := by
  rw [heap_find_append, h]

theorem heap_find_some_range {v : Value} {nx j : Nat} {o : Obj}
    (h : Heap.find? (buildVal v nx).1 j = some o) :
    nx ≤ j ∧ j < nx + countV v := by
  by_contra hc
  rw [build_find_none v nx j (by omega)] at h
  cases h

theorem heapList_find_some_range {vs : List Value} {nx j : Nat} {o : Obj}
    (h : Heap.find? (buildList vs nx).1 j = some o) :
    nx ≤ j ∧ j < nx + countList vs := by
  by_contra hc
  rw [buildList_find_none vs nx j (by omega)] at h
  cases h

theorem heapPairs_find_some_range {es : List (Value × Value)} {nx j : Nat} {o : Obj}
    (h : Heap.find? (buildPairs es nx).1 j = some o) :
    nx ≤ j ∧ j < nx + countPairs es := by
  by_contra hc
  rw [buildPairs_find_none es nx j (by omega)] at h
  cases h

theorem seqOpt_roots {γ : Type} (P : Obj → Option γ) (Q : Value → Option γ)
    (hPQ : ∀ (v : Value) (k : Nat), P (buildRootObj v k) = Q v) :
    ∀ (vs : List Value) (nx : Nat) (h : Heap),
    (∀ j o, Heap.find? (buildList vs nx).1 j = some o → Heap.find? h j = some o) →
    seqOpt (fun e => match Heap.find? h e with
                     | some o => P o
                     | Option.none => Option.none) (buildList vs nx).2.1
      = seqOpt Q vs := by
  intro vs
  induction vs with
  | nil => intro nx h _; rfl
  | cons v0 vs ih =>
      intro nx h hAg
      have hn1 := build_next v0 nx
      rcases hb1 : buildVal v0 nx with ⟨h1, i0, nx1⟩
      rw [hb1] at hn1
      dsimp only at hn1
      rcases hb2 : buildList vs nx1 with ⟨h2, is, nx2⟩
      have hheap : (buildList (v0 :: vs) nx).1 = h1 ++ h2 := by
        simp only [buildList, hb1, hb2]
      have hids : (buildList (v0 :: vs) nx).2.1 = i0 :: is := by
        simp only [buildList, hb1, hb2]
      rw [hids, seqOpt]
      have hroot : Heap.find? h i0 = some (buildRootObj v0 nx) := by
        apply hAg
        rw [hheap]
        apply heap_find_append_some
        have h3 := build_find_root v0 nx
        rw [hb1] at h3
        exact h3
      have htail : seqOpt (fun e => match Heap.find? h e with
          | some o => P o
          | Option.none => Option.none) is = seqOpt Q vs := by
        have hAg2 : ∀ j o, Heap.find? (buildList vs nx1).1 j = some o →
            Heap.find? h j = some o := by
          intro j o hf
          apply hAg
          rw [hheap]
          have hrange := heapList_find_some_range hf
          rw [heap_find_append_right]
          · rw [hb2] at hf
            exact hf
          · have := build_find_none v0 nx j (by omega)
            rw [hb1] at this
            exact this
        have := ih nx1 h hAg2
        rw [hb2] at this
        exact this
      rw [hroot]
      show (match P (buildRootObj v0 nx) with
            | some b => Option.map (fun bs => b :: bs)
                (seqOpt (fun e => match Heap.find? h e with
                  | some o => P o
                  | Option.none => Option.none) is)
            | Option.none => Option.none) = seqOpt Q (v0 :: vs)
      rw [hPQ, htail, seqOpt]

theorem flattenSeq_eq (vs : List Value) (nx : Nat) (h : Heap)
    (hAg : ∀ j o, Heap.find? (buildList vs nx).1 j = some o →
      Heap.find? h j = some o) :
    flattenSeq h (buildList vs nx).2.1 = vFlatten vs := by
  cases vs with
  | nil => rfl
  | cons v0 vs =>
      have hn1 := build_next v0 nx
      rcases hb1 : buildVal v0 nx with ⟨h1, i0, nx1⟩
      rw [hb1] at hn1
      dsimp only at hn1
      rcases hb2 : buildList vs nx1 with ⟨h2, is, nx2⟩
      have hheap : (buildList (v0 :: vs) nx).1 = h1 ++ h2 := by
        simp only [buildList, hb1, hb2]
      have hids : (buildList (v0 :: vs) nx).2.1 = i0 :: is := by
        simp only [buildList, hb1, hb2]
      have hroot : Heap.find? h i0 = some (buildRootObj v0 nx) := by
        apply hAg
        rw [hheap]
        apply heap_find_append_some
        have h3 := build_find_root v0 nx
        rw [hb1] at h3
        exact h3
      have hAgl : ∀ j o, Heap.find? (buildList (v0 :: vs) nx).1 j = some o →
          Heap.find? h j = some o := hAg
      rw [hids, flattenSeq, hroot]
      have hseq : ∀ {γ : Type} (P : Obj → Option γ) (Q : Value → Option γ),
          (∀ (v : Value) (k : Nat), P (buildRootObj v k) = Q v) →
          seqOpt (fun e => match Heap.find? h e with
                           | some o => P o
                           | Option.none => Option.none) (i0 :: is)
            = seqOpt Q (v0 :: vs) := by
        intro γ P Q hPQ
        have := seqOpt_roots P Q hPQ (v0 :: vs) nx h hAgl
        rw [hids] at this
        exact this
      cases v0 with
      | vInt n =>
          rw [vFlatten]
          have he : (fun e => match Heap.find? h e with
              | some (.pyInt n) => some n
              | _ => Option.none)
            = (fun e => match Heap.find? h e with
              | some o => (fun o => match o with
                  | Obj.pyInt n => some n
                  | _ => Option.none) o
              | Option.none => Option.none) := by
            funext e
            cases hf : Heap.find? h e with
            | none => rfl
            | some o => cases o <;> rfl
          rw [he, hseq (fun o => match o with
                | Obj.pyInt n => some n
                | _ => Option.none)
              (fun v => match v with
                | Value.vInt n => some n
                | _ => Option.none)
              (fun v k => by cases v <;> rfl)]
          rfl
      | vFloat x =>
          rw [vFlatten]
          have he : (fun e => match Heap.find? h e with
              | some (.pyFloat x) => some x
              | _ => Option.none)
            = (fun e => match Heap.find? h e with
              | some o => (fun o => match o with
                  | Obj.pyFloat x => some x
                  | _ => Option.none) o
              | Option.none => Option.none) := by
            funext e
            cases hf : Heap.find? h e with
            | none => rfl
            | some o => cases o <;> rfl
          rw [he, hseq (fun o => match o with
                | Obj.pyFloat x => some x
                | _ => Option.none)
              (fun v => match v with
                | Value.vFloat x => some x
                | _ => Option.none)
              (fun v k => by cases v <;> rfl)]
          rfl
      | vComplex re im =>
          rw [vFlatten]
          have he : (fun e => match Heap.find? h e with
              | some (.pyComplex re im) => some (re, im)
              | _ => Option.none)
            = (fun e => match Heap.find? h e with
              | some o => (fun o => match o with
                  | Obj.pyComplex re im => some (re, im)
                  | _ => Option.none) o
              | Option.none => Option.none) := by
            funext e
            cases hf : Heap.find? h e with
            | none => rfl
            | some o => cases o <;> rfl
          rw [he, hseq (fun o => match o with
                | Obj.pyComplex re im => some (re, im)
                | _ => Option.none)
              (fun v => match v with
                | Value.vComplex re im => some (re, im)
                | _ => Option.none)
              (fun v k => by cases v <;> rfl)]
          rfl
      | vNone => rfl
      | vBool b => rfl
      | vLong n => rfl
      | vStr bs => rfl
      | vUnicode cs => rfl
      | vTuple vs2 => rfl
      | vList vs2 => rfl
      | vDict es => rfl
      | vInst m n2 fs => rfl
      | vObj m n2 fs => rfl
      | vGlobal m n2 => rfl

theorem buildPairs_keyname : ∀ (es : List (Value × Value)) (nx : Nat) (h : Heap),
    (∀ j o, Heap.find? (buildPairs es nx).1 j = some o → Heap.find? h j = some o) →
    List.Forall₂ (fun i k => directName? h i = vDirectName k)
      ((buildPairs es nx).2.1.map Prod.fst) (es.map Prod.fst) := by
  intro es
  induction es with
  | nil => intro nx h _; exact List.Forall₂.nil
  | cons kv es ih =>
      obtain ⟨k, v⟩ := kv
      intro nx h hAg
      have hn1 := build_next k nx
      rcases hb1 : buildVal k nx with ⟨h1, ki, nx1⟩
      rw [hb1] at hn1
      dsimp only at hn1
      have hn2 := build_next v nx1
      rcases hb2 : buildVal v nx1 with ⟨h2, vi, nx2⟩
      rw [hb2] at hn2
      dsimp only at hn2
      rcases hb3 : buildPairs es nx2 with ⟨h3, kvs, nx3⟩
      have hheap : (buildPairs ((k, v) :: es) nx).1 = h1 ++ (h2 ++ h3) := by
        simp only [buildPairs, hb1, hb2, hb3, List.append_assoc]
      have hids : (buildPairs ((k, v) :: es) nx).2.1 = (ki, vi) :: kvs := by
        simp only [buildPairs, hb1, hb2, hb3]
      rw [hids, List.map_cons, List.map_cons]
      refine List.Forall₂.cons ?_ ?_
      · have hfind : Heap.find? h ki = some (buildRootObj k nx) := by
          apply hAg
          rw [hheap]
          apply heap_find_append_some
          have h4 := build_find_root k nx
          rw [hb1] at h4
          exact h4
        have hdr := directName_root k nx h (by rw [hb1]; exact hfind)
        rw [hb1] at hdr
        exact hdr
      · have hAg3 : ∀ j o, Heap.find? (buildPairs es nx2).1 j = some o →
            Heap.find? h j = some o := by
          intro j o hf
          apply hAg
          rw [hheap]
          have hrange := heapPairs_find_some_range hf
          rw [heap_find_append_right, heap_find_append_right]
          · rw [hb3] at hf
            exact hf
          · have := build_find_none v nx1 j (by omega)
            rw [hb2] at this
            exact this
          · have := build_find_none k nx j (by omega)
            rw [hb1] at this
            exact this
        have := ih nx2 h hAg3
        rw [hb3] at this
        exact this

/-! ## C3 — cycles: the memo-first discipline makes `_save` terminate -/

/-- The identities an object refers to (children the encoder recurses
into). -/
def objRefs : Obj → List Nat
  | .pyTuple es => es
  | .pyList es => es
  | .pyDict entries => entries.map (·.1) ++ entries.map (·.2)
  | .pyInst cls args fs => cls :: args :: (fs.map (·.1) ++ fs.map (·.2))
  | .pyObj cls args fs => cls :: args :: (fs.map (·.1) ++ fs.map (·.2))
  | _ => []

def Obj.isRaw : Obj → Bool
  | .pyRaw _ => true
  | _ => false

/-- A picklable heap: every reference resolves and no object is an
unpicklable raw block. -/
def heapOK (h : Heap) : Bool :=
  h.all fun e => ((objRefs e.2).all fun j => (Heap.find? h j).isSome) && !e.2.isRaw

/-- The number of heap slots not yet recorded in the identity memo: the
termination measure of `_save`. -/
def unmem (h : Heap) (st : PState) : Nat :=
  ((h.map (·.1)).filter fun i => (pathsFind? st.paths i).isNone).length

theorem find_mem {h : Heap} {i : Nat} {o : Obj}
    (hf : Heap.find? h i = some o) : (i, o) ∈ h := by
  induction h with
  | nil => simp [Heap.find?] at hf
  | cons e t ih =>
      simp only [Heap.find?] at hf
      split at hf
      next heq =>
        obtain ⟨a, b⟩ := e
        injection hf with hb
        simp only at heq
        subst heq; subst hb
        exact List.mem_cons_self _ _
      next => exact List.mem_cons_of_mem _ (ih hf)

theorem mem_ids_of_find {h : Heap} {i : Nat} {o : Obj}
    (hf : Heap.find? h i = some o) : i ∈ h.map (·.1) := by
  exact List.mem_map_of_mem _ (find_mem hf)

theorem heapOK_refs {h : Heap} (hok : heapOK h = true) {i : Nat} {o : Obj}
    (hf : Heap.find? h i = some o) :
    (∀ j ∈ objRefs o, (Heap.find? h j).isSome = true) ∧ o.isRaw = false := by
  have hall := List.all_eq_true.mp hok (i, o) (find_mem hf)
  rw [Bool.and_eq_true] at hall
  exact ⟨fun j hj => List.all_eq_true.mp hall.1 j hj,
         by have := hall.2; revert this; cases o.isRaw <;> simp⟩

theorem filter_length_mono {α : Type} (l : List α) (p q : α → Bool)
    (hpq : ∀ a, p a = true → q a = true) :
    (l.filter p).length ≤ (l.filter q).length := by
  induction l with
  | nil => simp
  | cons a l ih =>
      by_cases hp : p a = true
      · rw [List.filter_cons_of_pos hp, List.filter_cons_of_pos (hpq a hp)]
        simpa using ih
      · rw [List.filter_cons_of_neg (by simpa using hp)]
        by_cases hq : q a = true
        · rw [List.filter_cons_of_pos hq]
          exact Nat.le_trans ih (Nat.le_succ _)
        · rw [List.filter_cons_of_neg (by simpa using hq)]
          exact ih

theorem filter_length_strict {α : Type} (l : List α) (p q : α → Bool)
    (hpq : ∀ a, p a = true → q a = true) (a0 : α) (ha0 : a0 ∈ l)
    (hp0 : p a0 = false) (hq0 : q a0 = true) :
    (l.filter p).length < (l.filter q).length := by
  induction l with
  | nil => cases ha0
  | cons a l ih =>
      rcases List.mem_cons.mp ha0 with rfl | hmem
      · rw [List.filter_cons_of_neg (by simp [hp0]), List.filter_cons_of_pos hq0]
        exact Nat.lt_succ_of_le (filter_length_mono l p q hpq)
      · by_cases hp : p a = true
        · rw [List.filter_cons_of_pos hp, List.filter_cons_of_pos (hpq a hp)]
          simpa using ih hmem
        · rw [List.filter_cons_of_neg (by simpa using hp)]
          by_cases hq : q a = true
          · rw [List.filter_cons_of_pos hq]
            exact Nat.lt_succ_of_lt (ih hmem)
          · rw [List.filter_cons_of_neg (by simpa using hq)]
            exact ih hmem

/-- `st'` extends `st`'s identity memo: every recorded path survives. -/
def PathsExt (st st' : PState) : Prop :=
  ∀ i p, pathsFind? st.paths i = some p → pathsFind? st'.paths i = some p

theorem pathsExt_of_eq {st st' : PState} (he : st'.paths = st.paths) :
    PathsExt st st' := fun i p hp => by rw [he]; exact hp

theorem pathsExt_trans {a b c : PState} (h1 : PathsExt a b) (h2 : PathsExt b c) :
    PathsExt a c := fun i p hp => h2 i p (h1 i p hp)

theorem pathsExt_prepend {st : PState} {oid : Nat} (path : Path)
    (hlk : st.lookupPath oid = Option.none) :
    PathsExt st { st with paths := (oid, path) :: st.paths } := by
  intro i p hp
  show pathsFind? ((oid, path) :: st.paths) i = some p
  rw [pathsFind?]
  split
  next heq =>
    simp only at heq
    rw [PState.lookupPath, heq] at hlk
    rw [hlk] at hp
    cases hp
  next => exact hp

theorem unmem_mono (h : Heap) {st st' : PState} (he : PathsExt st st') :
    unmem h st' ≤ unmem h st := by
  apply filter_length_mono
  intro a hp
  cases hfa : pathsFind? st.paths a with
  | none => simp
  | some p => rw [he a p hfa] at hp; simp at hp

theorem unmem_prepend_lt (h : Heap) (st : PState) (oid : Nat) (path : Path)
    (hlk : st.lookupPath oid = Option.none) (hin : oid ∈ h.map (·.1)) :
    unmem h { st with paths := (oid, path) :: st.paths } < unmem h st := by
  apply filter_length_strict _ _ _ ?_ oid hin ?_ ?_
  · intro a hp
    cases hfa : pathsFind? st.paths a with
    | none => simp
    | some p => rw [pathsExt_prepend path hlk a p hfa] at hp; simp at hp
  · show (pathsFind? ((oid, path) :: st.paths) oid).isNone = false
    rw [pathsFind?]
    simp
  · rw [PState.lookupPath] at hlk
    simp [hlk]

theorem saveSeq_ext {sv : Path → ObjId → PState → Except Err PState}
    (hsv : ∀ path oid st st', sv path oid st = .ok st' → PathsExt st st') :
    ∀ (es : List ObjId) (path : Path) (i : Nat) (st st' : PState),
      saveSeq sv path i es st = .ok st' → PathsExt st st' := by
  intro es
  induction es with
  | nil =>
      intro path i st st' h
      rw [saveSeq] at h
      cases h
      exact pathsExt_of_eq rfl
  | cons e es ih =>
      intro path i st st' h
      rw [saveSeq] at h
      match hsve : sv (path ++ [idxSeg i]) e st with
      | .error err => rw [hsve] at h; simp [Bind.bind, Except.bind] at h
      | .ok st2 =>
          rw [hsve] at h
          simp only [Bind.bind, Except.bind] at h
          exact pathsExt_trans (hsv _ _ _ _ hsve) (ih path (i + 1) st2 st' h)

theorem saveDictRows_ext {sv : Path → ObjId → PState → Except Err PState}
    (hsv : ∀ path oid st st', sv path oid st = .ok st' → PathsExt st st') :
    ∀ (rows : List ((ObjId × ObjId) × String × Bool)) (path : Path)
      (hassub : Bool) (st st' : PState),
      saveDictRows sv path rows hassub st = .ok st' → PathsExt st st' := by
  intro rows
  induction rows with
  | nil =>
      intro path hassub st st' h
      rw [saveDictRows] at h
      cases h
      exact pathsExt_of_eq rfl
  | cons r rows ih =>
      intro path hassub st st' h
      obtain ⟨kv, nm, direct⟩ := r
      rw [saveDictRows] at h
      match hv : sv (path ++ [nm]) kv.2 st with
      | .error err => rw [hv] at h; simp [Bind.bind, Except.bind] at h
      | .ok st2 =>
          rw [hv] at h
          simp only [Bind.bind, Except.bind] at h
          by_cases hd : direct = true
          · rw [if_pos hd] at h
            exact pathsExt_trans (hsv _ _ _ _ hv) (ih path hassub st2 st' h)
          · rw [if_neg hd] at h
            by_cases hs : hassub = true
            · rw [if_pos hs] at h
              match hk : sv (path ++ ["__", nm]) kv.1 st2 with
              | .error err => rw [hk] at h; simp [Bind.bind, Except.bind] at h
              | .ok st3 =>
                  rw [hk] at h
                  simp only [Bind.bind, Except.bind] at h
                  exact pathsExt_trans (hsv _ _ _ _ hv)
                    (pathsExt_trans (hsv _ _ _ _ hk) (ih path true st3 st' h))
            · rw [if_neg hs] at h
              match hk : sv (path ++ ["__", nm]) kv.1
                  { st2 with store := Store.add st2.store (path ++ ["__"]) groupNode } with
              | .error err => rw [hk] at h; simp [Bind.bind, Except.bind] at h
              | .ok st3 =>
                  rw [hk] at h
                  simp only [Bind.bind, Except.bind] at h
                  have e1 : PathsExt st2
                      { st2 with
                        store := Store.add st2.store (path ++ ["__"]) groupNode } :=
                    pathsExt_of_eq rfl
                  exact pathsExt_trans (hsv _ _ _ _ hv)
                    (pathsExt_trans e1
                      (pathsExt_trans (hsv _ _ _ _ hk) (ih path true st3 st' h)))

theorem saveTupleAt_ext {sv : Path → ObjId → PState → Except Err PState}
    (hsv : ∀ path oid st st', sv path oid st = .ok st' → PathsExt st st')
    (h : Heap) (path : Path) (es : List ObjId) (t : Tag) (st st' : PState)
    (hh : saveTupleAt h sv path es t st = .ok st') : PathsExt st st' := by
  rw [saveTupleAt] at hh
  split at hh
  · cases hh; exact pathsExt_of_eq rfl
  · split at hh
    next d heq => cases hh; exact pathsExt_of_eq rfl
    next heq =>
        have hh' : saveSeq sv path 0 es
            { st with
              store :=
                Store.setAttr (Store.add st.store path groupNode) path "pickletype"
                  (.tag t) } = .ok st' := hh
        have e1 : PathsExt st
            { st with
              store :=
                Store.setAttr (Store.add st.store path groupNode) path "pickletype"
                  (.tag t) } := pathsExt_of_eq rfl
        exact pathsExt_trans e1 (saveSeq_ext hsv es path 0 _ st' hh')

theorem saveDictContent_ext {sv : Path → ObjId → PState → Except Err PState}
    (hsv : ∀ path oid st st', sv path oid st = .ok st' → PathsExt st st')
    (h : Heap) (path : Path) (entries : List (ObjId × ObjId)) (st st' : PState)
    (hh : saveDictContent h sv path entries st = .ok st') : PathsExt st st' := by
  rw [saveDictContent] at hh
  exact saveDictRows_ext hsv _ path _ st st' hh

/-- A successful `_save` only grows the identity memo. -/
theorem saveObj_ext (h : Heap) : ∀ (fuel : Nat) (path : Path) (oid : ObjId)
    (st st' : PState), saveObj h fuel path oid st = .ok st' → PathsExt st st' := by
  intro fuel
  induction fuel with
  | zero => intro path oid st st' hh; simp [saveObj] at hh
  | succ f ih =>
      intro path oid st st' hh
      simp only [saveObj] at hh
      split at hh
      · cases hh; exact pathsExt_of_eq rfl
      next hlk =>
        have hpre : PathsExt st { st with paths := (oid, path) :: st.paths } :=
          pathsExt_prepend path hlk
        split at hh
        · simp at hh
        · cases hh; exact pathsExt_trans hpre (pathsExt_of_eq rfl)
        · cases hh; exact pathsExt_trans hpre (pathsExt_of_eq rfl)
        · cases hh; exact pathsExt_trans hpre (pathsExt_of_eq rfl)
        · cases hh; exact pathsExt_trans hpre (pathsExt_of_eq rfl)
        · cases hh; exact pathsExt_trans hpre (pathsExt_of_eq rfl)
        · cases hh; exact pathsExt_trans hpre (pathsExt_of_eq rfl)
        · cases hh; exact pathsExt_trans hpre (pathsExt_of_eq rfl)
        · cases hh; exact pathsExt_trans hpre (pathsExt_of_eq rfl)
        · exact pathsExt_trans hpre (saveTupleAt_ext ih h _ _ _ _ _ hh)
        · rename_i es heq
          match hta : saveTupleAt h (saveObj h f) path es .tTuple
              { st with paths := (oid, path) :: st.paths } with
          | .error err => rw [hta] at hh; simp [Bind.bind, Except.bind] at hh
          | .ok st2 =>
              rw [hta] at hh
              simp only [Bind.bind, Except.bind] at hh
              cases hh
              have e2 := saveTupleAt_ext ih h path es .tTuple _ st2 hta
              exact pathsExt_trans hpre (pathsExt_trans e2 (pathsExt_of_eq rfl))
        · rename_i entries heq
          have e1 : PathsExt { st with paths := (oid, path) :: st.paths }
              { st with
                paths := (oid, path) :: st.paths,
                store :=
                  Store.setAttr (Store.add st.store path groupNode) path
                    "pickletype" (.tag .tDict) } := pathsExt_of_eq rfl
          exact pathsExt_trans hpre
            (pathsExt_trans e1 (saveDictContent_ext ih h path entries _ st' hh))
        · rename_i cls args fields heq
          match hc : saveObj h f (path ++ ["__", "cls"]) cls
              { st with
                paths := (oid, path) :: st.paths,
                store :=
                  Store.add
                    (Store.setAttr (Store.add st.store path groupNode) path
                      "pickletype" (.tag .tInst)) (path ++ ["__"]) groupNode } with
          | .error err => rw [hc] at hh; simp [Bind.bind, Except.bind] at hh
          | .ok st2 =>
              rw [hc] at hh
              simp only [Bind.bind, Except.bind] at hh
              match ha : saveObj h f (path ++ ["__", "args"]) args st2 with
              | .error err => rw [ha] at hh; simp [Bind.bind, Except.bind] at hh
              | .ok st3 =>
                  rw [ha] at hh
                  simp only [Bind.bind, Except.bind] at hh
                  have e1 : PathsExt { st with paths := (oid, path) :: st.paths }
                      { st with
                        paths := (oid, path) :: st.paths,
                        store :=
                          Store.add
                            (Store.setAttr (Store.add st.store path groupNode) path
                              "pickletype" (.tag .tInst)) (path ++ ["__"])
                            groupNode } := pathsExt_of_eq rfl
                  exact pathsExt_trans hpre
                    (pathsExt_trans e1
                      (pathsExt_trans (ih _ _ _ _ hc)
                        (pathsExt_trans (ih _ _ _ _ ha)
                          (saveDictContent_ext ih h path fields _ st' hh))))
        · rename_i cls args fields heq
          match hc : saveObj h f (path ++ ["__", "cls"]) cls
              { st with
                paths := (oid, path) :: st.paths,
                store :=
                  Store.setAttr
                    (Store.add (Store.add st.store path groupNode) (path ++ ["__"])
                      groupNode) path "pickletype" (.tag .tReduce) } with
          | .error err => rw [hc] at hh; simp [Bind.bind, Except.bind] at hh
          | .ok st2 =>
              rw [hc] at hh
              simp only [Bind.bind, Except.bind] at hh
              match ha : saveObj h f (path ++ ["__", "args"]) args st2 with
              | .error err => rw [ha] at hh; simp [Bind.bind, Except.bind] at hh
              | .ok st3 =>
                  rw [ha] at hh
                  simp only [Bind.bind, Except.bind] at hh
                  have e1 : PathsExt { st with paths := (oid, path) :: st.paths }
                      { st with
                        paths := (oid, path) :: st.paths,
                        store :=
                          Store.setAttr
                            (Store.add (Store.add st.store path groupNode)
                              (path ++ ["__"]) groupNode) path "pickletype"
                            (.tag .tReduce) } := pathsExt_of_eq rfl
                  have e2 : PathsExt st3
                      { st3 with
                        store :=
                          Store.setAttr st3.store path "has_reduce_content"
                            (.int 1) } := pathsExt_of_eq rfl
                  exact pathsExt_trans hpre
                    (pathsExt_trans e1
                      (pathsExt_trans (ih _ _ _ _ hc)
                        (pathsExt_trans (ih _ _ _ _ ha)
                          (pathsExt_trans e2
                            (saveDictContent_ext ih h path fields _ st' hh)))))
        · cases hh; exact pathsExt_trans hpre (pathsExt_of_eq rfl)
        · simp at hh

theorem saveSeq_total (h : Heap) (fuel : Nat)
    (hrec : ∀ (st : PState) (path : Path) (oid : ObjId),
        (Heap.find? h oid).isSome = true → unmem h st < fuel →
        ∃ st', saveObj h fuel path oid st = .ok st') :
    ∀ (es : List ObjId) (path : Path) (i : Nat) (st : PState),
      (∀ e ∈ es, (Heap.find? h e).isSome = true) → unmem h st < fuel →
      ∃ st', saveSeq (saveObj h fuel) path i es st = .ok st' := by
  intro es
  induction es with
  | nil => intro path i st _ _; exact ⟨st, rfl⟩
  | cons e es ih =>
      intro path i st hes hum
      obtain ⟨st2, h2⟩ :=
        hrec st (path ++ [idxSeg i]) e (hes e (List.mem_cons_self _ _)) hum
      have hum2 : unmem h st2 < fuel :=
        Nat.lt_of_le_of_lt (unmem_mono h (saveObj_ext h fuel _ _ _ _ h2)) hum
      obtain ⟨st', h3⟩ :=
        ih path (i + 1) st2 (fun x hx => hes x (List.mem_cons_of_mem _ hx)) hum2
      exact ⟨st', by rw [saveSeq, h2]; simp only [Bind.bind, Except.bind]; exact h3⟩

theorem saveDictRows_total (h : Heap) (fuel : Nat)
    (hrec : ∀ (st : PState) (path : Path) (oid : ObjId),
        (Heap.find? h oid).isSome = true → unmem h st < fuel →
        ∃ st', saveObj h fuel path oid st = .ok st') :
    ∀ (rows : List ((ObjId × ObjId) × String × Bool)) (path : Path)
      (hassub : Bool) (st : PState),
      (∀ r ∈ rows, (Heap.find? h r.1.1).isSome = true
          ∧ (Heap.find? h r.1.2).isSome = true) →
      unmem h st < fuel →
      ∃ st', saveDictRows (saveObj h fuel) path rows hassub st = .ok st' := by
  intro rows
  induction rows with
  | nil => intro path hassub st _ _; exact ⟨st, rfl⟩
  | cons r rows ih =>
      intro path hassub st hpres hum
      obtain ⟨kv, nm, direct⟩ := r
      obtain ⟨st2, h2⟩ :=
        hrec st (path ++ [nm]) kv.2 (hpres _ (List.mem_cons_self _ _)).2 hum
      have hum2 : unmem h st2 < fuel :=
        Nat.lt_of_le_of_lt (unmem_mono h (saveObj_ext h fuel _ _ _ _ h2)) hum
      have hrest : ∀ x ∈ rows, (Heap.find? h x.1.1).isSome = true
          ∧ (Heap.find? h x.1.2).isSome = true :=
        fun x hx => hpres x (List.mem_cons_of_mem _ hx)
      by_cases hd : direct = true
      · subst hd
        obtain ⟨st', h3⟩ := ih path hassub st2 hrest hum2
        exact ⟨st', by
          rw [saveDictRows, h2]
          simp only [Bind.bind, Except.bind, if_true]
          exact h3⟩
      · have hd' : direct = false := by revert hd; cases direct <;> simp
        subst hd'
        by_cases hs : hassub = true
        · subst hs
          obtain ⟨st3, h3⟩ :=
            hrec st2 (path ++ ["__", nm]) kv.1 (hpres _ (List.mem_cons_self _ _)).1 hum2
          have hum3 : unmem h st3 < fuel :=
            Nat.lt_of_le_of_lt (unmem_mono h (saveObj_ext h fuel _ _ _ _ h3)) hum2
          obtain ⟨st', h4⟩ := ih path true st3 hrest hum3
          exact ⟨st', by
            rw [saveDictRows, h2]
            simp only [Bind.bind, Except.bind, Bool.false_eq_true, if_false, if_true]
            rw [h3]
            simp only [Bind.bind, Except.bind]
            exact h4⟩
        · have hs' : hassub = false := by revert hs; cases hassub <;> simp
          subst hs'
          obtain ⟨st3, h3⟩ :=
            hrec { st2 with store := Store.add st2.store (path ++ ["__"]) groupNode }
              (path ++ ["__", nm]) kv.1 (hpres _ (List.mem_cons_self _ _)).1 hum2
          have hum3 : unmem h st3 < fuel :=
            Nat.lt_of_le_of_lt (unmem_mono h (saveObj_ext h fuel _ _ _ _ h3)) hum2
          obtain ⟨st', h4⟩ := ih path true st3 hrest hum3
          exact ⟨st', by
            rw [saveDictRows, h2]
            simp only [Bind.bind, Except.bind, Bool.false_eq_true, if_false]
            rw [h3]
            simp only [Bind.bind, Except.bind]
            exact h4⟩

theorem saveDictContent_total (h : Heap) (fuel : Nat)
    (hrec : ∀ (st : PState) (path : Path) (oid : ObjId),
        (Heap.find? h oid).isSome = true → unmem h st < fuel →
        ∃ st', saveObj h fuel path oid st = .ok st') :
    ∀ (path : Path) (entries : List (ObjId × ObjId)) (st : PState),
      (∀ j ∈ entries.map (·.1) ++ entries.map (·.2),
        (Heap.find? h j).isSome = true) →
      unmem h st < fuel →
      ∃ st', saveDictContent h (saveObj h fuel) path entries st = .ok st' := by
  intro path entries st hj hum
  rw [saveDictContent]
  apply saveDictRows_total h fuel hrec _ path _ st ?_ hum
  intro r hr
  obtain ⟨kv, nmdir⟩ := r
  have hz := List.of_mem_zip hr
  exact ⟨hj _ (List.mem_append_left _ (List.mem_map_of_mem _ hz.1)),
         hj _ (List.mem_append_right _ (List.mem_map_of_mem _ hz.1))⟩

theorem saveTupleAt_total (h : Heap) (fuel : Nat)
    (hrec : ∀ (st : PState) (path : Path) (oid : ObjId),
        (Heap.find? h oid).isSome = true → unmem h st < fuel →
        ∃ st', saveObj h fuel path oid st = .ok st') :
    ∀ (path : Path) (es : List ObjId) (t : Tag) (st : PState),
      (∀ e ∈ es, (Heap.find? h e).isSome = true) → unmem h st < fuel →
      ∃ st', saveTupleAt h (saveObj h fuel) path es t st = .ok st' := by
  intro path es t st hes hum
  rw [saveTupleAt]
  split
  · exact ⟨_, rfl⟩
  · split
    · exact ⟨_, rfl⟩
    · exact saveSeq_total h fuel hrec es path 0 _ hes hum

/-- `Pickler._save` cannot recurse forever: because every unvisited
object is entered into the identity memo the moment `_save` reaches it,
each level of recursion strictly shrinks the set of unmemoized
identities, so fuel exceeding that count always suffices — for *every*
picklable heap, self-referential ones included. -/
theorem saveObj_total (h : Heap) (hok : heapOK h = true) :
    ∀ (fuel : Nat) (st : PState) (path : Path) (oid : ObjId),
      (Heap.find? h oid).isSome = true → unmem h st < fuel →
      ∃ st', saveObj h fuel path oid st = .ok st' := by
  intro fuel
  induction fuel with
  | zero => intro st path oid _ hum; exact absurd hum (Nat.not_lt_zero _)
  | succ f ih =>
      intro st path oid hoid hum
      match hlk : st.lookupPath oid with
      | some objpath => exact ⟨_, by simp only [saveObj, hlk]; rfl⟩
      | Option.none =>
          obtain ⟨o, ho⟩ := Option.isSome_iff_exists.mp hoid
          have hlt := unmem_prepend_lt h st oid path hlk (mem_ids_of_find ho)
          have hum1 : unmem h { st with paths := (oid, path) :: st.paths } < f := by
            omega
          obtain ⟨hrefs, hnraw⟩ := heapOK_refs hok ho
          cases o with
          | pyNone => exact ⟨_, by simp only [saveObj, hlk, ho]; rfl⟩
          | pyBool b => exact ⟨_, by simp only [saveObj, hlk, ho]; rfl⟩
          | pyInt n => exact ⟨_, by simp only [saveObj, hlk, ho]; rfl⟩
          | pyLong n => exact ⟨_, by simp only [saveObj, hlk, ho]; rfl⟩
          | pyFloat x => exact ⟨_, by simp only [saveObj, hlk, ho]; rfl⟩
          | pyComplex re im => exact ⟨_, by simp only [saveObj, hlk, ho]; rfl⟩
          | pyStr bs => exact ⟨_, by simp only [saveObj, hlk, ho]; rfl⟩
          | pyUnicode cs => exact ⟨_, by simp only [saveObj, hlk, ho]; rfl⟩
          | pyGlobal m n => exact ⟨_, by simp only [saveObj, hlk, ho]; rfl⟩
          | pyRaw d => simp [Obj.isRaw] at hnraw
          | pyTuple es =>
              obtain ⟨st', h'⟩ :=
                saveTupleAt_total h f ih path es .tTuple
                  { st with paths := (oid, path) :: st.paths }
                  (fun e he => hrefs e he) hum1
              exact ⟨st', by simp only [saveObj, hlk, ho]; exact h'⟩
          | pyList es =>
              obtain ⟨st2, h2⟩ :=
                saveTupleAt_total h f ih path es .tTuple
                  { st with paths := (oid, path) :: st.paths }
                  (fun e he => hrefs e he) hum1
              exact ⟨_, by
                simp only [saveObj, hlk, ho]
                rw [h2]
                simp only [Bind.bind, Except.bind]
                rfl⟩
          | pyDict entries =>
              obtain ⟨st', h'⟩ :=
                saveDictContent_total h f ih path entries
                  { st with
                    paths := (oid, path) :: st.paths,
                    store :=
                      Store.setAttr (Store.add st.store path groupNode) path
                        "pickletype" (.tag .tDict) }
                  (fun j hj => hrefs j hj) hum1
              exact ⟨st', by simp only [saveObj, hlk, ho]; exact h'⟩
          | pyInst cls args fields =>
              have hcls : (Heap.find? h cls).isSome = true :=
                hrefs cls (List.mem_cons_self _ _)
              have hargs : (Heap.find? h args).isSome = true :=
                hrefs args (List.mem_cons_of_mem _ (List.mem_cons_self _ _))
              obtain ⟨st2, h2⟩ :=
                ih { st with
                      paths := (oid, path) :: st.paths,
                      store :=
                        Store.add
                          (Store.setAttr (Store.add st.store path groupNode) path
                            "pickletype" (.tag .tInst)) (path ++ ["__"]) groupNode }
                  (path ++ ["__", "cls"]) cls hcls hum1
              have hum2 : unmem h st2 < f :=
                Nat.lt_of_le_of_lt (unmem_mono h (saveObj_ext h f _ _ _ _ h2)) hum1
              obtain ⟨st3, h3⟩ := ih st2 (path ++ ["__", "args"]) args hargs hum2
              have hum3 : unmem h st3 < f :=
                Nat.lt_of_le_of_lt (unmem_mono h (saveObj_ext h f _ _ _ _ h3)) hum2
              obtain ⟨st', h4⟩ :=
                saveDictContent_total h f ih path fields st3
                  (fun j hj => hrefs j
                    (List.mem_cons_of_mem _ (List.mem_cons_of_mem _ hj))) hum3
              exact ⟨st', by
                simp only [saveObj, hlk, ho]
                rw [h2]
                simp only [Bind.bind, Except.bind]
                rw [h3]
                simp only [Bind.bind, Except.bind]
                exact h4⟩
          | pyObj cls args fields =>
              have hcls : (Heap.find? h cls).isSome = true :=
                hrefs cls (List.mem_cons_self _ _)
              have hargs : (Heap.find? h args).isSome = true :=
                hrefs args (List.mem_cons_of_mem _ (List.mem_cons_self _ _))
              obtain ⟨st2, h2⟩ :=
                ih { st with
                      paths := (oid, path) :: st.paths,
                      store :=
                        Store.setAttr
                          (Store.add (Store.add st.store path groupNode)
                            (path ++ ["__"]) groupNode) path "pickletype"
                          (.tag .tReduce) }
                  (path ++ ["__", "cls"]) cls hcls hum1
              have hum2 : unmem h st2 < f :=
                Nat.lt_of_le_of_lt (unmem_mono h (saveObj_ext h f _ _ _ _ h2)) hum1
              obtain ⟨st3, h3⟩ := ih st2 (path ++ ["__", "args"]) args hargs hum2
              have hum3 : unmem h st3 < f :=
                Nat.lt_of_le_of_lt (unmem_mono h (saveObj_ext h f _ _ _ _ h3)) hum2
              obtain ⟨st', h4⟩ :=
                saveDictContent_total h f ih path fields
                  { st3 with
                    store := Store.setAttr st3.store path "has_reduce_content" (.int 1) }
                  (fun j hj => hrefs j
                    (List.mem_cons_of_mem _ (List.mem_cons_of_mem _ hj))) hum3
              exact ⟨st', by
                simp only [saveObj, hlk, ho]
                rw [h2]
                simp only [Bind.bind, Except.bind]
                rw [h3]
                simp only [Bind.bind, Except.bind]
                exact h4⟩

/-! ## The encoder writes exactly `encTree` -/

theorem setAttr_mid {s : Store} {p : Path} (nd : Node) (rest : Store)
    (k : String) (v : AttrVal) (hns : noSub s p)
    (hrest : ∀ e ∈ rest, e.1 ≠ p) :
    Store.setAttr (s ++ (p, nd) :: rest) p k v
      = s ++ (p, nd.setAttr k v) :: rest := by
  rw [setAttr_append, setAttr_skip s p k v
    (fun e he hep => hns e he (by rw [hep]))]
  congr 1
  rw [Store.setAttr, if_pos rfl, setAttr_skip rest p k v hrest]

theorem setAttr_add_eq {s : Store} {p : Path} (nd : Node) (k : String)
    (v : AttrVal) (hns : noSub s p) :
    Store.setAttr (Store.add s p nd) p k v = s ++ [(p, nd.setAttr k v)] := by
  rw [Store.add, show s ++ [(p, nd)] = s ++ (p, nd) :: [] from rfl,
    setAttr_mid nd [] k v hns (by intro e he; cases he)]

theorem addTaggedLeaf_eq (p : Path) (nd : Node) (t : Tag) (st : PState)
    (hns : noSub st.store p) :
    addTaggedLeaf p nd t st
      = { paths := st.paths, store := st.store ++ [(p, tagNode nd t)] } := by
  rw [addTaggedLeaf, setAttr_add_eq nd "pickletype" (.tag t) hns]
  rfl

theorem heap_find_self (i : Nat) (o : Obj) : Heap.find? [(i, o)] i = some o := by
  rw [heap_find_singleton, if_pos rfl]

theorem noSub_single {q r : Path} (h : ¬ r <+: q) (nd : Node) :
    noSub [(q, nd)] r := by
  intro e he
  have he2 : e = (q, nd) := List.mem_singleton.mp he
  subst he2
  exact h

theorem prefix_dunder_ne {p : Path} {a b : String} {t : List String} (h : a ≠ b) :
    ¬ (p ++ ["__", a] <+: p ++ "__" :: b :: t) := by
  have h2 := @prefix_seg_ne (p ++ ["__"]) a b t h
  intro hpre
  apply h2
  have e1 : (p ++ ["__"]) ++ [a] = p ++ ["__", a] := by simp
  have e2 : (p ++ ["__"]) ++ b :: t = p ++ "__" :: b :: t := by simp
  rw [e1, e2]
  exact hpre

theorem asgOk_mem : ∀ (ks : List Value) (asg : List (String × Bool)),
    AsgOk ks asg → ∀ nm d, (nm, d) ∈ asg →
      nm ≠ "__" ∧ (d = false → startsUnderscore nm = true)
  | _, [], _, nm, d, hm => by cases hm
  | [], (nm0, d0) :: asg, hok, nm, d, hm => by cases hok
  | k :: ks, (nm0, d0) :: asg, hok, nm, d, hm => by
      obtain ⟨h1, h2, h3⟩ := hok
      rcases List.mem_cons.mp hm with he | hm2
      · cases he
        refine ⟨h2, ?_⟩
        intro hd
        subst hd
        rw [if_neg (by simp)] at h1
        exact h1.2
      · exact asgOk_mem ks asg h3 nm d hm2

theorem saveObj_leaf_global (h : Heap) (fu : Nat) (hfu : 0 < fu) (p : Path)
    (i : Nat) (m n : List Nat) (st : PState)
    (hf : Heap.find? h i = some (.pyGlobal m n))
    (hfr : pathsFind? st.paths i = Option.none)
    (hns : noSub st.store p) :
    saveObj h fu p i st
      = .ok { paths := (i, p) :: st.paths,
              store := st.store
                ++ [(p, tagNode (leafOf (.byteVec (m ++ [10] ++ n))) .tGlobal)] } := by
  obtain ⟨fu2, rfl⟩ : ∃ q, fu = q + 1 := ⟨fu - 1, by omega⟩
  have hlk : st.lookupPath i = Option.none := hfr
  simp only [saveObj, hlk, hf]
  rw [addTaggedLeaf_eq _ _ _ { paths := (i, p) :: st.paths, store := st.store } hns]

theorem saveObj_leaf_emptyTuple (h : Heap) (fu : Nat) (hfu : 0 < fu) (p : Path)
    (i : Nat) (st : PState)
    (hf : Heap.find? h i = some (.pyTuple []))
    (hfr : pathsFind? st.paths i = Option.none)
    (hns : noSub st.store p) :
    saveObj h fu p i st
      = .ok { paths := (i, p) :: st.paths,
              store := st.store ++ [(p, tagNode emptyLeaf .tTuple)] } := by
  obtain ⟨fu2, rfl⟩ : ∃ q, fu = q + 1 := ⟨fu - 1, by omega⟩
  have hlk : st.lookupPath i = Option.none := hfr
  simp only [saveObj, hlk, hf]
  rw [saveTupleAt, if_pos rfl,
    addTaggedLeaf_eq _ _ _ { paths := (i, p) :: st.paths, store := st.store } hns]

theorem hasPath_append (A B : Store) (q : Path) :
    Store.hasPath (A ++ B) q = (Store.hasPath A q || Store.hasPath B q) := by
  rw [Store.hasPath, Store.hasPath, Store.hasPath, store_find_append]
  cases Store.find? A q with
  | none => simp
  | some nd => rfl

theorem hasPath_noSub {s : Store} {p q : Path} (h : noSub s p) (hq : p <+: q) :
    Store.hasPath s q = false := by
  rw [Store.hasPath, find_none_of_noSub h hq]
  rfl

theorem hasPath_single_ne {q r : Path} (h : ¬ q = r) (nd : Node) :
    Store.hasPath [(q, nd)] r = false := by
  rw [Store.hasPath, store_find_cons, if_neg h]
  rfl



mutual

theorem saveObj_enc : ∀ (v : Value) (nx : Nat) (h : Heap) (f : Nat) (p : Path)
    (st : PState),
    Value.wf v = true →
    (∀ j o, Heap.find? (buildVal v nx).1 j = some o → Heap.find? h j = some o) →
    (∀ j, nx ≤ j → j < nx + countV v → pathsFind? st.paths j = Option.none) →
    noSub st.store p →
    countV v < f →
    ∃ np, saveObj h f p (buildVal v nx).2.1 st
        = .ok { paths := np ++ st.paths, store := st.store ++ encTree v p }
      ∧ ∀ e ∈ np, nx ≤ e.1 ∧ nx + countV v > e.1
  | .vNone, nx, h, f, p, st => by
      intro hwf hAg hfr hns hfuel
      cases f with
      | zero => exact absurd hfuel (Nat.not_lt_zero _)
      | succ fu =>
          have hlk : st.lookupPath nx = Option.none :=
            hfr nx (Nat.le_refl _) (show nx < nx + 1 by omega)
          have hfind : Heap.find? h nx = some Obj.pyNone :=
            hAg nx Obj.pyNone (heap_find_self nx Obj.pyNone)
          refine ⟨[(nx, p)], ?_, ?_⟩
          · show saveObj h (fu + 1) p nx st = _
            simp only [saveObj, hlk, hfind]
            rw [addTaggedLeaf_eq _ _ _
              { paths := (nx, p) :: st.paths, store := st.store } hns]
            rfl
          · intro e he
            have he2 : e = (nx, p) := List.mem_singleton.mp he
            subst he2
            exact ⟨Nat.le_refl _, show nx + 1 > nx by omega⟩
  | .vBool b, nx, h, f, p, st => by
      intro hwf hAg hfr hns hfuel
      cases f with
      | zero => exact absurd hfuel (Nat.not_lt_zero _)
      | succ fu =>
          have hlk : st.lookupPath nx = Option.none :=
            hfr nx (Nat.le_refl _) (show nx < nx + 1 by omega)
          have hfind : Heap.find? h nx = some (Obj.pyBool b) :=
            hAg nx _ (heap_find_self nx (Obj.pyBool b))
          refine ⟨[(nx, p)], ?_, ?_⟩
          · show saveObj h (fu + 1) p nx st = _
            simp only [saveObj, hlk, hfind]
            rw [addTaggedLeaf_eq _ _ _
              { paths := (nx, p) :: st.paths, store := st.store } hns]
            rfl
          · intro e he
            have he2 : e = (nx, p) := List.mem_singleton.mp he
            subst he2
            exact ⟨Nat.le_refl _, show nx + 1 > nx by omega⟩
  | .vInt n, nx, h, f, p, st => by
      intro hwf hAg hfr hns hfuel
      cases f with
      | zero => exact absurd hfuel (Nat.not_lt_zero _)
      | succ fu =>
          have hlk : st.lookupPath nx = Option.none :=
            hfr nx (Nat.le_refl _) (show nx < nx + 1 by omega)
          have hfind : Heap.find? h nx = some (Obj.pyInt n) :=
            hAg nx _ (heap_find_self nx (Obj.pyInt n))
          refine ⟨[(nx, p)], ?_, ?_⟩
          · show saveObj h (fu + 1) p nx st = _
            simp only [saveObj, hlk, hfind]
            rw [addTaggedLeaf_eq _ _ _
              { paths := (nx, p) :: st.paths, store := st.store } hns]
            rfl
          · intro e he
            have he2 : e = (nx, p) := List.mem_singleton.mp he
            subst he2
            exact ⟨Nat.le_refl _, show nx + 1 > nx by omega⟩
  | .vLong n, nx, h, f, p, st => by
      intro hwf hAg hfr hns hfuel
      cases f with
      | zero => exact absurd hfuel (Nat.not_lt_zero _)
      | succ fu =>
          have hlk : st.lookupPath nx = Option.none :=
            hfr nx (Nat.le_refl _) (show nx < nx + 1 by omega)
          have hfind : Heap.find? h nx = some (Obj.pyLong n) :=
            hAg nx _ (heap_find_self nx (Obj.pyLong n))
          refine ⟨[(nx, p)], ?_, ?_⟩
          · show saveObj h (fu + 1) p nx st = _
            simp only [saveObj, hlk, hfind]
            rw [addTaggedLeaf_eq _ _ _
              { paths := (nx, p) :: st.paths, store := st.store } hns]
            rfl
          · intro e he
            have he2 : e = (nx, p) := List.mem_singleton.mp he
            subst he2
            exact ⟨Nat.le_refl _, show nx + 1 > nx by omega⟩
  | .vFloat x, nx, h, f, p, st => by
      intro hwf hAg hfr hns hfuel
      cases f with
      | zero => exact absurd hfuel (Nat.not_lt_zero _)
      | succ fu =>
          have hlk : st.lookupPath nx = Option.none :=
            hfr nx (Nat.le_refl _) (show nx < nx + 1 by omega)
          have hfind : Heap.find? h nx = some (Obj.pyFloat x) :=
            hAg nx _ (heap_find_self nx (Obj.pyFloat x))
          refine ⟨[(nx, p)], ?_, ?_⟩
          · show saveObj h (fu + 1) p nx st = _
            simp only [saveObj, hlk, hfind]
            rw [addTaggedLeaf_eq _ _ _
              { paths := (nx, p) :: st.paths, store := st.store } hns]
            rfl
          · intro e he
            have he2 : e = (nx, p) := List.mem_singleton.mp he
            subst he2
            exact ⟨Nat.le_refl _, show nx + 1 > nx by omega⟩
  | .vComplex re im, nx, h, f, p, st => by
      intro hwf hAg hfr hns hfuel
      cases f with
      | zero => exact absurd hfuel (Nat.not_lt_zero _)
      | succ fu =>
          have hlk : st.lookupPath nx = Option.none :=
            hfr nx (Nat.le_refl _) (show nx < nx + 1 by omega)
          have hfind : Heap.find? h nx = some (Obj.pyComplex re im) :=
            hAg nx _ (heap_find_self nx (Obj.pyComplex re im))
          refine ⟨[(nx, p)], ?_, ?_⟩
          · show saveObj h (fu + 1) p nx st = _
            simp only [saveObj, hlk, hfind]
            rw [addTaggedLeaf_eq _ _ _
              { paths := (nx, p) :: st.paths, store := st.store } hns]
            rfl
          · intro e he
            have he2 : e = (nx, p) := List.mem_singleton.mp he
            subst he2
            exact ⟨Nat.le_refl _, show nx + 1 > nx by omega⟩
  | .vStr bs, nx, h, f, p, st => by
      intro hwf hAg hfr hns hfuel
      cases f with
      | zero => exact absurd hfuel (Nat.not_lt_zero _)
      | succ fu =>
          have hlk : st.lookupPath nx = Option.none :=
            hfr nx (Nat.le_refl _) (show nx < nx + 1 by omega)
          have hfind : Heap.find? h nx = some (Obj.pyStr bs) :=
            hAg nx _ (heap_find_self nx (Obj.pyStr bs))
          refine ⟨[(nx, p)], ?_, ?_⟩
          · show saveObj h (fu + 1) p nx st = _
            simp only [saveObj, hlk, hfind]
            rw [addTaggedLeaf_eq _ _ _
              { paths := (nx, p) :: st.paths, store := st.store } hns]
            rfl
          · intro e he
            have he2 : e = (nx, p) := List.mem_singleton.mp he
            subst he2
            exact ⟨Nat.le_refl _, show nx + 1 > nx by omega⟩
  | .vUnicode cs, nx, h, f, p, st => by
      intro hwf hAg hfr hns hfuel
      cases f with
      | zero => exact absurd hfuel (Nat.not_lt_zero _)
      | succ fu =>
          have hlk : st.lookupPath nx = Option.none :=
            hfr nx (Nat.le_refl _) (show nx < nx + 1 by omega)
          have hfind : Heap.find? h nx = some (Obj.pyUnicode cs) :=
            hAg nx _ (heap_find_self nx (Obj.pyUnicode cs))
          refine ⟨[(nx, p)], ?_, ?_⟩
          · show saveObj h (fu + 1) p nx st = _
            simp only [saveObj, hlk, hfind]
            rw [addTaggedLeaf_eq _ _ _
              { paths := (nx, p) :: st.paths, store := st.store } hns]
            rfl
          · intro e he
            have he2 : e = (nx, p) := List.mem_singleton.mp he
            subst he2
            exact ⟨Nat.le_refl _, show nx + 1 > nx by omega⟩
  | .vGlobal m n, nx, h, f, p, st => by
      intro hwf hAg hfr hns hfuel
      cases f with
      | zero => exact absurd hfuel (Nat.not_lt_zero _)
      | succ fu =>
          have hlk : st.lookupPath nx = Option.none :=
            hfr nx (Nat.le_refl _) (show nx < nx + 1 by omega)
          have hfind : Heap.find? h nx = some (Obj.pyGlobal m n) :=
            hAg nx _ (heap_find_self nx (Obj.pyGlobal m n))
          refine ⟨[(nx, p)], ?_, ?_⟩
          · show saveObj h (fu + 1) p nx st = _
            simp only [saveObj, hlk, hfind]
            rw [addTaggedLeaf_eq _ _ _
              { paths := (nx, p) :: st.paths, store := st.store } hns]
            rfl
          · intro e he
            have he2 : e = (nx, p) := List.mem_singleton.mp he
            subst he2
            exact ⟨Nat.le_refl _, show nx + 1 > nx by omega⟩
  | .vTuple vs, nx, h, f, p, st => by
      intro hwf hAg hfr hns hfuel
      cases f with
      | zero => exact absurd hfuel (Nat.not_lt_zero _)
      | succ fu =>
      have hwfl : wfList vs = true := hwf
      cases vs with
      | nil =>
          have hlk : st.lookupPath nx = Option.none :=
            hfr nx (Nat.le_refl _) (show nx < nx + 1 by omega)
          have hfind : Heap.find? h nx = some (Obj.pyTuple []) :=
            hAg nx _ (heap_find_self nx (Obj.pyTuple []))
          refine ⟨[(nx, p)], ?_, ?_⟩
          · show saveObj h (fu + 1) p nx st = _
            simp only [saveObj, hlk, hfind]
            rw [saveTupleAt, if_pos rfl, addTaggedLeaf_eq _ _ _
              { paths := (nx, p) :: st.paths, store := st.store } hns]
            rfl
          · intro e he
            have he2 : e = (nx, p) := List.mem_singleton.mp he
            subst he2
            exact ⟨Nat.le_refl _, show nx + 1 > nx by omega⟩
      | cons v0 vrest =>
          have hcl : countList (v0 :: vrest) = countV v0 + countList vrest := rfl
          have hn0 := build_next v0 nx
          rcases hb0 : buildVal v0 nx with ⟨bh0, i0, nxa⟩
          rw [hb0] at hn0
          dsimp only at hn0
          have hn1 := buildList_next vrest nxa
          rcases hb1 : buildList vrest nxa with ⟨bh1, is, nx1⟩
          rw [hb1] at hn1
          dsimp only at hn1
          have hb : buildList (v0 :: vrest) nx = (bh0 ++ bh1, i0 :: is, nx1) := by
            simp only [buildList, hb0, hb1]
          have hheap : (buildVal (.vTuple (v0 :: vrest)) nx).1
              = (bh0 ++ bh1) ++ [(nx1, Obj.pyTuple (i0 :: is))] := by
            simp only [buildVal, hb]
          have hroot : (buildVal (.vTuple (v0 :: vrest)) nx).2.1 = nx1 := by
            simp only [buildVal, hb]
          have hAgl : ∀ j o, Heap.find? (buildList (v0 :: vrest) nx).1 j = some o →
              Heap.find? h j = some o := by
            intro j o hf2
            apply hAg
            rw [hheap]
            apply heap_find_append_some
            rw [hb] at hf2
            exact hf2
          have hfind : Heap.find? h nx1 = some (Obj.pyTuple (i0 :: is)) := by
            apply hAg
            rw [hheap, heap_find_append_right, heap_find_self]
            have h2 := buildList_find_none (v0 :: vrest) nx nx1 (by omega)
            rw [hb] at h2
            exact h2
          have hflat : flattenSeq h (i0 :: is) = vFlatten (v0 :: vrest) := by
            have h2 := flattenSeq_eq (v0 :: vrest) nx h hAgl
            rw [hb] at h2
            exact h2
          have hlk : st.lookupPath nx1 = Option.none :=
            hfr nx1 (by omega) (show nx + countV (.vTuple (v0 :: vrest)) > nx1 from by
              simp only [countV]
              omega)
          cases hfl : vFlatten (v0 :: vrest) with
          | some d =>
              refine ⟨[(nx1, p)], ?_, ?_⟩
              · show saveObj h (fu + 1) p (buildVal (.vTuple (v0 :: vrest)) nx).2.1 st = _
                rw [hroot]
                simp only [saveObj, hlk, hfind]
                rw [saveTupleAt, if_neg (by simp), hflat, hfl]
                show Except.ok (addTaggedLeaf p (leafOf d) Tag.tTuple
                    { paths := (nx1, p) :: st.paths, store := st.store }) = _
                rw [addTaggedLeaf_eq _ _ _
                  { paths := (nx1, p) :: st.paths, store := st.store } hns]
                rw [show encTree (.vTuple (v0 :: vrest)) p
                    = [(p, tagNode (leafOf d) .tTuple)] from by
                  rw [encTree, hfl]]
                rfl
              · intro e he
                have he2 : e = (nx1, p) := List.mem_singleton.mp he
                subst he2
                refine ⟨by omega, ?_⟩
                show nx + countV (.vTuple (v0 :: vrest)) > nx1
                simp only [countV]
                omega
          | none =>
              have hstore2 : Store.setAttr (Store.add st.store p groupNode) p
                  "pickletype" (.tag .tTuple)
                  = st.store ++ [(p, tagNode groupNode .tTuple)] := by
                rw [setAttr_add_eq groupNode _ _ hns]
                rfl
              have hfr2 : ∀ j, nx ≤ j → j < nx + countList (v0 :: vrest) →
                  pathsFind? ((nx1, p) :: st.paths) j = Option.none := by
                intro j hj1 hj2
                rw [pathsFind?, if_neg (show ¬ (nx1 = j) from by omega)]
                exact hfr j hj1 (show j < nx + countV (.vTuple (v0 :: vrest)) from by
                  simp only [countV]
                  omega)
              have hns2 : ∀ k2, 0 ≤ k2 →
                  noSub (st.store ++ [(p, tagNode groupNode .tTuple)])
                    (p ++ [idxSeg k2]) := by
                intro k2 _
                apply noSub_append (noSub_mono hns (List.prefix_append p _))
                exact noSub_single (not_prefix_of_len (by simp)) _
              obtain ⟨np2, heq2, hr2⟩ :=
                saveSeq_enc (v0 :: vrest) nx h fu p 0
                  { paths := (nx1, p) :: st.paths,
                    store := st.store ++ [(p, tagNode groupNode .tTuple)] }
                  hwfl hAgl hfr2 hns2 (by simp only [countV] at hfuel; omega)
              rw [hb] at heq2
              dsimp only at heq2
              refine ⟨np2 ++ [(nx1, p)], ?_, ?_⟩
              · show saveObj h (fu + 1) p (buildVal (.vTuple (v0 :: vrest)) nx).2.1 st = _
                rw [hroot]
                simp only [saveObj, hlk, hfind]
                rw [saveTupleAt, if_neg (by simp), hflat, hfl]
                show saveSeq (saveObj h fu) p 0 (i0 :: is)
                    { paths := (nx1, p) :: st.paths,
                      store := Store.setAttr (Store.add st.store p groupNode) p
                        "pickletype" (.tag .tTuple) } = _
                rw [hstore2, heq2]
                rw [show encTree (.vTuple (v0 :: vrest)) p
                    = (p, tagNode groupNode .tTuple) :: encSeq (v0 :: vrest) p 0 from by
                  rw [encTree, hfl]]
                simp [List.append_assoc]
              · intro e he
                rcases List.mem_append.mp he with h3 | h3
                · have h5 := hr2 e h3
                  refine ⟨h5.1, ?_⟩
                  show nx + countV (.vTuple (v0 :: vrest)) > e.1
                  have h6 := h5.2
                  simp only [countV]
                  omega
                · have he2 : e = (nx1, p) := List.mem_singleton.mp h3
                  subst he2
                  refine ⟨by omega, ?_⟩
                  show nx + countV (.vTuple (v0 :: vrest)) > nx1
                  simp only [countV]
                  omega
  | .vList vs, nx, h, f, p, st => by
      intro hwf hAg hfr hns hfuel
      cases f with
      | zero => exact absurd hfuel (Nat.not_lt_zero _)
      | succ fu =>
      have hwfl : wfList vs = true := hwf
      cases vs with
      | nil =>
          have hlk : st.lookupPath nx = Option.none :=
            hfr nx (Nat.le_refl _) (show nx < nx + 1 by omega)
          have hfind : Heap.find? h nx = some (Obj.pyList []) :=
            hAg nx _ (heap_find_self nx (Obj.pyList []))
          refine ⟨[(nx, p)], ?_, ?_⟩
          · show saveObj h (fu + 1) p nx st = _
            simp only [saveObj, hlk, hfind, Bind.bind, Except.bind]
            rw [saveTupleAt, if_pos rfl]
            show Except.ok
                ({ paths := (nx, p) :: st.paths,
                   store := Store.setAttr
                     (Store.setAttr (Store.add st.store p emptyLeaf) p
                       "pickletype" (.tag .tTuple))
                     p "pickletype" (.tag .tList) } : PState)
              = _
            rw [setAttr_add_eq emptyLeaf _ _ hns,
              setAttr_mid _ [] _ _ hns (by intro e he; cases he)]
            rfl
          · intro e he
            have he2 : e = (nx, p) := List.mem_singleton.mp he
            subst he2
            exact ⟨Nat.le_refl _, show nx + 1 > nx by omega⟩
      | cons v0 vrest =>
          have hcl : countList (v0 :: vrest) = countV v0 + countList vrest := rfl
          have hn0 := build_next v0 nx
          rcases hb0 : buildVal v0 nx with ⟨bh0, i0, nxa⟩
          rw [hb0] at hn0
          dsimp only at hn0
          have hn1 := buildList_next vrest nxa
          rcases hb1 : buildList vrest nxa with ⟨bh1, is, nx1⟩
          rw [hb1] at hn1
          dsimp only at hn1
          have hb : buildList (v0 :: vrest) nx = (bh0 ++ bh1, i0 :: is, nx1) := by
            simp only [buildList, hb0, hb1]
          have hheap : (buildVal (.vList (v0 :: vrest)) nx).1
              = (bh0 ++ bh1) ++ [(nx1, Obj.pyList (i0 :: is))] := by
            simp only [buildVal, hb]
          have hroot : (buildVal (.vList (v0 :: vrest)) nx).2.1 = nx1 := by
            simp only [buildVal, hb]
          have hAgl : ∀ j o, Heap.find? (buildList (v0 :: vrest) nx).1 j = some o →
              Heap.find? h j = some o := by
            intro j o hf2
            apply hAg
            rw [hheap]
            apply heap_find_append_some
            rw [hb] at hf2
            exact hf2
          have hfind : Heap.find? h nx1 = some (Obj.pyList (i0 :: is)) := by
            apply hAg
            rw [hheap, heap_find_append_right, heap_find_self]
            have h2 := buildList_find_none (v0 :: vrest) nx nx1 (by omega)
            rw [hb] at h2
            exact h2
          have hflat : flattenSeq h (i0 :: is) = vFlatten (v0 :: vrest) := by
            have h2 := flattenSeq_eq (v0 :: vrest) nx h hAgl
            rw [hb] at h2
            exact h2
          have hlk : st.lookupPath nx1 = Option.none :=
            hfr nx1 (by omega) (show nx + countV (.vList (v0 :: vrest)) > nx1 from by
              simp only [countV]
              omega)
          cases hfl : vFlatten (v0 :: vrest) with
          | some d =>
              refine ⟨[(nx1, p)], ?_, ?_⟩
              · show saveObj h (fu + 1) p (buildVal (.vList (v0 :: vrest)) nx).2.1 st = _
                rw [hroot]
                simp only [saveObj, hlk, hfind, Bind.bind, Except.bind]
                rw [saveTupleAt, if_neg (by simp), hflat, hfl]
                show Except.ok
                    ({ paths := (nx1, p) :: st.paths,
                       store := Store.setAttr
                         (Store.setAttr (Store.add st.store p (leafOf d)) p
                           "pickletype" (.tag .tTuple))
                         p "pickletype" (.tag .tList) } : PState)
                  = _
                rw [setAttr_add_eq (leafOf d) _ _ hns,
                  setAttr_mid _ [] _ _ hns (by intro e he; cases he)]
                rw [show encTree (.vList (v0 :: vrest)) p
                    = [(p, tagNode (tagNode (leafOf d) .tTuple) .tList)] from by
                  rw [encTree, hfl]]
                rfl
              · intro e he
                have he2 : e = (nx1, p) := List.mem_singleton.mp he
                subst he2
                refine ⟨by omega, ?_⟩
                show nx + countV (.vList (v0 :: vrest)) > nx1
                simp only [countV]
                omega
          | none =>
              have hstore2 : Store.setAttr (Store.add st.store p groupNode) p
                  "pickletype" (.tag .tTuple)
                  = st.store ++ [(p, tagNode groupNode .tTuple)] := by
                rw [setAttr_add_eq groupNode _ _ hns]
                rfl
              have hfr2 : ∀ j, nx ≤ j → j < nx + countList (v0 :: vrest) →
                  pathsFind? ((nx1, p) :: st.paths) j = Option.none := by
                intro j hj1 hj2
                rw [pathsFind?, if_neg (show ¬ (nx1 = j) from by omega)]
                exact hfr j hj1 (show j < nx + countV (.vList (v0 :: vrest)) from by
                  simp only [countV]
                  omega)
              have hns2 : ∀ k2, 0 ≤ k2 →
                  noSub (st.store ++ [(p, tagNode groupNode .tTuple)])
                    (p ++ [idxSeg k2]) := by
                intro k2 _
                apply noSub_append (noSub_mono hns (List.prefix_append p _))
                exact noSub_single (not_prefix_of_len (by simp)) _
              obtain ⟨np2, heq2, hr2⟩ :=
                saveSeq_enc (v0 :: vrest) nx h fu p 0
                  { paths := (nx1, p) :: st.paths,
                    store := st.store ++ [(p, tagNode groupNode .tTuple)] }
                  hwfl hAgl hfr2 hns2 (by simp only [countV] at hfuel; omega)
              rw [hb] at heq2
              dsimp only at heq2
              have hTup : saveTupleAt h (saveObj h fu) p (i0 :: is) .tTuple
                  { paths := (nx1, p) :: st.paths, store := st.store }
                  = .ok { paths := np2 ++ ((nx1, p) :: st.paths),
                          store := (st.store ++ [(p, tagNode groupNode .tTuple)])
                            ++ encSeq (v0 :: vrest) p 0 } := by
                rw [saveTupleAt, if_neg (by simp), hflat, hfl]
                show saveSeq (saveObj h fu) p 0 (i0 :: is)
                    { paths := (nx1, p) :: st.paths,
                      store := Store.setAttr (Store.add st.store p groupNode) p
                        "pickletype" (.tag .tTuple) } = _
                rw [hstore2, heq2]
              refine ⟨np2 ++ [(nx1, p)], ?_, ?_⟩
              · show saveObj h (fu + 1) p (buildVal (.vList (v0 :: vrest)) nx).2.1 st = _
                rw [hroot]
                simp only [saveObj, hlk, hfind, Bind.bind, Except.bind]
                rw [hTup]
                show Except.ok
                    ({ paths := np2 ++ ((nx1, p) :: st.paths),
                       store := Store.setAttr
                         ((st.store ++ [(p, tagNode groupNode .tTuple)])
                           ++ encSeq (v0 :: vrest) p 0) p
                         "pickletype" (.tag .tList) } : PState)
                  = _
                rw [List.append_assoc, List.singleton_append,
                  setAttr_mid (tagNode groupNode .tTuple) (encSeq (v0 :: vrest) p 0)
                    _ _ hns
                    (by
                      intro e he hep
                      obtain ⟨nm, t, ht⟩ := encSeq_shape (v0 :: vrest) p 0 e he
                      rw [hep] at ht
                      simp at ht)]
                rw [show encTree (.vList (v0 :: vrest)) p
                    = (p, tagNode (tagNode groupNode .tTuple) .tList)
                      :: encSeq (v0 :: vrest) p 0 from by
                  rw [encTree, hfl]]
                simp [List.append_assoc, tagNode]
              · intro e he
                rcases List.mem_append.mp he with h3 | h3
                · have h5 := hr2 e h3
                  refine ⟨h5.1, ?_⟩
                  show nx + countV (.vList (v0 :: vrest)) > e.1
                  have h6 := h5.2
                  simp only [countV]
                  omega
                · have he2 : e = (nx1, p) := List.mem_singleton.mp h3
                  subst he2
                  refine ⟨by omega, ?_⟩
                  show nx + countV (.vList (v0 :: vrest)) > nx1
                  simp only [countV]
                  omega
  | .vDict es, nx, h, f, p, st => by
      intro hwf hAg hfr hns hfuel
      cases f with
      | zero => exact absurd hfuel (Nat.not_lt_zero _)
      | succ fu =>
      have hwf2 := hwf
      rw [Value.wf, Bool.and_eq_true] at hwf2
      have hko : keysOk (es.map Prod.fst) = true := hwf2.1
      have hwfp : wfPairs es = true := hwf2.2
      have hnp := buildPairs_next es nx
      rcases hb : buildPairs es nx with ⟨bh, kvs, nx1⟩
      rw [hb] at hnp
      dsimp only at hnp
      have hheap : (buildVal (.vDict es) nx).1 = bh ++ [(nx1, Obj.pyDict kvs)] := by
        simp only [buildVal, hb]
      have hroot : (buildVal (.vDict es) nx).2.1 = nx1 := by
        simp only [buildVal, hb]
      have hAgp : ∀ j o, Heap.find? (buildPairs es nx).1 j = some o →
          Heap.find? h j = some o := by
        intro j o hf2
        apply hAg
        rw [hheap]
        apply heap_find_append_some
        rw [hb] at hf2
        exact hf2
      have hfind : Heap.find? h nx1 = some (Obj.pyDict kvs) := by
        apply hAg
        rw [hheap, heap_find_append_right, heap_find_self]
        have h2 := buildPairs_find_none es nx nx1 (by omega)
        rw [hb] at h2
        exact h2
      have hlk : st.lookupPath nx1 = Option.none :=
        hfr nx1 (by omega) (show nx1 < nx + countV (.vDict es) from by
          simp only [countV]
          omega)
      have hasg : mkAssign h (kvs.map (fun e => e.1)) = vMkAssign (es.map Prod.fst) := by
        apply mkAssign_eq
        have h2 := buildPairs_keyname es nx h hAgp
        rw [hb] at h2
        exact h2
      obtain ⟨hAsgOk, hNodup⟩ := vMkAssign_ok (es.map Prod.fst) hko
      have hlenA : es.length = (vMkAssign (es.map Prod.fst)).length := by
        rw [vMkAssign_length, List.length_map]
      have hstore2 : Store.setAttr (Store.add st.store p groupNode) p "pickletype"
          (.tag .tDict) = st.store ++ [(p, tagNode groupNode .tDict)] := by
        rw [setAttr_add_eq groupNode _ _ hns]
        rfl
      have hsubF : Store.hasPath (st.store ++ [(p, tagNode groupNode .tDict)])
          (p ++ ["__"]) = false := by
        rw [hasPath_append, hasPath_noSub hns (List.prefix_append p _),
          hasPath_single_ne (by simp)]
        rfl
      have hfr2 : ∀ j, nx ≤ j → j < nx + countPairs es →
          pathsFind? ((nx1, p) :: st.paths) j = Option.none := by
        intro j hj1 hj2
        rw [pathsFind?, if_neg (show ¬ (nx1 = j) from by omega)]
        exact hfr j hj1 (show j < nx + countV (.vDict es) from by
          simp only [countV]
          omega)
      have hns2 : ∀ nm d, (nm, d) ∈ vMkAssign (es.map Prod.fst) →
          noSub (st.store ++ [(p, tagNode groupNode .tDict)]) (p ++ [nm])
          ∧ (d = false →
              noSub (st.store ++ [(p, tagNode groupNode .tDict)])
                (p ++ ["__", nm])) := by
        intro nm d _
        constructor
        · apply noSub_append (noSub_mono hns (List.prefix_append p _))
          exact noSub_single (not_prefix_of_len (by simp)) _
        · intro _
          apply noSub_append (noSub_mono hns (List.prefix_append p _))
          exact noSub_single (not_prefix_of_len (by simp)) _
      have hddA : ∀ nm d, (nm, d) ∈ vMkAssign (es.map Prod.fst) → nm ≠ "__" :=
        fun nm d hm => (asgOk_mem _ _ hAsgOk nm d hm).1
      obtain ⟨npr, heqr, hrr⟩ :=
        saveDictRows_enc es (vMkAssign (es.map Prod.fst)) nx h fu p false
          { paths := (nx1, p) :: st.paths,
            store := st.store ++ [(p, tagNode groupNode .tDict)] }
          hwfp hlenA hAgp hfr2 hns2 hNodup hddA
          (by simp only [countV] at hfuel; omega)
      rw [hb] at heqr
      dsimp only at heqr
      refine ⟨npr ++ [(nx1, p)], ?_, ?_⟩
      · show saveObj h (fu + 1) p (buildVal (.vDict es) nx).2.1 st = _
        rw [hroot]
        simp only [saveObj, hlk, hfind]
        show saveDictRows (saveObj h fu) p
            (kvs.zip (mkAssign h (kvs.map (fun e => e.1))))
            (Store.hasPath (Store.setAttr (Store.add st.store p groupNode) p
              "pickletype" (.tag .tDict)) (p ++ ["__"]))
            { paths := (nx1, p) :: st.paths,
              store := Store.setAttr (Store.add st.store p groupNode) p
                "pickletype" (.tag .tDict) } = _
        rw [hstore2, hasg, hsubF, heqr]
        rw [show encTree (.vDict es) p = (p, tagNode groupNode .tDict)
            :: encDictRows es (vMkAssign (es.map Prod.fst)) p false from rfl]
        simp [List.append_assoc]
      · intro e he
        rcases List.mem_append.mp he with h3 | h3
        · have h5 := hrr e h3
          have h6 := h5.2
          refine ⟨h5.1, ?_⟩
          show nx + countV (.vDict es) > e.1
          simp only [countV]
          omega
        · have he2 : e = (nx1, p) := List.mem_singleton.mp h3
          subst he2
          refine ⟨by omega, ?_⟩
          show nx + countV (.vDict es) > nx1
          simp only [countV]
          omega
  | .vInst m n fs, nx, h, f, p, st => by
      intro hwf hAg hfr hns hfuel
      cases f with
      | zero => exact absurd hfuel (Nat.not_lt_zero _)
      | succ fu =>
      have hwf2 := hwf
      rw [Value.wf, Bool.and_eq_true, Bool.and_eq_true, Bool.and_eq_true] at hwf2
      have hko : keysOk (fs.map Prod.fst) = true := hwf2.1.2
      have hwfp : wfPairs fs = true := hwf2.2
      have hnp := buildPairs_next fs nx
      rcases hb : buildPairs fs nx with ⟨bh, kvs, nx1⟩
      rw [hb] at hnp
      dsimp only at hnp
      have hheap : (buildVal (.vInst m n fs) nx).1
          = bh ++ [(nx1, Obj.pyGlobal m n), (nx1 + 1, Obj.pyTuple []),
              (nx1 + 2, Obj.pyInst nx1 (nx1 + 1) kvs)] := by
        simp only [buildVal, hb]
      have hroot : (buildVal (.vInst m n fs) nx).2.1 = nx1 + 2 := by
        simp only [buildVal, hb]
      have hAgp : ∀ j o, Heap.find? (buildPairs fs nx).1 j = some o →
          Heap.find? h j = some o := by
        intro j o hf2
        apply hAg
        rw [hheap]
        apply heap_find_append_some
        rw [hb] at hf2
        exact hf2
      have hfG : Heap.find? h nx1 = some (Obj.pyGlobal m n) := by
        apply hAg
        rw [hheap, heap_find_append_right]
        · rw [heap_find_cons, if_pos rfl]
        · have h2 := buildPairs_find_none fs nx nx1 (by omega)
          rw [hb] at h2
          exact h2
      have hfT : Heap.find? h (nx1 + 1) = some (Obj.pyTuple []) := by
        apply hAg
        rw [hheap, heap_find_append_right]
        · rw [heap_find_cons, if_neg (show ¬ (nx1 = nx1 + 1) from by omega),
            heap_find_cons, if_pos rfl]
        · have h2 := buildPairs_find_none fs nx (nx1 + 1) (by omega)
          rw [hb] at h2
          exact h2
      have hfI : Heap.find? h (nx1 + 2) = some (Obj.pyInst nx1 (nx1 + 1) kvs) := by
        apply hAg
        rw [hheap, heap_find_append_right]
        · rw [heap_find_cons, if_neg (show ¬ (nx1 = nx1 + 2) from by omega),
            heap_find_cons, if_neg (show ¬ (nx1 + 1 = nx1 + 2) from by omega),
            heap_find_cons, if_pos rfl]
        · have h2 := buildPairs_find_none fs nx (nx1 + 2) (by omega)
          rw [hb] at h2
          exact h2
      have hlk : st.lookupPath (nx1 + 2) = Option.none :=
        hfr (nx1 + 2) (by omega) (show nx1 + 2 < nx + countV (.vInst m n fs) from by
          simp only [countV]
          omega)
      have hfu3 : countPairs fs + 3 < fu + 1 := by
        simp only [countV] at hfuel
        exact hfuel
      have hstore2 : Store.add (Store.setAttr (Store.add st.store p groupNode) p
            "pickletype" (.tag .tInst)) (p ++ ["__"]) groupNode
          = st.store ++ [(p, tagNode groupNode .tInst), (p ++ ["__"], groupNode)] := by
        rw [setAttr_add_eq groupNode _ _ hns, Store.add, List.append_assoc]
        rfl
      have hfrG : pathsFind? ((nx1 + 2, p) :: st.paths) nx1 = Option.none := by
        rw [pathsFind?, if_neg (show ¬ (nx1 + 2 = nx1) from by omega)]
        exact hfr nx1 (by omega) (show nx1 < nx + countV (.vInst m n fs) from by
          simp only [countV]
          omega)
      have hnsG : noSub (st.store ++ [(p, tagNode groupNode .tInst),
          (p ++ ["__"], groupNode)]) (p ++ ["__", "cls"]) := by
        apply noSub_append (noSub_mono hns (List.prefix_append p _))
        intro e he
        rcases List.mem_cons.mp he with rfl | he2
        · exact not_prefix_of_len (by simp)
        · have he3 : e = (p ++ ["__"], groupNode) := List.mem_singleton.mp he2
          subst he3
          exact not_prefix_of_len (by simp)
      have hcls := saveObj_leaf_global h fu (by omega) (p ++ ["__", "cls"]) nx1 m n
        { paths := (nx1 + 2, p) :: st.paths,
          store := st.store ++ [(p, tagNode groupNode .tInst),
            (p ++ ["__"], groupNode)] }
        hfG hfrG hnsG
      have hfrT : pathsFind? ((nx1, p ++ ["__", "cls"]) :: (nx1 + 2, p) :: st.paths)
          (nx1 + 1) = Option.none := by
        rw [pathsFind?, if_neg (show ¬ (nx1 = nx1 + 1) from by omega),
          pathsFind?, if_neg (show ¬ (nx1 + 2 = nx1 + 1) from by omega)]
        exact hfr (nx1 + 1) (by omega)
          (show nx1 + 1 < nx + countV (.vInst m n fs) from by
            simp only [countV]
            omega)
      have hnsT : noSub ((st.store ++ [(p, tagNode groupNode .tInst),
          (p ++ ["__"], groupNode)])
          ++ [(p ++ ["__", "cls"],
            tagNode (leafOf (.byteVec (m ++ [10] ++ n))) .tGlobal)])
          (p ++ ["__", "args"]) := by
        refine noSub_append (noSub_append (noSub_mono hns (List.prefix_append p _))
          ?_) ?_
        · intro e he
          rcases List.mem_cons.mp he with rfl | he2
          · exact not_prefix_of_len (by simp)
          · have he3 : e = (p ++ ["__"], groupNode) := List.mem_singleton.mp he2
            subst he3
            exact not_prefix_of_len (by simp)
        · exact noSub_single (prefix_dunder_ne (by decide)) _
      have hargs := saveObj_leaf_emptyTuple h fu (by omega) (p ++ ["__", "args"]) (nx1 + 1)
        { paths := (nx1, p ++ ["__", "cls"]) :: (nx1 + 2, p) :: st.paths,
          store := (st.store ++ [(p, tagNode groupNode .tInst),
            (p ++ ["__"], groupNode)])
            ++ [(p ++ ["__", "cls"],
              tagNode (leafOf (.byteVec (m ++ [10] ++ n))) .tGlobal)] }
        hfT hfrT hnsT
      have hasg : mkAssign h (kvs.map (fun e => e.1))
          = vMkAssign (fs.map Prod.fst) := by
        apply mkAssign_eq
        have h2 := buildPairs_keyname fs nx h hAgp
        rw [hb] at h2
        exact h2
      obtain ⟨hAsgOk, hNodup⟩ := vMkAssign_ok (fs.map Prod.fst) hko
      have hlenA : fs.length = (vMkAssign (fs.map Prod.fst)).length := by
        rw [vMkAssign_length, List.length_map]
      have hsub0 : Store.hasPath (st.store ++ [(p, tagNode groupNode .tInst),
          (p ++ ["__"], groupNode)]) (p ++ ["__"]) = true := by
        rw [hasPath_append, hasPath_noSub hns (List.prefix_append p _),
          show Store.hasPath [(p, tagNode groupNode .tInst),
            (p ++ ["__"], groupNode)] (p ++ ["__"]) = true from by
          rw [Store.hasPath, store_find_cons, if_neg (by simp), store_find_cons,
            if_pos rfl]
          rfl]
        rfl
      have hsubT : Store.hasPath (((st.store ++ [(p, tagNode groupNode .tInst),
          (p ++ ["__"], groupNode)])
          ++ [(p ++ ["__", "cls"],
            tagNode (leafOf (.byteVec (m ++ [10] ++ n))) .tGlobal)])
          ++ [(p ++ ["__", "args"], tagNode emptyLeaf .tTuple)])
          (p ++ ["__"]) = true := by
        rw [hasPath_append, hasPath_append, hsub0]
        rfl
      have hfr4 : ∀ j, nx ≤ j → j < nx + countPairs fs →
          pathsFind? ((nx1 + 1, p ++ ["__", "args"])
            :: (nx1, p ++ ["__", "cls"]) :: (nx1 + 2, p) :: st.paths) j
            = Option.none := by
        intro j hj1 hj2
        rw [pathsFind?, if_neg (show ¬ (nx1 + 1 = j) from by omega),
          pathsFind?, if_neg (show ¬ (nx1 = j) from by omega),
          pathsFind?, if_neg (show ¬ (nx1 + 2 = j) from by omega)]
        exact hfr j hj1 (show j < nx + countV (.vInst m n fs) from by
          simp only [countV]
          omega)
      have hns4 : ∀ nm2 d2, (nm2, d2) ∈ vMkAssign (fs.map Prod.fst) →
          noSub (((st.store ++ [(p, tagNode groupNode .tInst),
            (p ++ ["__"], groupNode)])
            ++ [(p ++ ["__", "cls"],
              tagNode (leafOf (.byteVec (m ++ [10] ++ n))) .tGlobal)])
            ++ [(p ++ ["__", "args"], tagNode emptyLeaf .tTuple)]) (p ++ [nm2])
          ∧ (d2 = false →
              noSub (((st.store ++ [(p, tagNode groupNode .tInst),
                (p ++ ["__"], groupNode)])
                ++ [(p ++ ["__", "cls"],
                  tagNode (leafOf (.byteVec (m ++ [10] ++ n))) .tGlobal)])
                ++ [(p ++ ["__", "args"], tagNode emptyLeaf .tTuple)])
                (p ++ ["__", nm2])) := by
        intro nm2 d2 hm
        have hnmd := asgOk_mem _ _ hAsgOk nm2 d2 hm
        constructor
        · refine noSub_append (noSub_append (noSub_append
            (noSub_mono hns (List.prefix_append p _)) ?_) ?_) ?_
          · intro e he
            rcases List.mem_cons.mp he with rfl | he2
            · exact not_prefix_of_len (by simp)
            · have he3 : e = (p ++ ["__"], groupNode) := List.mem_singleton.mp he2
              subst he3
              exact prefix_seg_ne hnmd.1
          · exact noSub_single (prefix_seg_ne hnmd.1) _
          · exact noSub_single (prefix_seg_ne hnmd.1) _
        · intro hd2
          have hstart := hnmd.2 hd2
          have hncls : nm2 ≠ "cls" := fun he => by
            rw [he] at hstart
            exact absurd hstart (by decide)
          have hnargs : nm2 ≠ "args" := fun he => by
            rw [he] at hstart
            exact absurd hstart (by decide)
          refine noSub_append (noSub_append (noSub_append
            (noSub_mono hns (List.prefix_append p _)) ?_) ?_) ?_
          · intro e he
            rcases List.mem_cons.mp he with rfl | he2
            · exact not_prefix_of_len (by simp)
            · have he3 : e = (p ++ ["__"], groupNode) := List.mem_singleton.mp he2
              subst he3
              exact not_prefix_of_len (by simp)
          · exact noSub_single (prefix_dunder_ne hncls) _
          · exact noSub_single (prefix_dunder_ne hnargs) _
      have hddA : ∀ nm2 d2, (nm2, d2) ∈ vMkAssign (fs.map Prod.fst) → nm2 ≠ "__" :=
        fun nm2 d2 hm => (asgOk_mem _ _ hAsgOk nm2 d2 hm).1
      obtain ⟨npr, heqr, hrr⟩ :=
        saveDictRows_enc fs (vMkAssign (fs.map Prod.fst)) nx h fu p true
          { paths := (nx1 + 1, p ++ ["__", "args"]) :: (nx1, p ++ ["__", "cls"])
              :: (nx1 + 2, p) :: st.paths,
            store := ((st.store ++ [(p, tagNode groupNode .tInst),
              (p ++ ["__"], groupNode)])
              ++ [(p ++ ["__", "cls"],
                tagNode (leafOf (.byteVec (m ++ [10] ++ n))) .tGlobal)])
              ++ [(p ++ ["__", "args"], tagNode emptyLeaf .tTuple)] }
          hwfp hlenA hAgp hfr4 hns4 hNodup hddA (by omega)
      rw [hb] at heqr
      dsimp only at heqr
      refine ⟨npr ++ [(nx1 + 1, p ++ ["__", "args"]), (nx1, p ++ ["__", "cls"]),
        (nx1 + 2, p)], ?_, ?_⟩
      · show saveObj h (fu + 1) p (buildVal (.vInst m n fs) nx).2.1 st = _
        rw [hroot]
        simp only [saveObj, hlk, hfI]
        rw [hstore2, hcls]
        simp only [Bind.bind, Except.bind]
        rw [hargs]
        simp only [Bind.bind, Except.bind]
        show saveDictRows (saveObj h fu) p
            (kvs.zip (mkAssign h (kvs.map (fun e => e.1))))
            (Store.hasPath (((st.store ++ [(p, tagNode groupNode .tInst),
              (p ++ ["__"], groupNode)])
              ++ [(p ++ ["__", "cls"],
                tagNode (leafOf (.byteVec (m ++ [10] ++ n))) .tGlobal)])
              ++ [(p ++ ["__", "args"], tagNode emptyLeaf .tTuple)]) (p ++ ["__"]))
            { paths := (nx1 + 1, p ++ ["__", "args"]) :: (nx1, p ++ ["__", "cls"])
                :: (nx1 + 2, p) :: st.paths,
              store := ((st.store ++ [(p, tagNode groupNode .tInst),
                (p ++ ["__"], groupNode)])
                ++ [(p ++ ["__", "cls"],
                  tagNode (leafOf (.byteVec (m ++ [10] ++ n))) .tGlobal)])
                ++ [(p ++ ["__", "args"], tagNode emptyLeaf .tTuple)] } = _
        rw [hasg, hsubT, heqr]
        rw [show encTree (.vInst m n fs) p
            = (p, tagNode groupNode .tInst) :: (p ++ ["__"], groupNode)
              :: (p ++ ["__", "cls"],
                tagNode (leafOf (.byteVec (m ++ [10] ++ n))) .tGlobal)
              :: (p ++ ["__", "args"], tagNode emptyLeaf .tTuple)
              :: encDictRows fs (vMkAssign (fs.map Prod.fst)) p true from rfl]
        simp [List.append_assoc]
      · intro e he
        rcases List.mem_append.mp he with h3 | h3
        · have h5 := hrr e h3
          have h6 := h5.2
          refine ⟨h5.1, ?_⟩
          show nx + countV (.vInst m n fs) > e.1
          simp only [countV]
          omega
        · rcases List.mem_cons.mp h3 with rfl | h4
          · refine ⟨by omega, ?_⟩
            show nx + countV (.vInst m n fs) > nx1 + 1
            simp only [countV]
            omega
          rcases List.mem_cons.mp h4 with rfl | h5
          · refine ⟨by omega, ?_⟩
            show nx + countV (.vInst m n fs) > nx1
            simp only [countV]
            omega
          · have he2 : e = (nx1 + 2, p) := List.mem_singleton.mp h5
            subst he2
            refine ⟨by omega, ?_⟩
            show nx + countV (.vInst m n fs) > nx1 + 2
            simp only [countV]
            omega
  | .vObj m n fs, nx, h, f, p, st => by
      intro hwf hAg hfr hns hfuel
      cases f with
      | zero => exact absurd hfuel (Nat.not_lt_zero _)
      | succ fu =>
      have hwf2 := hwf
      rw [Value.wf, Bool.and_eq_true, Bool.and_eq_true, Bool.and_eq_true] at hwf2
      have hko : keysOk (fs.map Prod.fst) = true := hwf2.1.2
      have hwfp : wfPairs fs = true := hwf2.2
      have hnp := buildPairs_next fs nx
      rcases hb : buildPairs fs nx with ⟨bh, kvs, nx1⟩
      rw [hb] at hnp
      dsimp only at hnp
      have hheap : (buildVal (.vObj m n fs) nx).1
          = bh ++ [(nx1, Obj.pyGlobal m n), (nx1 + 1, Obj.pyTuple []),
              (nx1 + 2, Obj.pyObj nx1 (nx1 + 1) kvs)] := by
        simp only [buildVal, hb]
      have hroot : (buildVal (.vObj m n fs) nx).2.1 = nx1 + 2 := by
        simp only [buildVal, hb]
      have hAgp : ∀ j o, Heap.find? (buildPairs fs nx).1 j = some o →
          Heap.find? h j = some o := by
        intro j o hf2
        apply hAg
        rw [hheap]
        apply heap_find_append_some
        rw [hb] at hf2
        exact hf2
      have hfG : Heap.find? h nx1 = some (Obj.pyGlobal m n) := by
        apply hAg
        rw [hheap, heap_find_append_right]
        · rw [heap_find_cons, if_pos rfl]
        · have h2 := buildPairs_find_none fs nx nx1 (by omega)
          rw [hb] at h2
          exact h2
      have hfT : Heap.find? h (nx1 + 1) = some (Obj.pyTuple []) := by
        apply hAg
        rw [hheap, heap_find_append_right]
        · rw [heap_find_cons, if_neg (show ¬ (nx1 = nx1 + 1) from by omega),
            heap_find_cons, if_pos rfl]
        · have h2 := buildPairs_find_none fs nx (nx1 + 1) (by omega)
          rw [hb] at h2
          exact h2
      have hfO : Heap.find? h (nx1 + 2) = some (Obj.pyObj nx1 (nx1 + 1) kvs) := by
        apply hAg
        rw [hheap, heap_find_append_right]
        · rw [heap_find_cons, if_neg (show ¬ (nx1 = nx1 + 2) from by omega),
            heap_find_cons, if_neg (show ¬ (nx1 + 1 = nx1 + 2) from by omega),
            heap_find_cons, if_pos rfl]
        · have h2 := buildPairs_find_none fs nx (nx1 + 2) (by omega)
          rw [hb] at h2
          exact h2
      have hlk : st.lookupPath (nx1 + 2) = Option.none :=
        hfr (nx1 + 2) (by omega) (show nx1 + 2 < nx + countV (.vObj m n fs) from by
          simp only [countV]
          omega)
      have hfu3 : countPairs fs + 3 < fu + 1 := by
        simp only [countV] at hfuel
        exact hfuel
      have hstore2 : Store.setAttr (Store.add (Store.add st.store p groupNode)
            (p ++ ["__"]) groupNode) p "pickletype" (.tag .tReduce)
          = st.store ++ [(p, tagNode groupNode .tReduce), (p ++ ["__"], groupNode)] := by
        rw [Store.add, Store.add, List.append_assoc, List.singleton_append,
          setAttr_mid groupNode [(p ++ ["__"], groupNode)] _ _ hns
            (by
              intro e he
              have he2 : e = (p ++ ["__"], groupNode) := List.mem_singleton.mp he
              subst he2
              simp)]
        rfl
      have hfrG : pathsFind? ((nx1 + 2, p) :: st.paths) nx1 = Option.none := by
        rw [pathsFind?, if_neg (show ¬ (nx1 + 2 = nx1) from by omega)]
        exact hfr nx1 (by omega) (show nx1 < nx + countV (.vObj m n fs) from by
          simp only [countV]
          omega)
      have hnsG : noSub (st.store ++ [(p, tagNode groupNode .tReduce),
          (p ++ ["__"], groupNode)]) (p ++ ["__", "cls"]) := by
        apply noSub_append (noSub_mono hns (List.prefix_append p _))
        intro e he
        rcases List.mem_cons.mp he with rfl | he2
        · exact not_prefix_of_len (by simp)
        · have he3 : e = (p ++ ["__"], groupNode) := List.mem_singleton.mp he2
          subst he3
          exact not_prefix_of_len (by simp)
      have hcls := saveObj_leaf_global h fu (by omega) (p ++ ["__", "cls"]) nx1 m n
        { paths := (nx1 + 2, p) :: st.paths,
          store := st.store ++ [(p, tagNode groupNode .tReduce),
            (p ++ ["__"], groupNode)] }
        hfG hfrG hnsG
      have hfrT : pathsFind? ((nx1, p ++ ["__", "cls"]) :: (nx1 + 2, p) :: st.paths)
          (nx1 + 1) = Option.none := by
        rw [pathsFind?, if_neg (show ¬ (nx1 = nx1 + 1) from by omega),
          pathsFind?, if_neg (show ¬ (nx1 + 2 = nx1 + 1) from by omega)]
        exact hfr (nx1 + 1) (by omega)
          (show nx1 + 1 < nx + countV (.vObj m n fs) from by
            simp only [countV]
            omega)
      have hnsT : noSub ((st.store ++ [(p, tagNode groupNode .tReduce),
          (p ++ ["__"], groupNode)])
          ++ [(p ++ ["__", "cls"],
            tagNode (leafOf (.byteVec (m ++ [10] ++ n))) .tGlobal)])
          (p ++ ["__", "args"]) := by
        refine noSub_append (noSub_append (noSub_mono hns (List.prefix_append p _))
          ?_) ?_
        · intro e he
          rcases List.mem_cons.mp he with rfl | he2
          · exact not_prefix_of_len (by simp)
          · have he3 : e = (p ++ ["__"], groupNode) := List.mem_singleton.mp he2
            subst he3
            exact not_prefix_of_len (by simp)
        · exact noSub_single (prefix_dunder_ne (by decide)) _
      have hargs := saveObj_leaf_emptyTuple h fu (by omega) (p ++ ["__", "args"])
        (nx1 + 1)
        { paths := (nx1, p ++ ["__", "cls"]) :: (nx1 + 2, p) :: st.paths,
          store := (st.store ++ [(p, tagNode groupNode .tReduce),
            (p ++ ["__"], groupNode)])
            ++ [(p ++ ["__", "cls"],
              tagNode (leafOf (.byteVec (m ++ [10] ++ n))) .tGlobal)] }
        hfT hfrT hnsT
      have hhrc : Store.setAttr (((st.store ++ [(p, tagNode groupNode .tReduce),
          (p ++ ["__"], groupNode)])
          ++ [(p ++ ["__", "cls"],
            tagNode (leafOf (.byteVec (m ++ [10] ++ n))) .tGlobal)])
          ++ [(p ++ ["__", "args"], tagNode emptyLeaf .tTuple)]) p
          "has_reduce_content" (.int 1)
          = ((st.store ++ [(p, (tagNode groupNode .tReduce).setAttr
              "has_reduce_content" (.int 1)), (p ++ ["__"], groupNode)])
            ++ [(p ++ ["__", "cls"],
              tagNode (leafOf (.byteVec (m ++ [10] ++ n))) .tGlobal)])
            ++ [(p ++ ["__", "args"], tagNode emptyLeaf .tTuple)] := by
        rw [setAttr_append, setAttr_append,
          setAttr_mid (tagNode groupNode .tReduce) [(p ++ ["__"], groupNode)]
            _ _ hns
            (by
              intro e he
              have he2 : e = (p ++ ["__"], groupNode) := List.mem_singleton.mp he
              subst he2
              simp),
          setAttr_skip _ _ _ _ (by
            intro e he
            have he2 : e = (p ++ ["__", "cls"],
                tagNode (leafOf (.byteVec (m ++ [10] ++ n))) .tGlobal) :=
              List.mem_singleton.mp he
            subst he2
            simp),
          setAttr_skip _ _ _ _ (by
            intro e he
            have he2 : e = (p ++ ["__", "args"], tagNode emptyLeaf .tTuple) :=
              List.mem_singleton.mp he
            subst he2
            simp)]
      have hasg : mkAssign h (kvs.map (fun e => e.1))
          = vMkAssign (fs.map Prod.fst) := by
        apply mkAssign_eq
        have h2 := buildPairs_keyname fs nx h hAgp
        rw [hb] at h2
        exact h2
      obtain ⟨hAsgOk, hNodup⟩ := vMkAssign_ok (fs.map Prod.fst) hko
      have hlenA : fs.length = (vMkAssign (fs.map Prod.fst)).length := by
        rw [vMkAssign_length, List.length_map]
      have hsub0 : Store.hasPath (st.store ++ [(p, (tagNode groupNode .tReduce).setAttr
          "has_reduce_content" (.int 1)), (p ++ ["__"], groupNode)])
          (p ++ ["__"]) = true := by
        rw [hasPath_append, hasPath_noSub hns (List.prefix_append p _),
          show Store.hasPath [(p, (tagNode groupNode .tReduce).setAttr
            "has_reduce_content" (.int 1)), (p ++ ["__"], groupNode)]
            (p ++ ["__"]) = true from by
          rw [Store.hasPath, store_find_cons, if_neg (by simp), store_find_cons,
            if_pos rfl]
          rfl]
        rfl
      have hsubT : Store.hasPath (((st.store
          ++ [(p, (tagNode groupNode .tReduce).setAttr
            "has_reduce_content" (.int 1)), (p ++ ["__"], groupNode)])
          ++ [(p ++ ["__", "cls"],
            tagNode (leafOf (.byteVec (m ++ [10] ++ n))) .tGlobal)])
          ++ [(p ++ ["__", "args"], tagNode emptyLeaf .tTuple)])
          (p ++ ["__"]) = true := by
        rw [hasPath_append, hasPath_append, hsub0]
        rfl
      have hfr4 : ∀ j, nx ≤ j → j < nx + countPairs fs →
          pathsFind? ((nx1 + 1, p ++ ["__", "args"])
            :: (nx1, p ++ ["__", "cls"]) :: (nx1 + 2, p) :: st.paths) j
            = Option.none := by
        intro j hj1 hj2
        rw [pathsFind?, if_neg (show ¬ (nx1 + 1 = j) from by omega),
          pathsFind?, if_neg (show ¬ (nx1 = j) from by omega),
          pathsFind?, if_neg (show ¬ (nx1 + 2 = j) from by omega)]
        exact hfr j hj1 (show j < nx + countV (.vObj m n fs) from by
          simp only [countV]
          omega)
      have hns4 : ∀ nm2 d2, (nm2, d2) ∈ vMkAssign (fs.map Prod.fst) →
          noSub (((st.store ++ [(p, (tagNode groupNode .tReduce).setAttr
            "has_reduce_content" (.int 1)), (p ++ ["__"], groupNode)])
            ++ [(p ++ ["__", "cls"],
              tagNode (leafOf (.byteVec (m ++ [10] ++ n))) .tGlobal)])
            ++ [(p ++ ["__", "args"], tagNode emptyLeaf .tTuple)]) (p ++ [nm2])
          ∧ (d2 = false →
              noSub (((st.store ++ [(p, (tagNode groupNode .tReduce).setAttr
                "has_reduce_content" (.int 1)), (p ++ ["__"], groupNode)])
                ++ [(p ++ ["__", "cls"],
                  tagNode (leafOf (.byteVec (m ++ [10] ++ n))) .tGlobal)])
                ++ [(p ++ ["__", "args"], tagNode emptyLeaf .tTuple)])
                (p ++ ["__", nm2])) := by
        intro nm2 d2 hm
        have hnmd := asgOk_mem _ _ hAsgOk nm2 d2 hm
        constructor
        · refine noSub_append (noSub_append (noSub_append
            (noSub_mono hns (List.prefix_append p _)) ?_) ?_) ?_
          · intro e he
            rcases List.mem_cons.mp he with rfl | he2
            · exact not_prefix_of_len (by simp)
            · have he3 : e = (p ++ ["__"], groupNode) := List.mem_singleton.mp he2
              subst he3
              exact prefix_seg_ne hnmd.1
          · exact noSub_single (prefix_seg_ne hnmd.1) _
          · exact noSub_single (prefix_seg_ne hnmd.1) _
        · intro hd2
          have hstart := hnmd.2 hd2
          have hncls : nm2 ≠ "cls" := fun he => by
            rw [he] at hstart
            exact absurd hstart (by decide)
          have hnargs : nm2 ≠ "args" := fun he => by
            rw [he] at hstart
            exact absurd hstart (by decide)
          refine noSub_append (noSub_append (noSub_append
            (noSub_mono hns (List.prefix_append p _)) ?_) ?_) ?_
          · intro e he
            rcases List.mem_cons.mp he with rfl | he2
            · exact not_prefix_of_len (by simp)
            · have he3 : e = (p ++ ["__"], groupNode) := List.mem_singleton.mp he2
              subst he3
              exact not_prefix_of_len (by simp)
          · exact noSub_single (prefix_dunder_ne hncls) _
          · exact noSub_single (prefix_dunder_ne hnargs) _
      have hddA : ∀ nm2 d2, (nm2, d2) ∈ vMkAssign (fs.map Prod.fst) → nm2 ≠ "__" :=
        fun nm2 d2 hm => (asgOk_mem _ _ hAsgOk nm2 d2 hm).1
      obtain ⟨npr, heqr, hrr⟩ :=
        saveDictRows_enc fs (vMkAssign (fs.map Prod.fst)) nx h fu p true
          { paths := (nx1 + 1, p ++ ["__", "args"]) :: (nx1, p ++ ["__", "cls"])
              :: (nx1 + 2, p) :: st.paths,
            store := ((st.store ++ [(p, (tagNode groupNode .tReduce).setAttr
              "has_reduce_content" (.int 1)), (p ++ ["__"], groupNode)])
              ++ [(p ++ ["__", "cls"],
                tagNode (leafOf (.byteVec (m ++ [10] ++ n))) .tGlobal)])
              ++ [(p ++ ["__", "args"], tagNode emptyLeaf .tTuple)] }
          hwfp hlenA hAgp hfr4 hns4 hNodup hddA (by omega)
      rw [hb] at heqr
      dsimp only at heqr
      refine ⟨npr ++ [(nx1 + 1, p ++ ["__", "args"]), (nx1, p ++ ["__", "cls"]),
        (nx1 + 2, p)], ?_, ?_⟩
      · show saveObj h (fu + 1) p (buildVal (.vObj m n fs) nx).2.1 st = _
        rw [hroot]
        simp only [saveObj, hlk, hfO]
        rw [hstore2, hcls]
        simp only [Bind.bind, Except.bind]
        rw [hargs]
        simp only [Bind.bind, Except.bind]
        rw [hhrc]
        show saveDictRows (saveObj h fu) p
            (kvs.zip (mkAssign h (kvs.map (fun e => e.1))))
            (Store.hasPath (((st.store
              ++ [(p, (tagNode groupNode .tReduce).setAttr
                "has_reduce_content" (.int 1)), (p ++ ["__"], groupNode)])
              ++ [(p ++ ["__", "cls"],
                tagNode (leafOf (.byteVec (m ++ [10] ++ n))) .tGlobal)])
              ++ [(p ++ ["__", "args"], tagNode emptyLeaf .tTuple)]) (p ++ ["__"]))
            { paths := (nx1 + 1, p ++ ["__", "args"]) :: (nx1, p ++ ["__", "cls"])
                :: (nx1 + 2, p) :: st.paths,
              store := ((st.store ++ [(p, (tagNode groupNode .tReduce).setAttr
                "has_reduce_content" (.int 1)), (p ++ ["__"], groupNode)])
                ++ [(p ++ ["__", "cls"],
                  tagNode (leafOf (.byteVec (m ++ [10] ++ n))) .tGlobal)])
                ++ [(p ++ ["__", "args"], tagNode emptyLeaf .tTuple)] } = _
        rw [hasg, hsubT, heqr]
        rw [show encTree (.vObj m n fs) p
            = (p, (tagNode groupNode .tReduce).setAttr "has_reduce_content" (.int 1))
              :: (p ++ ["__"], groupNode)
              :: (p ++ ["__", "cls"],
                tagNode (leafOf (.byteVec (m ++ [10] ++ n))) .tGlobal)
              :: (p ++ ["__", "args"], tagNode emptyLeaf .tTuple)
              :: encDictRows fs (vMkAssign (fs.map Prod.fst)) p true from rfl]
        simp [List.append_assoc]
      · intro e he
        rcases List.mem_append.mp he with h3 | h3
        · have h5 := hrr e h3
          have h6 := h5.2
          refine ⟨h5.1, ?_⟩
          show nx + countV (.vObj m n fs) > e.1
          simp only [countV]
          omega
        · rcases List.mem_cons.mp h3 with rfl | h4
          · refine ⟨by omega, ?_⟩
            show nx + countV (.vObj m n fs) > nx1 + 1
            simp only [countV]
            omega
          rcases List.mem_cons.mp h4 with rfl | h5
          · refine ⟨by omega, ?_⟩
            show nx + countV (.vObj m n fs) > nx1
            simp only [countV]
            omega
          · have he2 : e = (nx1 + 2, p) := List.mem_singleton.mp h5
            subst he2
            refine ⟨by omega, ?_⟩
            show nx + countV (.vObj m n fs) > nx1 + 2
            simp only [countV]
            omega

theorem saveSeq_enc : ∀ (vs : List Value) (nx : Nat) (h : Heap) (f : Nat) (p : Path)
    (i : Nat) (st : PState),
    wfList vs = true →
    (∀ j o, Heap.find? (buildList vs nx).1 j = some o → Heap.find? h j = some o) →
    (∀ j, nx ≤ j → j < nx + countList vs → pathsFind? st.paths j = Option.none) →
    (∀ k, i ≤ k → noSub st.store (p ++ [idxSeg k])) →
    countList vs < f →
    ∃ np, saveSeq (saveObj h f) p i (buildList vs nx).2.1 st
        = .ok { paths := np ++ st.paths, store := st.store ++ encSeq vs p i }
      ∧ ∀ e ∈ np, nx ≤ e.1 ∧ nx + countList vs > e.1
  | [], nx, h, f, p, i, st => by
      intro _ _ _ _ _
      refine ⟨[], ?_, ?_⟩
      · show Except.ok st
            = .ok { paths := [] ++ st.paths, store := st.store ++ encSeq [] p i }
        rw [show encSeq [] p i = [] from rfl, List.append_nil]
        rfl
      · intro e he
        cases he
  | v :: vs, nx, h, f, p, i, st => by
      intro hwf hAg hfr hns hfl
      have hwf1 : Value.wf v = true := by
        rw [wfList, Bool.and_eq_true] at hwf
        exact hwf.1
      have hwf2 : wfList vs = true := by
        rw [wfList, Bool.and_eq_true] at hwf
        exact hwf.2
      have hcl : countList (v :: vs) = countV v + countList vs := rfl
      have hn1 := build_next v nx
      rcases hb1 : buildVal v nx with ⟨h1, i0, nx1⟩
      rw [hb1] at hn1
      dsimp only at hn1
      have hn2 := buildList_next vs nx1
      rcases hb2 : buildList vs nx1 with ⟨h2, is, nx2⟩
      rw [hb2] at hn2
      dsimp only at hn2
      have hb : buildList (v :: vs) nx = (h1 ++ h2, i0 :: is, nx2) := by
        simp only [buildList, hb1, hb2]
      have hAg1 : ∀ j o, Heap.find? (buildVal v nx).1 j = some o →
          Heap.find? h j = some o := by
        intro j o hf2
        apply hAg
        rw [hb]
        apply heap_find_append_some
        rw [hb1] at hf2
        exact hf2
      have hAg2 : ∀ j o, Heap.find? (buildList vs nx1).1 j = some o →
          Heap.find? h j = some o := by
        intro j o hf2
        have hrange := heapList_find_some_range hf2
        apply hAg
        rw [hb]
        show Heap.find? (h1 ++ h2) j = some o
        rw [heap_find_append_right]
        · rw [hb2] at hf2
          exact hf2
        · have h3 := build_find_none v nx j (by omega)
          rw [hb1] at h3
          exact h3
      obtain ⟨np1, heq1, hr1⟩ :=
        saveObj_enc v nx h f (p ++ [idxSeg i]) st hwf1 hAg1
          (fun j hj1 hj2 => hfr j hj1 (by rw [hcl]; omega))
          (hns i (Nat.le_refl _))
          (by rw [hcl] at hfl; omega)
      rw [hb1] at heq1
      dsimp only at heq1
      have hfr2 : ∀ j, nx1 ≤ j → j < nx1 + countList vs →
          pathsFind? (np1 ++ st.paths) j = Option.none := by
        intro j hj1 hj2
        rw [pathsFind_append, pathsFind_none np1 j
          (fun e he hej => by
            have h5 := hr1 e he
            have h6 : j = (e.1 : Nat) := Eq.symm hej
            omega)]
        exact hfr j (by omega) (by rw [hcl]; omega)
      have hns2 : ∀ k2, i + 1 ≤ k2 →
          noSub (st.store ++ encTree v (p ++ [idxSeg i])) (p ++ [idxSeg k2]) := by
        intro k2 hk2
        apply noSub_append (hns k2 (by omega))
        apply encTree_noSub
        · exact prefix_seg_ne (fun he => by
            have h5 := idxSeg_inj he
            omega)
        · exact prefix_seg_ne (fun he => by
            have h5 := idxSeg_inj he
            omega)
      obtain ⟨np2, heq2, hr2⟩ :=
        saveSeq_enc vs nx1 h f p (i + 1)
          { paths := np1 ++ st.paths,
            store := st.store ++ encTree v (p ++ [idxSeg i]) }
          hwf2 hAg2 hfr2 hns2 (by rw [hcl] at hfl; omega)
      rw [hb2] at heq2
      dsimp only at heq2
      refine ⟨np2 ++ np1, ?_, ?_⟩
      · show saveSeq (saveObj h f) p i (buildList (v :: vs) nx).2.1 st = _
        rw [hb]
        show saveSeq (saveObj h f) p i (i0 :: is) st = _
        rw [saveSeq]
        simp only [Bind.bind, Except.bind]
        rw [heq1]
        show saveSeq (saveObj h f) p (i + 1) is
            { paths := np1 ++ st.paths,
              store := st.store ++ encTree v (p ++ [idxSeg i]) } = _
        rw [heq2, show encSeq (v :: vs) p i
            = encTree v (p ++ [idxSeg i]) ++ encSeq vs p (i + 1) from rfl]
        simp [List.append_assoc]
      · intro e he
        rcases List.mem_append.mp he with h3 | h3
        · have h5 := hr2 e h3
          refine ⟨by omega, ?_⟩
          rw [hcl]
          omega
        · have h5 := hr1 e h3
          refine ⟨by omega, ?_⟩
          rw [hcl]
          omega

theorem saveDictRows_enc : ∀ (es : List (Value × Value)) (asg : List (String × Bool))
    (nx : Nat) (h : Heap) (f : Nat) (p : Path) (hassub : Bool) (st : PState),
    wfPairs es = true →
    es.length = asg.length →
    (∀ j o, Heap.find? (buildPairs es nx).1 j = some o → Heap.find? h j = some o) →
    (∀ j, nx ≤ j → j < nx + countPairs es → pathsFind? st.paths j = Option.none) →
    (∀ nm d, (nm, d) ∈ asg → noSub st.store (p ++ [nm])
      ∧ (d = false → noSub st.store (p ++ ["__", nm]))) →
    (asg.map Prod.fst).Nodup →
    (∀ nm d, (nm, d) ∈ asg → nm ≠ "__") →
    countPairs es < f →
    ∃ np, saveDictRows (saveObj h f) p ((buildPairs es nx).2.1.zip asg) hassub st
        = .ok { paths := np ++ st.paths,
                store := st.store ++ encDictRows es asg p hassub }
      ∧ ∀ e ∈ np, nx ≤ e.1 ∧ nx + countPairs es > e.1
  | [], asg, nx, h, f, p, hassub, st => by
      intro _ hlen _ _ _ _ _ _
      have hasg : asg = [] := by
        cases asg with
        | nil => rfl
        | cons a asg => cases hlen
      subst hasg
      refine ⟨[], ?_, ?_⟩
      · show Except.ok st
            = .ok { paths := [] ++ st.paths,
                    store := st.store ++ encDictRows [] [] p hassub }
        rw [show encDictRows [] [] p hassub = [] from rfl, List.append_nil]
        rfl
      · intro e he
        cases he
  | (k, v) :: es, asg, nx, h, f, p, hassub, st => by
      intro hwf hlen hAg hfr hns hnd hdd hfuel
      cases asg with
      | nil => simp at hlen
      | cons nd0 asg =>
      obtain ⟨nm, d⟩ := nd0
      have hwfk : Value.wf k = true := by
        rw [wfPairs, Bool.and_eq_true, Bool.and_eq_true] at hwf
        exact hwf.1.1
      have hwfv : Value.wf v = true := by
        rw [wfPairs, Bool.and_eq_true, Bool.and_eq_true] at hwf
        exact hwf.1.2
      have hwfes : wfPairs es = true := by
        rw [wfPairs, Bool.and_eq_true] at hwf
        exact hwf.2
      have hlen2 : es.length = asg.length := by
        simp only [List.length_cons] at hlen
        omega
      have hcp : countPairs ((k, v) :: es) = countV k + countV v + countPairs es := rfl
      have hnk := build_next k nx
      rcases hbk : buildVal k nx with ⟨bhk, ki, nxa⟩
      rw [hbk] at hnk
      dsimp only at hnk
      have hnv := build_next v nxa
      rcases hbv : buildVal v nxa with ⟨bhv, vi, nxb⟩
      rw [hbv] at hnv
      dsimp only at hnv
      have hnr := buildPairs_next es nxb
      rcases hbr : buildPairs es nxb with ⟨bhr, kvs, nxc⟩
      rw [hbr] at hnr
      dsimp only at hnr
      have hb : buildPairs ((k, v) :: es) nx = (bhk ++ bhv ++ bhr, (ki, vi) :: kvs, nxc) := by
        simp only [buildPairs, hbk, hbv, hbr]
      have hAgk : ∀ j o, Heap.find? (buildVal k nx).1 j = some o →
          Heap.find? h j = some o := by
        intro j o hf2
        apply hAg
        rw [hb]
        show Heap.find? (bhk ++ bhv ++ bhr) j = some o
        apply heap_find_append_some
        apply heap_find_append_some
        rw [hbk] at hf2
        exact hf2
      have hAgv : ∀ j o, Heap.find? (buildVal v nxa).1 j = some o →
          Heap.find? h j = some o := by
        intro j o hf2
        have hrange := heap_find_some_range hf2
        apply hAg
        rw [hb]
        show Heap.find? (bhk ++ bhv ++ bhr) j = some o
        apply heap_find_append_some
        rw [heap_find_append_right]
        · rw [hbv] at hf2
          exact hf2
        · have h3 := build_find_none k nx j (by omega)
          rw [hbk] at h3
          exact h3
      have hAgr : ∀ j o, Heap.find? (buildPairs es nxb).1 j = some o →
          Heap.find? h j = some o := by
        intro j o hf2
        have hrange := heapPairs_find_some_range hf2
        apply hAg
        rw [hb]
        show Heap.find? (bhk ++ bhv ++ bhr) j = some o
        rw [heap_find_append_right]
        · rw [hbr] at hf2
          exact hf2
        · rw [heap_find_append]
          have h3 := build_find_none k nx j (by omega)
          rw [hbk] at h3
          rw [h3]
          have h4 := build_find_none v nxa j (by omega)
          rw [hbv] at h4
          exact h4
      have hnm_row := hns nm d (List.mem_cons_self _ _)
      have hdd_row : nm ≠ "__" := hdd nm d (List.mem_cons_self _ _)
      have hnd2 : (asg.map Prod.fst).Nodup := by
        rw [List.map_cons] at hnd
        exact (List.nodup_cons.mp hnd).2
      have hnm_notin : nm ∉ asg.map Prod.fst := by
        rw [List.map_cons] at hnd
        exact (List.nodup_cons.mp hnd).1
      have hfrv : ∀ j, nxa ≤ j → j < nxa + countV v →
          pathsFind? st.paths j = Option.none :=
        fun j hj1 hj2 => hfr j (by omega) (by rw [hcp]; omega)
      obtain ⟨npv, heqv, hrv⟩ :=
        saveObj_enc v nxa h f (p ++ [nm]) st hwfv hAgv hfrv hnm_row.1
          (by rw [hcp] at hfuel; omega)
      rw [hbv] at heqv
      dsimp only at heqv
      by_cases hd : d = true
      · subst hd
        have hfrr : ∀ j, nxb ≤ j → j < nxb + countPairs es →
            pathsFind? (npv ++ st.paths) j = Option.none := by
          intro j hj1 hj2
          rw [pathsFind_append, pathsFind_none npv j
            (fun e he hej => by
              have h5 := hrv e he
              have h6 : j = (e.1 : Nat) := Eq.symm hej
              omega)]
          exact hfr j (by omega) (by rw [hcp]; omega)
        have hnsr : ∀ nm2 d2, (nm2, d2) ∈ asg →
            noSub (st.store ++ encTree v (p ++ [nm])) (p ++ [nm2])
            ∧ (d2 = false →
                noSub (st.store ++ encTree v (p ++ [nm])) (p ++ ["__", nm2])) := by
          intro nm2 d2 hm
          have hneq : nm2 ≠ nm :=
            fun he => hnm_notin (he ▸ List.mem_map_of_mem Prod.fst hm)
          have hbase := hns nm2 d2 (List.mem_cons_of_mem _ hm)
          constructor
          · apply noSub_append hbase.1
            apply encTree_noSub
            · exact prefix_seg_ne hneq
            · exact prefix_seg_ne (fun he => hneq he.symm)
          · intro hd2
            apply noSub_append (hbase.2 hd2)
            apply encTree_noSub
            · exact not_prefix_of_len (by simp)
            · exact prefix_seg_ne hdd_row
        obtain ⟨npr, heqr, hrr⟩ :=
          saveDictRows_enc es asg nxb h f p hassub
            { paths := npv ++ st.paths, store := st.store ++ encTree v (p ++ [nm]) }
            hwfes hlen2 hAgr hfrr hnsr hnd2
            (fun nm2 d2 hm => hdd nm2 d2 (List.mem_cons_of_mem _ hm))
            (by rw [hcp] at hfuel; omega)
        rw [hbr] at heqr
        dsimp only at heqr
        refine ⟨npr ++ npv, ?_, ?_⟩
        · show saveDictRows (saveObj h f) p
              ((buildPairs ((k, v) :: es) nx).2.1.zip ((nm, true) :: asg)) hassub st = _
          rw [hb]
          show saveDictRows (saveObj h f) p
              (((ki, vi), nm, true) :: kvs.zip asg) hassub st = _
          rw [saveDictRows]
          simp only [Bind.bind, Except.bind]
          rw [heqv]
          show saveDictRows (saveObj h f) p (kvs.zip asg) hassub
              { paths := npv ++ st.paths,
                store := st.store ++ encTree v (p ++ [nm]) } = _
          rw [heqr, show encDictRows ((k, v) :: es) ((nm, true) :: asg) p hassub
              = encTree v (p ++ [nm]) ++ encDictRows es asg p hassub from by
            rw [encDictRows, if_pos rfl]]
          simp [List.append_assoc]
        · intro e he
          rcases List.mem_append.mp he with h3 | h3
          · have h5 := hrr e h3
            have h6 := h5.2
            refine ⟨by omega, ?_⟩
            rw [hcp]
            omega
          · have h5 := hrv e h3
            have h6 := h5.2
            refine ⟨by omega, ?_⟩
            rw [hcp]
            omega
      · have hd' : d = false := by
          revert hd
          cases d <;> simp
        subst hd'
        have hfrk : ∀ j, nx ≤ j → j < nx + countV k →
            pathsFind? (npv ++ st.paths) j = Option.none := by
          intro j hj1 hj2
          rw [pathsFind_append, pathsFind_none npv j
            (fun e he hej => by
              have h5 := hrv e he
              have h6 : j = (e.1 : Nat) := Eq.symm hej
              omega)]
          exact hfr j hj1 (by rw [hcp]; omega)
        cases hassub with
        | true =>
            have hnsk : noSub (st.store ++ encTree v (p ++ [nm]))
                (p ++ ["__", nm]) := by
              apply noSub_append (hnm_row.2 rfl)
              apply encTree_noSub
              · exact not_prefix_of_len (by simp)
              · exact prefix_seg_ne hdd_row
            obtain ⟨npk, heqk, hrk⟩ :=
              saveObj_enc k nx h f (p ++ ["__", nm])
                { paths := npv ++ st.paths,
                  store := st.store ++ encTree v (p ++ [nm]) }
                hwfk hAgk hfrk hnsk (by rw [hcp] at hfuel; omega)
            rw [hbk] at heqk
            dsimp only at heqk
            have hfrr : ∀ j, nxb ≤ j → j < nxb + countPairs es →
                pathsFind? (npk ++ (npv ++ st.paths)) j = Option.none := by
              intro j hj1 hj2
              have hA : pathsFind? npk j = Option.none :=
                pathsFind_none npk j (fun e he hej => by
                  have h5 := hrk e he
                  have h6 : j = (e.1 : Nat) := Eq.symm hej
                  omega)
              have hB : pathsFind? npv j = Option.none :=
                pathsFind_none npv j (fun e he hej => by
                  have h5 := hrv e he
                  have h6 : j = (e.1 : Nat) := Eq.symm hej
                  omega)
              rw [pathsFind_append, hA, pathsFind_append, hB]
              exact hfr j (by omega) (by rw [hcp]; omega)
            have hnsr : ∀ nm2 d2, (nm2, d2) ∈ asg →
                noSub ((st.store ++ encTree v (p ++ [nm]))
                  ++ encTree k (p ++ ["__", nm])) (p ++ [nm2])
                ∧ (d2 = false →
                    noSub ((st.store ++ encTree v (p ++ [nm]))
                      ++ encTree k (p ++ ["__", nm])) (p ++ ["__", nm2])) := by
              intro nm2 d2 hm
              have hneq : nm2 ≠ nm :=
                fun he => hnm_notin (he ▸ List.mem_map_of_mem Prod.fst hm)
              have hdd2 : nm2 ≠ "__" := hdd nm2 d2 (List.mem_cons_of_mem _ hm)
              have hbase := hns nm2 d2 (List.mem_cons_of_mem _ hm)
              constructor
              · refine noSub_append (noSub_append hbase.1 ?_) ?_
                · apply encTree_noSub
                  · exact prefix_seg_ne hneq
                  · exact prefix_seg_ne (fun he => hneq he.symm)
                · apply encTree_noSub
                  · exact prefix_seg_ne hdd2
                  · exact not_prefix_of_len (by simp)
              · intro hd2
                refine noSub_append (noSub_append (hbase.2 hd2) ?_) ?_
                · apply encTree_noSub
                  · exact not_prefix_of_len (by simp)
                  · exact prefix_seg_ne hdd_row
                · apply encTree_noSub
                  · exact prefix_dunder_ne hneq
                  · exact prefix_dunder_ne (fun he => hneq he.symm)
            obtain ⟨npr, heqr, hrr⟩ :=
              saveDictRows_enc es asg nxb h f p true
                { paths := npk ++ (npv ++ st.paths),
                  store := (st.store ++ encTree v (p ++ [nm]))
                    ++ encTree k (p ++ ["__", nm]) }
                hwfes hlen2 hAgr hfrr hnsr hnd2
                (fun nm2 d2 hm => hdd nm2 d2 (List.mem_cons_of_mem _ hm))
                (by rw [hcp] at hfuel; omega)
            rw [hbr] at heqr
            dsimp only at heqr
            refine ⟨npr ++ (npk ++ npv), ?_, ?_⟩
            · show saveDictRows (saveObj h f) p
                  ((buildPairs ((k, v) :: es) nx).2.1.zip ((nm, false) :: asg))
                  true st = _
              rw [hb]
              show saveDictRows (saveObj h f) p
                  (((ki, vi), nm, false) :: kvs.zip asg) true st = _
              rw [saveDictRows]
              simp only [Bind.bind, Except.bind]
              simp only [heqv]
              rw [if_pos trivial, heqk]
              show saveDictRows (saveObj h f) p (kvs.zip asg) true
                  { paths := npk ++ (npv ++ st.paths),
                    store := (st.store ++ encTree v (p ++ [nm]))
                      ++ encTree k (p ++ ["__", nm]) } = _
              rw [heqr, show encDictRows ((k, v) :: es) ((nm, false) :: asg) p true
                  = encTree v (p ++ [nm])
                    ++ ([] ++ encTree k (p ++ ["__", nm])
                      ++ encDictRows es asg p true) from by
                rw [encDictRows, if_neg (by simp), if_pos rfl]]
              simp [List.append_assoc]
            · intro e he
              rcases List.mem_append.mp he with h3 | h3
              · have h5 := hrr e h3
                have h6 := h5.2
                refine ⟨by omega, ?_⟩
                rw [hcp]
                omega
              · rcases List.mem_append.mp h3 with h4 | h4
                · have h5 := hrk e h4
                  have h6 := h5.2
                  refine ⟨h5.1, ?_⟩
                  rw [hcp]
                  omega
                · have h5 := hrv e h4
                  have h6 := h5.2
                  refine ⟨by omega, ?_⟩
                  rw [hcp]
                  omega
        | false =>
            have hnsk : noSub ((st.store ++ encTree v (p ++ [nm]))
                ++ [(p ++ ["__"], groupNode)]) (p ++ ["__", nm]) := by
              refine noSub_append (noSub_append (hnm_row.2 rfl) ?_) ?_
              · apply encTree_noSub
                · exact not_prefix_of_len (by simp)
                · exact prefix_seg_ne hdd_row
              · exact noSub_single (not_prefix_of_len (by simp)) _
            obtain ⟨npk, heqk, hrk⟩ :=
              saveObj_enc k nx h f (p ++ ["__", nm])
                { paths := npv ++ st.paths,
                  store := (st.store ++ encTree v (p ++ [nm]))
                    ++ [(p ++ ["__"], groupNode)] }
                hwfk hAgk hfrk hnsk (by rw [hcp] at hfuel; omega)
            rw [hbk] at heqk
            dsimp only at heqk
            have hfrr : ∀ j, nxb ≤ j → j < nxb + countPairs es →
                pathsFind? (npk ++ (npv ++ st.paths)) j = Option.none := by
              intro j hj1 hj2
              have hA : pathsFind? npk j = Option.none :=
                pathsFind_none npk j (fun e he hej => by
                  have h5 := hrk e he
                  have h6 : j = (e.1 : Nat) := Eq.symm hej
                  omega)
              have hB : pathsFind? npv j = Option.none :=
                pathsFind_none npv j (fun e he hej => by
                  have h5 := hrv e he
                  have h6 : j = (e.1 : Nat) := Eq.symm hej
                  omega)
              rw [pathsFind_append, hA, pathsFind_append, hB]
              exact hfr j (by omega) (by rw [hcp]; omega)
            have hnsr : ∀ nm2 d2, (nm2, d2) ∈ asg →
                noSub (((st.store ++ encTree v (p ++ [nm]))
                  ++ [(p ++ ["__"], groupNode)])
                  ++ encTree k (p ++ ["__", nm])) (p ++ [nm2])
                ∧ (d2 = false →
                    noSub (((st.store ++ encTree v (p ++ [nm]))
                      ++ [(p ++ ["__"], groupNode)])
                      ++ encTree k (p ++ ["__", nm])) (p ++ ["__", nm2])) := by
              intro nm2 d2 hm
              have hneq : nm2 ≠ nm :=
                fun he => hnm_notin (he ▸ List.mem_map_of_mem Prod.fst hm)
              have hdd2 : nm2 ≠ "__" := hdd nm2 d2 (List.mem_cons_of_mem _ hm)
              have hbase := hns nm2 d2 (List.mem_cons_of_mem _ hm)
              constructor
              · refine noSub_append (noSub_append (noSub_append hbase.1 ?_) ?_) ?_
                · apply encTree_noSub
                  · exact prefix_seg_ne hneq
                  · exact prefix_seg_ne (fun he => hneq he.symm)
                · exact noSub_single (prefix_seg_ne hdd2) _
                · apply encTree_noSub
                  · exact prefix_seg_ne hdd2
                  · exact not_prefix_of_len (by simp)
              · intro hd2
                refine noSub_append (noSub_append (noSub_append
                  (hbase.2 hd2) ?_) ?_) ?_
                · apply encTree_noSub
                  · exact not_prefix_of_len (by simp)
                  · exact prefix_seg_ne hdd_row
                · exact noSub_single (not_prefix_of_len (by simp)) _
                · apply encTree_noSub
                  · exact prefix_dunder_ne hneq
                  · exact prefix_dunder_ne (fun he => hneq he.symm)
            obtain ⟨npr, heqr, hrr⟩ :=
              saveDictRows_enc es asg nxb h f p true
                { paths := npk ++ (npv ++ st.paths),
                  store := ((st.store ++ encTree v (p ++ [nm]))
                    ++ [(p ++ ["__"], groupNode)])
                    ++ encTree k (p ++ ["__", nm]) }
                hwfes hlen2 hAgr hfrr hnsr hnd2
                (fun nm2 d2 hm => hdd nm2 d2 (List.mem_cons_of_mem _ hm))
                (by rw [hcp] at hfuel; omega)
            rw [hbr] at heqr
            dsimp only at heqr
            refine ⟨npr ++ (npk ++ npv), ?_, ?_⟩
            · show saveDictRows (saveObj h f) p
                  ((buildPairs ((k, v) :: es) nx).2.1.zip ((nm, false) :: asg))
                  false st = _
              rw [hb]
              show saveDictRows (saveObj h f) p
                  (((ki, vi), nm, false) :: kvs.zip asg) false st = _
              rw [saveDictRows]
              simp only [Bind.bind, Except.bind]
              simp only [heqv]
              rw [if_neg (show ¬ (false = true) from by simp),
                if_neg (show ¬ (false = true) from by simp), Store.add, heqk]
              show saveDictRows (saveObj h f) p (kvs.zip asg) true
                  { paths := npk ++ (npv ++ st.paths),
                    store := ((st.store ++ encTree v (p ++ [nm]))
                      ++ [(p ++ ["__"], groupNode)])
                      ++ encTree k (p ++ ["__", nm]) } = _
              rw [heqr, show encDictRows ((k, v) :: es) ((nm, false) :: asg) p false
                  = encTree v (p ++ [nm])
                    ++ ([(p ++ ["__"], groupNode)]
                      ++ encTree k (p ++ ["__", nm])
                      ++ encDictRows es asg p true) from by
                rw [encDictRows, if_neg (by simp), if_neg (by simp)]]
              simp [List.append_assoc]
            · intro e he
              rcases List.mem_append.mp he with h3 | h3
              · have h5 := hrr e h3
                have h6 := h5.2
                refine ⟨by omega, ?_⟩
                rw [hcp]
                omega
              · rcases List.mem_append.mp h3 with h4 | h4
                · have h5 := hrk e h4
                  have h6 := h5.2
                  refine ⟨h5.1, ?_⟩
                  rw [hcp]
                  omega
                · have h5 := hrv e h4
                  have h6 := h5.2
                  refine ⟨by omega, ?_⟩
                  rw [hcp]
                  omega

end

/-! ## Decoder invariants and static store facts -/

/-! ## Decoder-state invariants -/

/-- Every stored id and every reference is below the allocation cursor. -/
def UOK (u : UState) : Prop :=
  ∀ e ∈ u.heap, u.next > e.1 ∧ ∀ j ∈ objRefs e.2, u.next > j

theorem uok_freshU : UOK freshU := by
  intro e he
  cases he

theorem uok_find_lt {u : UState} (hok : UOK u) {i : Nat} {o : Obj}
    (hf : Heap.find? u.heap i = some o) : u.next > i :=
  (hok _ (find_mem hf)).1

theorem uok_find_refs {u : UState} (hok : UOK u) {i : Nat} {o : Obj}
    (hf : Heap.find? u.heap i = some o) : ∀ j ∈ objRefs o, u.next > j :=
  (hok _ (find_mem hf)).2

theorem find_none_of_ge {u : UState} (hok : UOK u) {i : Nat}
    (hi : u.next ≤ i) : Heap.find? u.heap i = Option.none := by
  cases hf : Heap.find? u.heap i with
  | none => rfl
  | some o =>
      have h2 := uok_find_lt hok hf
      omega

theorem find_alloc_self {u : UState} (hok : UOK u) (o : Obj) :
    Heap.find? (u.alloc o).2.heap u.next = some o := by
  show Heap.find? (u.heap ++ [(u.next, o)]) u.next = some o
  rw [heap_find_append_right [(u.next, o)] (find_none_of_ge hok (Nat.le_refl _)),
    heap_find_self]

theorem find_alloc_ne (u : UState) (o : Obj) {j : Nat} (hj : j ≠ u.next) :
    Heap.find? (u.alloc o).2.heap j = Heap.find? u.heap j :=
  heapFind_append_ne u.heap u.next o j hj

theorem uok_alloc {u : UState} (hok : UOK u) (o : Obj)
    (ho : ∀ j ∈ objRefs o, u.next > j) : UOK (u.alloc o).2 := by
  intro e he
  rcases List.mem_append.mp he with h1 | h1
  · have h2 := hok e h1
    refine ⟨?_, ?_⟩
    · show u.next + 1 > e.1
      have h3 := h2.1
      omega
    · intro j hj
      have h3 := h2.2 j hj
      show u.next + 1 > j
      omega
  · have he2 : e = (u.next, o) := List.mem_singleton.mp h1
    subst he2
    refine ⟨?_, ?_⟩
    · show u.next + 1 > u.next
      omega
    · intro j hj
      have h3 := ho j hj
      show u.next + 1 > j
      omega

theorem mem_heapSet : ∀ (h : Heap) (i : Nat) (o : Obj) (e : Nat × Obj),
    e ∈ heapSet h i o → (e = (i, o) ∧ ∃ o2, (i, o2) ∈ h) ∨ e ∈ h
  | [], i, o, e, he => by cases he
  | e0 :: h, i, o, e, he => by
      rw [heapSet] at he
      rcases List.mem_cons.mp he with h1 | h1
      · by_cases hc : e0.1 = i
        · rw [if_pos hc] at h1
          refine Or.inl ⟨h1, e0.2, ?_⟩
          rw [← hc]
          exact List.mem_cons_self _ _
        · rw [if_neg hc] at h1
          subst h1
          exact Or.inr (List.mem_cons_self _ _)
      · rcases mem_heapSet h i o e h1 with ⟨h2, o2, h3⟩ | h2
        · exact Or.inl ⟨h2, o2, List.mem_cons_of_mem _ h3⟩
        · exact Or.inr (List.mem_cons_of_mem _ h2)

theorem uok_setObj {u : UState} (hok : UOK u) (i : Nat) (o : Obj)
    (ho : ∀ j ∈ objRefs o, u.next > j) : UOK (u.setObj i o) := by
  intro e he
  rcases mem_heapSet u.heap i o e he with ⟨h1, o2, h2⟩ | h1
  · subst h1
    exact ⟨(hok _ h2).1, ho⟩
  · exact hok e h1

theorem uok_memoIns {u : UState} (hok : UOK u) (p : Path) (i : ObjId) :
    UOK (memoIns p i u) := hok

theorem seqOpt_congr {α β : Type} (f g : α → Option β) :
    ∀ (l : List α), (∀ a ∈ l, f a = g a) → seqOpt f l = seqOpt g l
  | [], _ => rfl
  | a :: as, h => by
      rw [seqOpt, seqOpt, h a (List.mem_cons_self _ _),
        seqOpt_congr f g as (fun x hx => h x (List.mem_cons_of_mem _ hx))]

/-- Extraction support: reading `r` back only consults ids in `[lo, hi)`
of `base`, yielding exactly `v`. -/
def ExOK (lo hi : Nat) (base : Heap) (r : ObjId) (v : Value) : Prop :=
  lo ≤ r ∧ hi > r ∧ ∀ g, countV v < g → ∀ h2 : Heap,
    (∀ j, lo ≤ j → hi > j → Heap.find? h2 j = Heap.find? base j) →
    extract h2 g r = some v

theorem exOK_mono {lo hi lo2 hi2 : Nat} {base base2 : Heap} {r : ObjId} {v : Value}
    (h : ExOK lo hi base r v) (hlo : lo2 ≤ lo) (hhi : hi ≤ hi2)
    (hagree : ∀ j, lo ≤ j → hi > j → Heap.find? base2 j = Heap.find? base j) :
    ExOK lo2 hi2 base2 r v := by
  obtain ⟨h1, h2, h3⟩ := h
  refine ⟨by omega, by omega, ?_⟩
  intro g hg h4 hag
  apply h3 g hg
  intro j hj1 hj2
  rw [hag j (by omega) (by omega), hagree j hj1 hj2]

theorem seqOpt_extract {h2 : Heap} {g : Nat} :
    ∀ {rs : List ObjId} {vs : List Value},
    List.Forall₂ (fun r v => extract h2 g r = some v) rs vs →
    seqOpt (extract h2 g) rs = some vs := by
  intro rs vs hf
  induction hf with
  | nil => rfl
  | cons h1 h2 ih =>
      rw [seqOpt, h1, ih]
      rfl

theorem exPairs_extract {h2 : Heap} {g : Nat} :
    ∀ {rs : List (ObjId × ObjId)} {es : List (Value × Value)},
    List.Forall₂ (fun (r : ObjId × ObjId) (e : Value × Value) =>
      extract h2 g r.1 = some e.1 ∧ extract h2 g r.2 = some e.2) rs es →
    exPairs (extract h2 g) rs = some es := by
  intro rs es hf
  induction hf with
  | nil => rfl
  | cons h1 h3 ih =>
      rename_i a b as bs
      rw [exPairs, seqOpt]
      have hr : exPairs (extract h2 g) as = some bs := ih
      rw [exPairs] at hr
      rw [h1.1, h1.2, hr]
      show some ((b.1, b.2) :: bs) = some (b :: bs)
      rfl



/-! ## Static facts for the decoder proof -/

theorem store_find_left_none {A : Store} (B : Store) {q : Path}
    (h : Store.find? A q = Option.none) :
    Store.find? (A ++ B) q = Store.find? B q := by
  rw [store_find_append, h]

theorem store_find_left_some {A : Store} (B : Store) {q : Path} {nd : Node}
    (h : Store.find? A q = some nd) :
    Store.find? (A ++ B) q = some nd := by
  rw [store_find_append, h]

theorem childNames_mid {sA sB : Store} (mid : Store) {p q : Path}
    (hA : noSub sA p) (hB : noSub sB p) (hq : p <+: q) :
    Store.childNames (sA ++ mid ++ sB) q = Store.childNames mid q := by
  rw [childNames_append, childNames_append,
    childNames_nil_of_noSub (noSub_mono hA hq),
    childNames_nil_of_noSub (noSub_mono hB hq), List.append_nil]
  rfl

theorem tagNode_data (nd : Node) (t : Tag) : (tagNode nd t).data = nd.data := rfl

theorem tagNode_getAttr (nd : Node) (t : Tag) :
    (tagNode nd t).getAttr? "pickletype" = some (.tag t) := by
  show attrsFind? (("pickletype", AttrVal.tag t) :: nd.attrs) "pickletype" = _
  rw [attrsFind?, if_pos rfl]

theorem hrcNode_getAttr (nd : Node) (t : Tag) :
    (((tagNode nd t).setAttr "has_reduce_content" (.int 1)).getAttr? "pickletype")
      = some (.tag t) := by
  show attrsFind? (("has_reduce_content", AttrVal.int 1)
      :: ("pickletype", AttrVal.tag t) :: nd.attrs) "pickletype" = _
  rw [attrsFind?, if_neg (by decide), attrsFind?, if_pos rfl]

theorem hrcNode_hasAttr (nd : Node) (t : Tag) :
    ((tagNode nd t).setAttr "has_reduce_content" (.int 1)).hasAttr
      "has_reduce_content" = true := by
  show (attrsFind? (("has_reduce_content", AttrVal.int 1)
      :: ("pickletype", AttrVal.tag t) :: nd.attrs) "has_reduce_content").isSome = true
  rw [attrsFind?, if_pos rfl]
  rfl

theorem leaf_noEmpty (d : ArrData) (t : Tag) :
    (tagNode (leafOf d) t).hasAttr "empty" = false := by
  show (attrsFind? [("pickletype", AttrVal.tag t)] "empty").isSome = false
  rw [attrsFind?, if_neg (show ¬ ("pickletype" = "empty") by decide)]
  rfl

theorem leaf2_noEmpty (d : ArrData) (t t2 : Tag) :
    (tagNode (tagNode (leafOf d) t) t2).hasAttr "empty" = false := by
  show (attrsFind? [("pickletype", AttrVal.tag t2), ("pickletype", AttrVal.tag t)]
      "empty").isSome = false
  rw [attrsFind?, if_neg (show ¬ ("pickletype" = "empty") by decide),
    attrsFind?, if_neg (show ¬ ("pickletype" = "empty") by decide)]
  rfl

theorem emptyLeaf_hasEmpty (t : Tag) :
    (tagNode emptyLeaf t).hasAttr "empty" = true := by
  show (attrsFind? [("pickletype", AttrVal.tag t), ("empty", AttrVal.int 1)]
      "empty").isSome = true
  rw [attrsFind?, if_neg (show ¬ ("pickletype" = "empty") by decide),
    attrsFind?, if_pos rfl]
  rfl

theorem emptyLeaf2_hasEmpty (t t2 : Tag) :
    (tagNode (tagNode emptyLeaf t) t2).hasAttr "empty" = true := by
  show (attrsFind? [("pickletype", AttrVal.tag t2), ("pickletype", AttrVal.tag t),
      ("empty", AttrVal.int 1)] "empty").isSome = true
  rw [attrsFind?, if_neg (show ¬ ("pickletype" = "empty") by decide),
    attrsFind?, if_neg (show ¬ ("pickletype" = "empty") by decide),
    attrsFind?, if_pos rfl]
  rfl

theorem dictNames_true_eq : ∀ (asg : List (String × Bool)),
    dictNames asg true = asg.map Prod.fst
  | [] => rfl
  | (nm, d) :: asg => by
      rw [dictNames, List.map_cons, dictNames_true_eq asg]
      cases d with
      | true => rw [if_pos rfl]
      | false =>
          rw [if_neg (by simp), if_pos rfl, List.nil_append]

theorem subNames_sublist : ∀ (asg : List (String × Bool)),
    List.Sublist (subNames asg) (asg.map Prod.fst)
  | [] => List.Sublist.refl _
  | (nm, d) :: asg => by
      rw [subNames, List.map_cons]
      cases d with
      | true => rw [if_pos rfl]; exact List.Sublist.cons _ (subNames_sublist asg)
      | false =>
          rw [if_neg (by simp)]
          exact List.Sublist.cons₂ _ (subNames_sublist asg)

theorem subNames_mem : ∀ {asg : List (String × Bool)} {nm : String},
    nm ∈ subNames asg → (nm, false) ∈ asg := by
  intro asg
  induction asg with
  | nil => intro nm h; cases h
  | cons e asg ih =>
      obtain ⟨nm0, d0⟩ := e
      intro nm h
      rw [subNames] at h
      cases d0 with
      | true =>
          rw [if_pos rfl] at h
          exact List.mem_cons_of_mem _ (ih h)
      | false =>
          rw [if_neg (by simp)] at h
          rcases List.mem_cons.mp h with rfl | h2
          · exact List.mem_cons_self _ _
          · exact List.mem_cons_of_mem _ (ih h2)

theorem skFind_not_mem : ∀ (sk : List (String × ObjId)) (nm : String),
    nm ∉ sk.map Prod.fst → skFind? sk nm = Option.none
  | [], nm, _ => rfl
  | e :: sk, nm, h => by
      rw [skFind?, if_neg, skFind_not_mem sk nm]
      · intro h2
        exact h (List.mem_cons_of_mem _ h2)
      · intro h2
        exact h (by rw [List.map_cons, h2]; exact List.mem_cons_self _ _)

theorem seqOpt_int_inv : ∀ {vs : List Value} {xs : List Int},
    seqOpt (fun v => match v with | .vInt n => some n | _ => Option.none) vs
      = some xs → vs = xs.map Value.vInt := by
  intro vs
  induction vs with
  | nil =>
      intro xs h
      cases h
      rfl
  | cons v vs ih =>
      intro xs h
      rw [seqOpt] at h
      cases v with
      | vInt n =>
          cases hr : seqOpt (fun v => match v with
              | Value.vInt n => some n | _ => Option.none) vs with
          | none => rw [hr] at h; cases h
          | some ys =>
              rw [hr] at h
              cases h
              rw [ih hr]
              rfl
      | vNone => cases h
      | vBool b => cases h
      | vLong n => cases h
      | vFloat x => cases h
      | vComplex re im => cases h
      | vStr bs => cases h
      | vUnicode cs => cases h
      | vTuple vs2 => cases h
      | vList vs2 => cases h
      | vDict es => cases h
      | vInst m n fs => cases h
      | vObj m n fs => cases h
      | vGlobal m n => cases h

theorem seqOpt_float_inv : ∀ {vs : List Value} {xs : List Int},
    seqOpt (fun v => match v with | .vFloat x => some x | _ => Option.none) vs
      = some xs → vs = xs.map Value.vFloat := by
  intro vs
  induction vs with
  | nil =>
      intro xs h
      cases h
      rfl
  | cons v vs ih =>
      intro xs h
      rw [seqOpt] at h
      cases v with
      | vFloat x =>
          cases hr : seqOpt (fun v => match v with
              | Value.vFloat x => some x | _ => Option.none) vs with
          | none => rw [hr] at h; cases h
          | some ys =>
              rw [hr] at h
              cases h
              rw [ih hr]
              rfl
      | vNone => cases h
      | vBool b => cases h
      | vInt n => cases h
      | vLong n => cases h
      | vComplex re im => cases h
      | vStr bs => cases h
      | vUnicode cs => cases h
      | vTuple vs2 => cases h
      | vList vs2 => cases h
      | vDict es => cases h
      | vInst m n fs => cases h
      | vObj m n fs => cases h
      | vGlobal m n => cases h

theorem seqOpt_complex_inv : ∀ {vs : List Value} {xs : List (Int × Int)},
    seqOpt (fun v => match v with
      | .vComplex re im => some (re, im) | _ => Option.none) vs
      = some xs → vs = xs.map (fun e => Value.vComplex e.1 e.2) := by
  intro vs
  induction vs with
  | nil =>
      intro xs h
      cases h
      rfl
  | cons v vs ih =>
      intro xs h
      rw [seqOpt] at h
      cases v with
      | vComplex re im =>
          cases hr : seqOpt (fun v => match v with
              | Value.vComplex re im => some (re, im) | _ => Option.none) vs with
          | none => rw [hr] at h; cases h
          | some ys =>
              rw [hr] at h
              cases h
              rw [ih hr]
              rfl
      | vNone => cases h
      | vBool b => cases h
      | vInt n => cases h
      | vLong n => cases h
      | vFloat x => cases h
      | vStr bs => cases h
      | vUnicode cs => cases h
      | vTuple vs2 => cases h
      | vList vs2 => cases h
      | vDict es => cases h
      | vInst m n fs => cases h
      | vObj m n fs => cases h
      | vGlobal m n => cases h

theorem countV_pos : ∀ v : Value, 1 ≤ countV v := by
  intro v
  cases v <;> simp [countV]

theorem countList_ge : ∀ {v : Value} {vs : List Value}, v ∈ vs →
    countV v ≤ countList vs := by
  intro v vs
  induction vs with
  | nil => intro h; cases h
  | cons v0 vs ih =>
      intro h
      rw [countList]
      rcases List.mem_cons.mp h with rfl | h2
      · omega
      · have h3 := ih h2
        omega

theorem countPairs_ge : ∀ {k v : Value} {es : List (Value × Value)}, (k, v) ∈ es →
    countV k + countV v ≤ countPairs es := by
  intro k v es
  induction es with
  | nil => intro h; cases h
  | cons e es ih =>
      obtain ⟨k0, v0⟩ := e
      intro h
      rw [countPairs]
      rcases List.mem_cons.mp h with he | h2
      · cases he
        omega
      · have h3 := ih h2
        omega



theorem allocElems_facts : ∀ (os : List Obj) (u : UState),
    (∀ o ∈ os, objRefs o = []) → UOK u →
    (allocElems u os).2.next = u.next + os.length
    ∧ (allocElems u os).2.memo = u.memo
    ∧ UOK (allocElems u os).2
    ∧ List.Forall₂ (fun r (o : Obj) =>
        Heap.find? (allocElems u os).2.heap r = some o
        ∧ u.next ≤ r ∧ (allocElems u os).2.next > r)
      (allocElems u os).1 os
  | [], u, _, hok => ⟨rfl, rfl, hok, List.Forall₂.nil⟩
  | o :: os, u, hrefs, hok => by
      have hok1 : UOK (u.alloc o).2 :=
        uok_alloc hok o (by
          rw [hrefs o (List.mem_cons_self _ _)]
          intro j hj
          cases hj)
      obtain ⟨h1, h2, h3, h4⟩ :=
        allocElems_facts os (u.alloc o).2
          (fun o2 ho2 => hrefs o2 (List.mem_cons_of_mem _ ho2)) hok1
      rcases hae : allocElems (u.alloc o).2 os with ⟨is, u2⟩
      rw [hae] at h1 h2 h3 h4
      dsimp only at h1 h2 h3 h4
      have he : allocElems u (o :: os) = (u.next :: is, u2) := by
        simp only [allocElems, hae]
        rfl
      rw [he]
      dsimp only
      have hnext1 : (u.alloc o).2.next = u.next + 1 := rfl
      refine ⟨by rw [h1, hnext1, List.length_cons]; omega,
        by rw [h2]; rfl, h3, ?_⟩
      refine List.Forall₂.cons ⟨?_, Nat.le_refl _, ?_⟩ ?_
      · have hstab := stab_allocElems (u.alloc o).2 os
        rw [hae] at hstab
        have h5 := hstab.2 u.next (by rw [hnext1]; omega)
        rw [h5]
        exact find_alloc_self hok o
      · rw [h1, hnext1]
        have hl : 0 ≤ os.length := Nat.zero_le _
        omega
      · refine List.Forall₂.imp ?_ h4
        intro r o2 hro
        refine ⟨hro.1, ?_, hro.2.2⟩
        have h5 := hro.2.1
        rw [hnext1] at h5
        omega

theorem skFind_append (A B : List (String × ObjId)) (nm : String) :
    skFind? (A ++ B) nm
      = match skFind? A nm with
        | some k => some k
        | Option.none => skFind? B nm := by
  induction A with
  | nil => rfl
  | cons e A ih =>
      show skFind? (e :: (A ++ B)) nm = _
      rw [skFind?]
      by_cases he : e.1 = nm
      · rw [if_pos he]
        have h2 : skFind? (e :: A) nm = some e.2 := by rw [skFind?, if_pos he]
        rw [h2]
      · rw [if_neg he, ih]
        have h2 : skFind? (e :: A) nm = skFind? A nm := by rw [skFind?, if_neg he]
        rw [h2]

/-- Facts the dict-row loop needs about the surrogate-key table: every
direct key resolves to its name with no surrogate shadowing it, every
surrogate key resolves to an already-loaded object extracting to the
original key value. -/
def KeyFacts (lo hi : Nat) (base : Heap) (strkeys : List (String × ObjId)) :
    List (Value × Value) → List (String × Bool) → Prop
  | [], [] => True
  | (k, _) :: es, (nm, true) :: asg =>
      (vDirectName k = some nm ∧ skFind? strkeys nm = Option.none)
      ∧ KeyFacts lo hi base strkeys es asg
  | (k, _) :: es, (nm, false) :: asg =>
      (∃ kid, skFind? strkeys nm = some kid ∧ ExOK lo hi base kid k)
      ∧ KeyFacts lo hi base strkeys es asg
  | _, _ => False

/-- What the surrogate-key loader actually produces, in order. -/
def KeyOut (lo hi : Nat) (base : Heap) :
    List (Value × Value) → List (String × Bool) → List (String × ObjId) → Prop
  | [], [], [] => True
  | (k, _) :: es, (nm, true) :: asg, sk =>
      vDirectName k = some nm ∧ KeyOut lo hi base es asg sk
  | (k, _) :: es, (nm, false) :: asg, (nm2, kid) :: sk =>
      nm2 = nm ∧ ExOK lo hi base kid k ∧ KeyOut lo hi base es asg sk
  | _, _, _ => False

theorem keyOut_names {lo hi : Nat} {base : Heap} :
    ∀ {es : List (Value × Value)} {asg : List (String × Bool)}
      {sk : List (String × ObjId)},
    KeyOut lo hi base es asg sk → sk.map Prod.fst = subNames asg
  | [], [], [], _ => rfl
  | [], [], _ :: _, hko => absurd hko (fun h => h)
  | [], (nm, d) :: asg, sk, hko => absurd hko (by cases d <;> exact fun h => h)
  | (k, v) :: es, [], sk, hko => absurd hko (fun h => h)
  | (k, v) :: es, (nm, true) :: asg, sk, hko => by
      have hko' : vDirectName k = some nm ∧ KeyOut lo hi base es asg sk := hko
      show List.map Prod.fst sk = if true = true then subNames asg else _
      rw [if_pos rfl]
      exact keyOut_names hko'.2
  | (k, v) :: es, (nm, false) :: asg, [], hko => absurd hko (fun h => h)
  | (k, v) :: es, (nm, false) :: asg, (nm2, kid) :: sk, hko => by
      have hko' : nm2 = nm ∧ ExOK lo hi base kid k ∧ KeyOut lo hi base es asg sk := hko
      show List.map Prod.fst ((nm2, kid) :: sk)
          = if false = true then subNames asg else nm :: subNames asg
      rw [if_neg (fun h => Bool.noConfusion h), List.map_cons, hko'.1,
        keyOut_names hko'.2.2]

theorem keyFacts_aux {lo hi : Nat} {base : Heap} :
    ∀ (es : List (Value × Value)) (asg : List (String × Bool))
      (sk pre : List (String × ObjId)),
    KeyOut lo hi base es asg sk →
    ((pre ++ sk).map Prod.fst).Nodup →
    (∀ nm d, (nm, d) ∈ asg → d = true → nm ∉ (pre ++ sk).map Prod.fst) →
    (∀ nm, nm ∈ subNames asg → nm ∉ pre.map Prod.fst) →
    KeyFacts lo hi base (pre ++ sk) es asg
  | [], [], [], pre, _, _, _, _ => trivial
  | [], [], _ :: _, pre, hko, _, _, _ => absurd hko (fun h => h)
  | [], (nm, d) :: asg, sk, pre, hko, _, _, _ =>
      absurd hko (by cases d <;> exact fun h => h)
  | (k, v) :: es, [], sk, pre, hko, _, _, _ => absurd hko (fun h => h)
  | (k, v) :: es, (nm, true) :: asg, sk, pre, hko, hnd, hdirect, hpre => by
      have hko' : vDirectName k = some nm ∧ KeyOut lo hi base es asg sk := hko
      show (vDirectName k = some nm ∧ skFind? (pre ++ sk) nm = Option.none)
          ∧ KeyFacts lo hi base (pre ++ sk) es asg
      refine ⟨⟨hko'.1, skFind_not_mem _ _
        (hdirect nm true (List.mem_cons_self _ _) rfl)⟩, ?_⟩
      refine keyFacts_aux es asg sk pre hko'.2 hnd ?_ ?_
      · exact fun nm2 d2 hm hd2 => hdirect nm2 d2 (List.mem_cons_of_mem _ hm) hd2
      · intro nm2 hm
        apply hpre nm2
        show nm2 ∈ if true = true then subNames asg else _
        rw [if_pos rfl]
        exact hm
  | (k, v) :: es, (nm, false) :: asg, [], pre, hko, _, _, _ =>
      absurd hko (fun h => h)
  | (k, v) :: es, (nm, false) :: asg, (nm2, kid) :: sk2, pre, hko, hnd,
      hdirect, hpre => by
      have hko' : nm2 = nm ∧ ExOK lo hi base kid k
          ∧ KeyOut lo hi base es asg sk2 := hko
      obtain ⟨rfl, hex, hko2⟩ := hko'
      have hnames2 := keyOut_names hko2
      have hsubm : nm2 ∈ subNames ((nm2, false) :: asg) := by
        show nm2 ∈ if false = true then subNames asg else nm2 :: subNames asg
        rw [if_neg (fun h => Bool.noConfusion h)]
        exact List.mem_cons_self _ _
      have hnm_pre : nm2 ∉ pre.map Prod.fst := hpre nm2 hsubm
      have hfind : skFind? (pre ++ (nm2, kid) :: sk2) nm2 = some kid := by
        rw [skFind_append, skFind_not_mem pre nm2 hnm_pre, skFind?,
          if_pos rfl]
      show (∃ kid2, skFind? (pre ++ (nm2, kid) :: sk2) nm2 = some kid2
          ∧ ExOK lo hi base kid2 k)
        ∧ KeyFacts lo hi base (pre ++ (nm2, kid) :: sk2) es asg
      refine ⟨⟨kid, hfind, hex⟩, ?_⟩
      have happ : pre ++ (nm2, kid) :: sk2 = (pre ++ [(nm2, kid)]) ++ sk2 := by
        simp
      have hnd2 : (((pre ++ [(nm2, kid)]) ++ sk2).map Prod.fst).Nodup := by
        rw [← happ]
        exact hnd
      have hnm_sk2 : nm2 ∉ sk2.map Prod.fst := by
        intro hm
        have h2 : ((pre ++ (nm2, kid) :: sk2).map Prod.fst).Nodup := hnd
        rw [List.map_append, List.map_cons] at h2
        have h3 := (List.nodup_append.mp h2).2
        have h4 := (List.nodup_cons.mp h3.1).1
        exact h4 hm
      rw [happ]
      refine keyFacts_aux es asg sk2 (pre ++ [(nm2, kid)]) hko2 hnd2 ?_ ?_
      · intro nm3 d3 hm hd3
        rw [← happ]
        exact hdirect nm3 d3 (List.mem_cons_of_mem _ hm) hd3
      · intro nm3 hm3
        rw [List.map_append]
        intro h6
        rcases List.mem_append.mp h6 with h7 | h7
        · refine hpre nm3 ?_ h7
          show nm3 ∈ if false = true then subNames asg else nm2 :: subNames asg
          rw [if_neg (fun h => Bool.noConfusion h)]
          exact List.mem_cons_of_mem _ hm3
        · have h8 : nm3 = nm2 := by simpa using h7
          subst h8
          rw [← hnames2] at hm3
          exact hnm_sk2 hm3

theorem dunder_mem_dictNames : ∀ (asg : List (String × Bool)),
    (∃ nm, (nm, false) ∈ asg) → "__" ∈ dictNames asg false
  | [], h => by
      obtain ⟨nm, hm⟩ := h
      cases hm
  | (nm0, d0) :: asg, h => by
      rw [dictNames]
      cases d0 with
      | true =>
          rw [if_pos rfl]
          apply List.mem_cons_of_mem
          apply dunder_mem_dictNames asg
          obtain ⟨nm, hm⟩ := h
          rcases List.mem_cons.mp hm with he | hm2
          · cases he
          · exact ⟨nm, hm2⟩
      | false =>
          rw [if_neg (fun h2 => Bool.noConfusion h2),
            if_neg (fun h2 => Bool.noConfusion h2)]
          exact List.mem_cons_of_mem _ (List.mem_append_left _
            (List.mem_cons_self _ _))

theorem mem_dictNames : ∀ (asg : List (String × Bool)) (hassub : Bool)
    (nm : String), nm ∈ dictNames asg hassub →
    nm = "__" ∨ nm ∈ asg.map Prod.fst
  | [], _, nm, h => by cases h
  | (nm0, d0) :: asg, hassub, nm, h => by
      rw [dictNames] at h
      rcases List.mem_cons.mp h with rfl | h2
      · exact Or.inr (by rw [List.map_cons]; exact List.mem_cons_self _ _)
      · cases d0 with
        | true =>
            rw [if_pos rfl] at h2
            rcases mem_dictNames asg hassub nm h2 with h3 | h3
            · exact Or.inl h3
            · exact Or.inr (by rw [List.map_cons]; exact List.mem_cons_of_mem _ h3)
        | false =>
            rw [if_neg (fun h2 => Bool.noConfusion h2)] at h2
            rcases List.mem_append.mp h2 with h3 | h3
            · cases hassub with
              | true => rw [if_pos rfl] at h3; cases h3
              | false =>
                  rw [if_neg (fun h2 => Bool.noConfusion h2)] at h3
                  have h4 : nm = "__" := by
                    rcases List.mem_cons.mp h3 with h5 | h5
                    · exact h5
                    · cases h5
                  exact Or.inl h4
            · rcases mem_dictNames asg true nm h3 with h4 | h4
              · exact Or.inl h4
              · exact Or.inr (by rw [List.map_cons]; exact List.mem_cons_of_mem _ h4)

theorem store_find_none_of_ne {s : Store} {q : Path}
    (h : ∀ e ∈ s, e.1 ≠ q) : Store.find? s q = Option.none := by
  induction s with
  | nil => rfl
  | cons e s ih =>
      rw [store_find_cons, if_neg (h e (List.mem_cons_self _ _)),
        ih (fun x hx => h x (List.mem_cons_of_mem _ hx))]

theorem encDictRows_paths : ∀ (es : List (Value × Value))
    (asg : List (String × Bool)) (p : Path) (hassub : Bool) (e : Path × Node),
    e ∈ encDictRows es asg p hassub →
    (∃ nm d t, (nm, d) ∈ asg ∧ e.1 = p ++ nm :: t)
    ∨ (∃ nm t, (nm, false) ∈ asg ∧ e.1 = p ++ "__" :: nm :: t)
    ∨ e.1 = p ++ ["__"]
  | [], _, p, hassub, e => by
      intro h
      cases h
  | _ :: _, [], p, hassub, e => by
      intro h
      cases h
  | (k, v) :: es, (nm, d) :: asg, p, hassub, e => by
      intro h
      rw [encDictRows] at h
      rcases List.mem_append.mp h with h1 | h1
      · obtain ⟨t, ht⟩ := encTree_prefix v (p ++ [nm]) e h1
        refine Or.inl ⟨nm, d, t, List.mem_cons_self _ _, ?_⟩
        rw [← ht, List.append_assoc]
        rfl
      · by_cases hd : d = true
        · rw [if_pos hd] at h1
          rcases encDictRows_paths es asg p hassub e h1 with ⟨nm2, d2, t, hm, ht⟩ | h2 | h2
          · exact Or.inl ⟨nm2, d2, t, List.mem_cons_of_mem _ hm, ht⟩
          · obtain ⟨nm2, t, hm, ht⟩ := h2
            exact Or.inr (Or.inl ⟨nm2, t, List.mem_cons_of_mem _ hm, ht⟩)
          · exact Or.inr (Or.inr h2)
        · rw [if_neg hd] at h1
          have hd' : d = false := by
            revert hd
            cases d <;> simp
          subst hd'
          rcases List.mem_append.mp h1 with h2 | h2
          · rcases List.mem_append.mp h2 with h3 | h3
            · cases hassub with
              | true =>
                  rw [if_pos rfl] at h3
                  cases h3
              | false =>
                  rw [if_neg (fun h2 => Bool.noConfusion h2)] at h3
                  have h4 : e = (p ++ ["__"], groupNode) := List.mem_singleton.mp h3
                  subst h4
                  exact Or.inr (Or.inr rfl)
            · obtain ⟨t, ht⟩ := encTree_prefix k (p ++ ["__", nm]) e h3
              refine Or.inr (Or.inl ⟨nm, t, List.mem_cons_self _ _, ?_⟩)
              rw [← ht, List.append_assoc]
              rfl
          · rcases encDictRows_paths es asg p true e h2 with ⟨nm2, d2, t, hm, ht⟩ | h3 | h3
            · exact Or.inl ⟨nm2, d2, t, List.mem_cons_of_mem _ hm, ht⟩
            · obtain ⟨nm2, t, hm, ht⟩ := h3
              exact Or.inr (Or.inl ⟨nm2, t, List.mem_cons_of_mem _ hm, ht⟩)
            · exact Or.inr (Or.inr h3)


/-- The one-object cycle `a = [a]` (the list contains itself). -/
def cycHeap : Heap := [(0, Obj.pyList [0])]

/-- Encode the cycle, then decode it with a fresh session. -/
def cycDecoded : Except Err (ObjId × UState) :=
  match dumpObj cycHeap 5 root0 ["x"] 0 with
  | .ok s => loadObj s 5 ["x"]
  | .error e => .error e

/-- C3: `_save` terminates on every picklable heap — self-referential
objects included — with any fuel above the count of unmemoized
identities, because each unvisited object is memoized before its
children are saved; the cycle `a = [a]` is a picklable heap, its encode
finishes within that bound (`unmem = 1`, fuel `2`), the inner
occurrence is written as a `REF` group pointing back at the list's own
path, and decoding the result terminates with an equivalent cycle: a
list whose sole element is its own identity. -/
theorem self_referential_cycle_roundtrip :
    (∀ (h : Heap) (st : PState) (path : Path) (oid : ObjId) (fuel : Nat),
        heapOK h = true → (Heap.find? h oid).isSome = true →
        unmem h st < fuel →
        ∃ st', saveObj h fuel path oid st = .ok st')
    ∧ heapOK cycHeap = true
    ∧ unmem cycHeap { paths := [], store := picklerInit root0 } = 1
    ∧ (∃ st', saveObj cycHeap 2 ["x"] 0 { paths := [], store := picklerInit root0 }
        = .ok st')
    ∧ ((dumpObj cycHeap 5 root0 ["x"] 0).map fun s =>
        ((Store.find? s ["x"]).map fun nd => nd.getAttr? "pickletype",
         Store.find? s ["x", "_0"])) =
      .ok (some (some (.tag .tList)),
           some { data := .group,
                  attrs := [("target", .path ["x"]),
                            ("pickletype", .tag .tRef)] })
    ∧ (cycDecoded.map fun r => (r.1, Heap.find? r.2.heap r.1)) =
      .ok (0, some (.pyList [0])) := by
  refine ⟨fun h st path oid fuel hok hoid hum =>
      saveObj_total h hok fuel st path oid hoid hum,
    rfl, rfl, ⟨_, rfl⟩, rfl, rfl⟩

/-! ## C4 — the freshly constructed object is memoized before its state -/

/-- An INST node at the root whose single attribute `a` is a reference
back to the root: the Python shape `obj.a = obj` without
`__getstate__`, stored through the dict-content route. -/
def instSelfStore : Store :=
  [([], { data := .group, attrs := [("pickletype", .tag .tInst)] }),
   (["__"], groupNode),
   (["__", "cls"],
     { data := .arr (.byteVec (strB "mod" ++ [10] ++ strB "Cls")),
       attrs := [("pickletype", .tag .tGlobal)] }),
   (["__", "args"],
     { data := .arr (.intVec [0]),
       attrs := [("pickletype", .tag .tTuple), ("empty", .int 1)] }),
   (["a"], { data := .group,
             attrs := [("pickletype", .tag .tRef), ("target", .path [])] })]

/-- A REDUCE node at the root whose stored state is the dict
`{"a": obj}` with `obj` the node itself: `obj.a = obj` through
`__reduce_ex__` with a state dict under `__/content`. -/
def reduceSelfStore : Store :=
  [([], { data := .group, attrs := [("pickletype", .tag .tReduce)] }),
   (["__"], groupNode),
   (["__", "cls"],
     { data := .arr (.byteVec (strB "mod" ++ [10] ++ strB "Obj")),
       attrs := [("pickletype", .tag .tGlobal)] }),
   (["__", "args"],
     { data := .arr (.intVec [0]),
       attrs := [("pickletype", .tag .tTuple), ("empty", .int 1)] }),
   (["__", "content"], { data := .group, attrs := [("pickletype", .tag .tDict)] }),
   (["__", "content", "a"],
     { data := .group, attrs := [("pickletype", .tag .tRef), ("target", .path [])] })]

/-- C4: for an INST node (and a REDUCE node) with stored state, once
`cls` and `args` have loaded, the decoder allocates the blank instance
and the state loader is invoked on a memo that already maps the node's
path to the instance's id — the very id the load returns — and the
state is applied to that id afterwards.  Consequently a self-reference
inside the state resolves to the object under construction: decoding
the `obj.a = obj` fixtures yields an object whose `a` field holds the
result's own id, for both the INST dict-content route and the REDUCE
state-dict route. -/
theorem reduce_inst_memoized_before_state :
    (∀ (s : Store) (ld : Loader) (p : Path) (nd : Node) (u : UState)
        (c : ObjId) (u1 : UState) (a : ObjId) (u2 : UState)
        (r : ObjId) (u' : UState),
        ld (p ++ ["__", "cls"]) u = .ok (c, u1) →
        ld (p ++ ["__", "args"]) u1 = .ok (a, u2) →
        checkEmptyArgs u2 a = .ok () →
        Store.hasPath s (p ++ ["__", "content"]) = true →
        loadTagged s ld .tInst p nd u = .ok (r, u') →
        r = (u2.alloc (.pyInst c a [])).1
        ∧ (memoIns p r (u2.alloc (.pyInst c a [])).2).lookupMemo p = some r
        ∧ ∃ sid u4,
            ld (p ++ ["__", "content"]) (memoIns p r (u2.alloc (.pyInst c a [])).2)
              = .ok (sid, u4)
            ∧ applyState u4 r sid = .ok u')
    ∧ (∀ (s : Store) (ld : Loader) (p : Path) (nd : Node) (u : UState)
        (a : ObjId) (u1 : UState) (c : ObjId) (u2 : UState)
        (r : ObjId) (u' : UState),
        ld (p ++ ["__", "args"]) u = .ok (a, u1) →
        Store.hasPath s (p ++ ["__", "func"]) = false →
        ld (p ++ ["__", "cls"]) u1 = .ok (c, u2) →
        checkEmptyArgs u2 a = .ok () →
        Store.hasPath s (p ++ ["__", "listitems"]) = false →
        Store.hasPath s (p ++ ["__", "dictitems"]) = false →
        Store.hasPath s (p ++ ["__", "content"]) = true →
        loadTagged s ld .tReduce p nd u = .ok (r, u') →
        r = (u2.alloc (.pyObj c a [])).1
        ∧ (memoIns p r (u2.alloc (.pyObj c a [])).2).lookupMemo p = some r
        ∧ ∃ sid u4,
            ld (p ++ ["__", "content"]) (memoIns p r (u2.alloc (.pyObj c a [])).2)
              = .ok (sid, u4)
            ∧ (Heap.find? u4.heap sid = some .pyNone ∧ u' = u4
               ∨ applyState u4 r sid = .ok u'))
    ∧ ((loadObj instSelfStore 6 []).map fun res =>
        (res.1, Heap.find? res.2.heap res.1, Heap.find? res.2.heap 4)) =
      .ok (3, some (.pyInst 0 2 [(4, 3)]), some (.pyStr (strB "a")))
    ∧ ((loadObj reduceSelfStore 6 []).map fun res =>
        (res.1, Heap.find? res.2.heap res.1, Heap.find? res.2.heap 5)) =
      .ok (3, some (.pyObj 2 1 [(5, 3)]), some (.pyStr (strB "a"))) := by
  refine ⟨?_, ?_, rfl, rfl⟩
  · intro s ld p nd u c u1 a u2 r u' h1 h2 hc hcp h
    simp only [loadTagged] at h
    rw [h1] at h
    simp only [Bind.bind, Except.bind] at h
    rw [h2] at h
    simp only [Bind.bind, Except.bind] at h
    rw [hc] at h
    simp only [Bind.bind, Except.bind] at h
    rw [hcp] at h
    simp only [if_true] at h
    match hcon : ld (p ++ ["__", "content"])
        (memoIns p (u2.alloc (.pyInst c a [])).1 (u2.alloc (.pyInst c a [])).2) with
    | .error e => rw [hcon] at h; simp [Bind.bind, Except.bind] at h
    | .ok (sid, u4) =>
      rw [hcon] at h
      simp only [Bind.bind, Except.bind] at h
      match hap : applyState u4 (u2.alloc (.pyInst c a [])).1 sid with
      | .error e => rw [hap] at h; simp [Bind.bind, Except.bind] at h
      | .ok u5 =>
        rw [hap] at h
        simp only [Bind.bind, Except.bind] at h
        cases h
        exact ⟨rfl, by simp [memoIns, UState.lookupMemo, memoFind?],
               sid, u4, hcon, hap⟩
  · intro s ld p nd u a u1 c u2 r u' h2 hfn h1 hc hli hdi hcp h
    simp only [loadTagged] at h
    rw [h2] at h
    simp only [Bind.bind, Except.bind] at h
    rw [hfn] at h
    simp only [Bool.false_eq_true, if_false] at h
    rw [h1] at h
    simp only [Bind.bind, Except.bind] at h
    rw [hc] at h
    simp only [Bind.bind, Except.bind] at h
    rw [hli, hdi, hcp] at h
    simp only [Bool.false_eq_true, if_false, if_true] at h
    match hcon : ld (p ++ ["__", "content"])
        (memoIns p (u2.alloc (.pyObj c a [])).1 (u2.alloc (.pyObj c a [])).2) with
    | .error e => rw [hcon] at h; simp [Bind.bind, Except.bind] at h
    | .ok (sid, u4) =>
      rw [hcon] at h
      simp only [Bind.bind, Except.bind] at h
      split at h
      next x hnone =>
        cases h
        exact ⟨rfl, by simp [memoIns, UState.lookupMemo, memoFind?],
               sid, _, hcon, Or.inl ⟨hnone, rfl⟩⟩
      next =>
        match hap : applyState u4 (u2.alloc (.pyObj c a [])).1 sid with
        | .error e => rw [hap] at h; simp [Bind.bind, Except.bind] at h
        | .ok u5 =>
          rw [hap] at h
          simp only [Bind.bind, Except.bind] at h
          cases h
          exact ⟨rfl, by simp [memoIns, UState.lookupMemo, memoFind?],
                 sid, u4, hcon, Or.inr hap⟩

end Hdf5Pickle
